import Mathlib

/-!
# LZW with escape codes and dictionary pruning

A shallow embedding of `stringTable.c` and `lzw.c`.

* C arrays are total maps on `Nat`; cells the source never reads keep a default value.
* A pointer into `table->array` is the index of the cell; `NULL` is `none`.
* A C function that does not return normally (a probe loop that cycles for ever, a
  dereferenced `NULL`) yields `none` in the outer `Option`.
* `unsigned long` arithmetic of the recency tracker is taken modulo `2 ^ 64`.
-/

set_option autoImplicit false

namespace LZW

/-! ## Constants of `stringTable.h` and `lzw.c` -/

def ESCAPE_CODE : Nat := 0
def GROW_NBITS_CODE : Nat := 1
def PRUNE_CODE : Nat := 2
def STOP_CODE : Nat := 3
def NUM_SPECIAL_CODES : Nat := 4
def EMPTY_PREFIX : Nat := 0
def NBITS_MAXBITS : Nat := 5
def NBITS_WINDOW : Nat := 24
def NBITS_EFLAG : Nat := 1

/-- An entry of the string table (`tableElt`); `pfx` is the source's field `prefix`. -/
structure tableElt where
  pfx : Nat
  k : Nat
  code : Nat
deriving DecidableEq, Repr

/-- The string table: `array` is indexed by code, `hash` holds pointers (indices) into
`array`. -/
structure stringTable where
  array : Nat → tableElt
  hash : Nat → Option Nat
  arraySize : Nat
  hashSize : Nat
  highestCode : Nat
  eFlag : Bool

/-- Recency tracker (`pruneInfo`). -/
structure pruneInfo where
  lastSeen : Nat → Nat
  counter : Nat

/-- Writing one cell of a C array. -/
def setCell {α : Type} (f : Nat → α) (i : Nat) (v : α) : Nat → α :=
  fun j => if j = i then v else f j

/-! ## `stringTable.c` -/

/-- `(prefix << 8 | appendChar) % hashtableSize` on `unsigned int`. -/
def hashFunc (pfx appendChar hashtableSize : Nat) : Nat :=
  (((pfx * 256) % 2 ^ 32) ||| appendChar) % hashtableSize

def tableEltMatch (pfx appendChar : Nat) (elt : tableElt) : Bool :=
  elt.pfx == pfx && elt.k == appendChar

/-- `table->highestCode == table->arraySize - 1` on `unsigned int`. -/
def stringTableIsFull (table : stringTable) : Bool :=
  table.highestCode == (table.arraySize + 2 ^ 32 - 1) % 2 ^ 32

/-- The probe loop of `stringTableHashSearch`, started at `hashIndex`. The probe sequence
has period `hashSize`, so a loop that has not stopped after `hashSize` probes never stops:
with the fuel exhausted the result is `none`. -/
def searchLoop (table : stringTable) (pfx appendChar : Nat) :
    Nat → Nat → Option (Option tableElt)
  | 0, _ => none
  | fuel + 1, hashIndex =>
    match table.hash hashIndex with
    | none => some none
    | some idx =>
      if tableEltMatch pfx appendChar (table.array idx) then some (some (table.array idx))
      else searchLoop table pfx appendChar fuel ((hashIndex + 1) % table.hashSize)

def stringTableHashSearch (table : stringTable) (pfx appendChar : Nat) :
    Option (Option tableElt) :=
  searchLoop table pfx appendChar table.hashSize (hashFunc pfx appendChar table.hashSize)

def stringTableCodeSearch (table : stringTable) (code : Nat) : Option tableElt :=
  if code > table.highestCode || code < NUM_SPECIAL_CODES then none
  else some (table.array code)

/-- The loop of `stringTableAdd` that looks for the first empty hash slot. -/
def findEmpty (table : stringTable) : Nat → Nat → Option Nat
  | 0, _ => none
  | fuel + 1, hashIndex =>
    match table.hash hashIndex with
    | none => some hashIndex
    | some _ => findEmpty table fuel ((hashIndex + 1) % table.hashSize)

/-- The function `stringTableAdd`: the new table, the returned flag and the value written
through `code`. The increment of `highestCode` cannot wrap: it is below `arraySize`, or
bounded by the number of hash slots. -/
def stringTableAdd (table : stringTable) (pfx appendChar : Nat) :
    Option (stringTable × Bool × Nat) :=
  match stringTableHashSearch table pfx appendChar with
  | none => none
  | some (some elt) => some (table, false, elt.code)
  | some none =>
    if stringTableIsFull table then some (table, false, 0)
    else
      let arrayIndex := table.highestCode + 1
      match findEmpty table table.hashSize (hashFunc pfx appendChar table.hashSize) with
      | none => none
      | some hashIndex =>
        some ({ table with
                  highestCode := arrayIndex
                  array := setCell table.array arrayIndex ⟨pfx, appendChar, arrayIndex⟩
                  hash := setCell table.hash hashIndex (some arrayIndex) },
              true, arrayIndex)

/-- The loop of `stringTableInit` over `i = 0 .. 255`, as `initLoop 256`. -/
def initLoop : Nat → stringTable → Option stringTable
  | 0, table => some table
  | n + 1, table =>
    match initLoop n table with
    | none => none
    | some t =>
      match stringTableAdd t EMPTY_PREFIX n with
      | none => none
      | some r => some r.1

def stringTableInit (table : stringTable) : Option stringTable :=
  if table.eFlag == false then initLoop 256 table else some table

/-- The function `createTable`; the cells of the fresh `array` are never read before they
are written. -/
def createTable (numCodes : Nat) (eFlag : Bool) : Option stringTable :=
  stringTableInit
    { highestCode := NUM_SPECIAL_CODES - 1
      eFlag := eFlag
      arraySize := numCodes
      array := fun _ => ⟨0, 0, 0⟩
      hashSize := (numCodes * 2 + 1) % 2 ^ 32
      hash := fun _ => none }

def stringTableNew (maxBits : Nat) (eFlag : Bool) : Option stringTable :=
  createTable ((1 <<< maxBits) % 2 ^ 32) eFlag

/-! ### Pruning -/

def pruneInfoNew (_maxBits : Nat) : pruneInfo :=
  { lastSeen := fun _ => 0, counter := 1 }

/-- The function `pruneInfoSawCode`; `counter` is an `unsigned long`. -/
def pruneInfoSawCode (pi : pruneInfo) (code : Nat) : pruneInfo :=
  { lastSeen := setCell pi.lastSeen code pi.counter
    counter := (pi.counter + 1) % 2 ^ 64 }

/-- The function `recursiveAdd`. The recursion follows prefix links of `oldTable`; a chain
of more than `highestCode` links repeats a code and never ends, so the fuel
`oldTable.highestCode + 1` is exhausted only by a recursion that does not return. A `NULL`
element (`none`) is dereferenced at once. -/
def recursiveAdd (oldTable : stringTable) (oldPi : pruneInfo) :
    Nat → stringTable → Option tableElt → pruneInfo → Option (stringTable × pruneInfo × Nat)
  | 0, _, _, _ => none
  | fuel + 1, newTable, eltToAdd, newPi =>
    match eltToAdd with
    | none => none
    | some elt =>
      match (if elt.pfx != EMPTY_PREFIX then
               recursiveAdd oldTable oldPi fuel newTable
                 (stringTableCodeSearch oldTable elt.pfx) newPi
             else some (newTable, newPi, EMPTY_PREFIX)) with
      | none => none
      | some (newTable1, newPi1, newPrefix) =>
        match stringTableAdd newTable1 newPrefix elt.k with
        | none => none
        | some (newTable2, _, newCode) =>
          some (newTable2,
                { newPi1 with
                    lastSeen := setCell newPi1.lastSeen newCode (oldPi.lastSeen elt.code) },
                newCode)

/-- The test `oldPi->lastSeen[i] > oldPi->counter - window` on `unsigned long`. -/
def retained (oldPi : pruneInfo) (window : Nat) (i : Nat) : Bool :=
  oldPi.lastSeen i > (oldPi.counter + (2 ^ 64 - window % 2 ^ 64)) % 2 ^ 64

/-- The loop of `stringTablePrune` over `i`, with `n` iterations left. -/
def pruneLoop (table : stringTable) (oldPi : pruneInfo) (window : Nat) :
    Nat → Nat → stringTable → pruneInfo → Nat → Option (stringTable × pruneInfo × Nat)
  | 0, _, newTable, pi, codeToUpdate => some (newTable, pi, codeToUpdate)
  | n + 1, i, newTable, pi, codeToUpdate =>
    if retained oldPi window i then
      match recursiveAdd table oldPi (table.highestCode + 1) newTable
              (some (table.array i)) pi with
      | none => none
      | some (newTable1, pi1, newCode) =>
        pruneLoop table oldPi window n (i + 1) newTable1 pi1
          (if (table.array i).code == codeToUpdate then newCode else codeToUpdate)
    else pruneLoop table oldPi window n (i + 1) newTable pi codeToUpdate

/-- The function `stringTablePrune`: the new table, the live `pi` after the call and the
value left in `*codeToUpdate`. -/
def stringTablePrune (table : stringTable) (pi : pruneInfo) (window : Nat)
    (codeToUpdate : Nat) : Option (stringTable × pruneInfo × Nat) :=
  let oldPi := pi
  let pi0 : pruneInfo :=
    { lastSeen := fun i => if i < table.arraySize then 0 else pi.lastSeen i
      counter := pi.counter }
  match createTable table.arraySize table.eFlag with
  | none => none
  | some newTable =>
    pruneLoop table oldPi window (table.highestCode + 1 - NUM_SPECIAL_CODES)
      NUM_SPECIAL_CODES newTable pi0 codeToUpdate

/-! ## Bit input and output (`code.h`) -/

/-- Modelled from the spec: `putBits(width, value)` of `code.h`, which is not among the
sources; it appends the low `width` bits of `value`, most significant bit first. -/
def putBits : Nat → Nat → List Bool
  | 0, _ => []
  | width + 1, value => value.testBit width :: putBits width value

/-- Reading `width` bits into an accumulator. -/
def getBitsAux : Nat → Nat → List Bool → Option (Nat × List Bool)
  | 0, acc, input => some (acc, input)
  | _ + 1, _, [] => none
  | width + 1, acc, b :: input => getBitsAux width (2 * acc + b.toNat) input

/-- Modelled from the spec: `getBits(width)` of `code.h`, which is not among the sources;
it consumes the next `width` bits, most significant bit first, and is `none` (the `EOF`
sentinel) when the stream ends inside the field. -/
def getBits (width : Nat) (input : List Bool) : Option (Nat × List Bool) :=
  getBitsAux width 0 input

/-- Modelled from the spec: `flushBits()` of `code.h`, which is not among the sources; it
pads the last partial byte with zeros. -/
def flushBits (bits : List Bool) : List Bool :=
  bits ++ List.replicate ((8 - bits.length % 8) % 8) false

/-- The bytes spelled by a bit sequence, eight bits a byte, most significant bit first. -/
def packBytes : List Bool → List Nat
  | b7 :: b6 :: b5 :: b4 :: b3 :: b2 :: b1 :: b0 :: rest =>
    (128 * b7.toNat + 64 * b6.toNat + 32 * b5.toNat + 16 * b4.toNat + 8 * b3.toNat
      + 4 * b2.toNat + 2 * b1.toNat + b0.toNat) :: packBytes rest
  | _ => []

/-- The bits of a byte sequence. -/
def unpackBytes : List Nat → List Bool
  | [] => []
  | b :: rest => putBits 8 b ++ unpackBytes rest

/-- The bits written by a sequence of `putBits` calls. -/
def fieldBits : List (Nat × Nat) → List Bool
  | [] => []
  | f :: rest => putBits f.1 f.2 ++ fieldBits rest

/-! ## `lzw.c`: the encoder -/

/-- The function `checkNbits`: the `putBits` calls made and the new `nbits`. -/
def checkNbits (nbits : Nat) (table : stringTable) : List (Nat × Nat) × Nat :=
  if table.highestCode > (1 <<< nbits) - 1 then ([(nbits, GROW_NBITS_CODE)], nbits + 1)
  else ([], nbits)

/-- The function `escapeChar`. -/
def escapeChar (table : stringTable) (pi : pruneInfo) (k nbits : Nat) :
    Option (List (Nat × Nat) × stringTable × pruneInfo × Nat) :=
  match stringTableAdd table EMPTY_PREFIX k with
  | none => none
  | some (table1, _, newCode) =>
    let pi1 := pruneInfoSawCode pi newCode
    let g := checkNbits nbits table1
    some ([(nbits, ESCAPE_CODE), (8, k)] ++ g.1, table1, pi1, g.2)

/-- The loop `for(nbits = 2; (1 << nbits) - 1 < highestCode; nbits++);`. -/
def nbitsLoop : Nat → Nat → Nat → Nat
  | 0, nbits, _ => nbits
  | fuel + 1, nbits, highestCode =>
    if (1 <<< nbits) - 1 < highestCode then nbitsLoop fuel (nbits + 1) highestCode
    else nbits

/-- The width recomputed after a prune. -/
def nbitsFor (highestCode : Nat) : Nat := nbitsLoop highestCode 2 highestCode

/-- The function `checkPrune`: the `putBits` calls made, the returned table, `pi`,
`*oldPrefix` and `*nbits`. -/
def checkPrune (table : stringTable) (pi : pruneInfo) (window oldPrefix nbits : Nat) :
    Option (List (Nat × Nat) × stringTable × pruneInfo × Nat × Nat) :=
  if window > 0 && stringTableIsFull table then
    match stringTablePrune table pi window oldPrefix with
    | none => none
    | some (table1, pi1, _) =>
      some ([(nbits, PRUNE_CODE)], table1, pi1, EMPTY_PREFIX, nbitsFor table1.highestCode)
  else some ([], table, pi, oldPrefix, nbits)

/-- One round of the `while` loop of `encode`, for the byte `k`: the `putBits` calls in
order and the values of `table`, `pi`, `c` and `nbits` after the round. After the escape of
the last branch the source calls `checkPrune` without storing the table it returns
(line 154), so `table` keeps its value; the last component says that this call has pruned:
`table` then points to the table that `stringTablePrune` has freed. -/
def encodeRound (window k : Nat) (table : stringTable) (pi : pruneInfo) (c nbits : Nat) :
    Option (List (Nat × Nat) × stringTable × pruneInfo × Nat × Nat × Bool) :=
  match stringTableHashSearch table c k with
  | none => none
  | some (some elt) => some ([], table, pi, elt.code, nbits, false)
  | some none =>
    if c == EMPTY_PREFIX then
      match escapeChar table pi k nbits with
      | none => none
      | some (out1, table1, pi1, nbits1) =>
        match checkPrune table1 pi1 window c nbits1 with
        | none => none
        | some (out2, table2, pi2, c2, nbits2) =>
          some (out1 ++ out2, table2, pi2, c2, nbits2, false)
    else
      let pi1 := pruneInfoSawCode pi c
      match stringTableAdd table c k with
      | none => none
      | some (table1, _, _) =>
        match checkPrune table1 pi1 window c nbits with
        | none => none
        | some (out2, table2, pi2, _, nbits2) =>
          let g := checkNbits nbits2 table2
          match stringTableHashSearch table2 EMPTY_PREFIX k with
          | none => none
          | some (some kCode) =>
            some ([(nbits, c)] ++ out2 ++ g.1, table2, pi2, kCode.code, g.2, false)
          | some none =>
            match escapeChar table2 pi2 k g.2 with
            | none => none
            | some (out3, table3, pi3, nbits3) =>
              match checkPrune table3 pi3 window EMPTY_PREFIX nbits3 with
              | none => none
              | some (out4, _, pi4, c4, nbits4) =>
                some ([(nbits, c)] ++ out2 ++ g.1 ++ out3 ++ out4, table3, pi4, c4, nbits4,
                  decide (window > 0) && stringTableIsFull table3)

/-- The `while` loop of `encode` and the codes written after it: the `putBits` calls in
order. After a round that leaves `table` pointing to a freed table the source reads that
table in the next round (line 121) or, at the end of the input, frees it a second time
(line 163): the run has no defined result. -/
def encodeLoop (window : Nat) :
    List Nat → stringTable → pruneInfo → Nat → Nat → Option (List (Nat × Nat))
  | [], _, _, c, nbits =>
    some ((if c != EMPTY_PREFIX then [(nbits, c)] else []) ++ [(nbits, STOP_CODE)])
  | k :: rest, table, pi, c, nbits =>
    match encodeRound window k table pi c nbits with
    | none => none
    | some (out, table1, pi1, c1, nbits1, freed) =>
      if freed then none
      else (encodeLoop window rest table1 pi1 c1 nbits1).map (fun o => out ++ o)

/-- The values of `table`, `pi`, `c` and `nbits` when the `while` loop of `encode` has read
the whole input. -/
def encodeVars (window : Nat) :
    List Nat → stringTable → pruneInfo → Nat → Nat →
      Option (stringTable × pruneInfo × Nat × Nat)
  | [], table, pi, c, nbits => some (table, pi, c, nbits)
  | k :: rest, table, pi, c, nbits =>
    match encodeRound window k table pi c nbits with
    | none => none
    | some (_, table1, pi1, c1, nbits1, freed) =>
      if freed then none else encodeVars window rest table1 pi1 c1 nbits1

/-- The `putBits` calls of `encode`, header first. -/
def encodeFields (maxBits window : Nat) (eFlag : Bool) (input : List Nat) :
    Option (List (Nat × Nat)) :=
  match stringTableNew maxBits eFlag with
  | none => none
  | some table =>
    (encodeLoop window input table (pruneInfoNew maxBits) EMPTY_PREFIX
        (if eFlag then 2 else 9)).map
      (fun o => [(NBITS_MAXBITS, maxBits), (NBITS_WINDOW, window),
                 (NBITS_EFLAG, if eFlag then 1 else 0)] ++ o)

/-- The function `encode`: the bytes written to `stdout` for the bytes `input` of `stdin`. -/
def encode (maxBits window : Nat) (eFlag : Bool) (input : List Nat) : Option (List Nat) :=
  (encodeFields maxBits window eFlag input).map
    (fun fields => packBytes (flushBits (fieldBits fields)))

/-! ## `lzw.c`: the decoder -/

/-- The loop of `decode` that walks the prefix chain and pushes bytes on `kStack` (a list,
top first). It ends at `NULL` or at an entry with an empty prefix; a walk of more than
`highestCode` links never ends. -/
def walkLoop (table : stringTable) : Nat → Option tableElt → List Nat →
    Option (Option tableElt × List Nat)
  | 0, _, _ => none
  | fuel + 1, elt, kStack =>
    match elt with
    | none => some (none, kStack)
    | some e =>
      if e.pfx != EMPTY_PREFIX then
        walkLoop table fuel (stringTableCodeSearch table e.pfx) (e.k :: kStack)
      else some (some e, kStack)

/-- The `while` loop of `decode`: the value returned and the bytes written. Every round
consumes at least one bit, so fuel above the number of input bits is never exhausted. -/
def decodeLoop (maxBits window : Nat) (eFlag : Bool) :
    Nat → stringTable → pruneInfo → Nat → Nat → Nat → List Bool → Option (Bool × List Nat)
  | 0, _, _, _, _, _, _ => none
  | fuel + 1, table, pi, oldCode, finalK, nbits, input =>
    match getBits nbits input with
    | none => some (false, [])
    | some (newCode, input1) =>
      if newCode == STOP_CODE then some (true, [])
      else if newCode == GROW_NBITS_CODE then
        if nbits + 1 > maxBits then some (false, [])
        else decodeLoop maxBits window eFlag fuel table pi oldCode finalK (nbits + 1) input1
      else if newCode == PRUNE_CODE then
        if window == 0 then some (false, [])
        else
          match stringTablePrune table pi window oldCode with
          | none => none
          | some (table1, pi1, _) =>
            decodeLoop maxBits window eFlag fuel table1 pi1 EMPTY_PREFIX finalK
              (nbitsFor table1.highestCode) input1
      else if newCode == ESCAPE_CODE then
        if eFlag == false then some (false, [])
        else
          let r := getBits 8 input1
          let escapedChar := match r with
            | none => 255
            | some (v, _) => v
          let input2 := match r with
            | none => input1
            | some (_, rest) => rest
          match (if oldCode != EMPTY_PREFIX then
                   (stringTableAdd table oldCode escapedChar).map (fun r => r.1)
                 else some table) with
          | none => none
          | some table1 =>
            match stringTableAdd table1 EMPTY_PREFIX escapedChar with
            | none => none
            | some (table2, _, tempCode) =>
              (decodeLoop maxBits window eFlag fuel table2 (pruneInfoSawCode pi tempCode)
                  EMPTY_PREFIX finalK nbits input2).map
                (fun r => (r.1, escapedChar :: r.2))
      else
        let pi1 := pruneInfoSawCode pi newCode
        let known := (stringTableCodeSearch table newCode).isSome
        let code := if known then newCode else oldCode
        let kStack := if known then [] else [finalK]
        match walkLoop table (table.highestCode + 1) (stringTableCodeSearch table code)
                kStack with
        | none => none
        | some (none, _) => none
        | some (some elt, kStack1) =>
          let finalK1 := elt.k
          match (if oldCode != EMPTY_PREFIX then
                   (stringTableAdd table oldCode finalK1).map (fun r => r.1)
                 else some table) with
          | none => none
          | some table1 =>
            (decodeLoop maxBits window eFlag fuel table1 pi1 newCode finalK1 nbits
                input1).map
              (fun r => (r.1, finalK1 :: kStack1 ++ r.2))

/-- The function `decode` on the bits of `stdin`. A stream that ends inside the 5-bit
`maxBits` field leaves the shift `1 << maxBits` undefined (`none`); an `EOF` in the other
two header fields is stored as the source stores it. -/
def decodeBits (input : List Bool) : Option (Bool × List Nat) :=
  match getBits NBITS_MAXBITS input with
  | none => none
  | some (maxBits, input1) =>
    let rw := getBits NBITS_WINDOW input1
    let window := match rw with
      | none => 2 ^ 32 - 1
      | some (v, _) => v
    let input2 := match rw with
      | none => input1
      | some (_, rest) => rest
    let re := getBits NBITS_EFLAG input2
    let eFlag := match re with
      | none => true
      | some (v, _) => v != 0
    let input3 := match re with
      | none => input2
      | some (_, rest) => rest
    match stringTableNew maxBits eFlag with
    | none => none
    | some table =>
      decodeLoop maxBits window eFlag (input3.length + 1) table (pruneInfoNew maxBits)
        EMPTY_PREFIX 0 (if eFlag then 2 else 9) input3

/-- The function `decode` on the bytes of `stdin`: the value returned and the bytes written
to `stdout`. -/
def decode (input : List Nat) : Option (Bool × List Nat) :=
  decodeBits (unpackBytes input)

/-! ## The hash index -/

/-- The `i`-th slot of the probe sequence that starts at `h`. -/
def probe (n h i : Nat) : Nat := (h + i) % n

/-- A code that names an entry of the table. -/
def validCode (T : stringTable) (c : Nat) : Prop :=
  NUM_SPECIAL_CODES ≤ c ∧ c ≤ T.highestCode

instance (T : stringTable) (c : Nat) : Decidable (validCode T c) := by
  unfold validCode; infer_instance

/-- The entry with code `c` has prefix `p` and byte `k`. -/
def holds (T : stringTable) (c p k : Nat) : Prop :=
  validCode T c ∧ (T.array c).pfx = p ∧ (T.array c).k = k

/-- Consistency of the two indices of a table: the invariant of `stringTableAdd`. -/
structure HashWF (T : stringTable) : Prop where
  hc_ge : NUM_SPECIAL_CODES - 1 ≤ T.highestCode
  hashSize_pos : 0 < T.hashSize
  code_eq : ∀ c, validCode T c → (T.array c).code = c
  uniq : ∀ c d, validCode T c → validCode T d → (T.array c).pfx = (T.array d).pfx →
    (T.array c).k = (T.array d).k → c = d
  hash_rng : ∀ h idx, T.hash h = some idx → h < T.hashSize ∧ validCode T idx
  hash_inj : ∀ h h' idx, T.hash h = some idx → T.hash h' = some idx → h = h'
  hash_reach : ∀ c, validCode T c →
    ∃ j, j < T.hashSize ∧
      T.hash (probe T.hashSize (hashFunc (T.array c).pfx (T.array c).k T.hashSize) j) = some c ∧
      ∀ i, i < j →
        T.hash (probe T.hashSize (hashFunc (T.array c).pfx (T.array c).k T.hashSize) i) ≠ none

/-- A successful insertion, spelled out. -/
def inserted (T : stringTable) (p k hi : Nat) : stringTable :=
  { T with
      highestCode := T.highestCode + 1
      array := setCell T.array (T.highestCode + 1) ⟨p, k, T.highestCode + 1⟩
      hash := setCell T.hash hi (some (T.highestCode + 1)) }

/-- The table of `createTable` before `stringTableInit` fills it. -/
def emptyTable (numCodes : Nat) (eFlag : Bool) : stringTable :=
  { highestCode := NUM_SPECIAL_CODES - 1
    eFlag := eFlag
    arraySize := numCodes
    array := fun _ => ⟨0, 0, 0⟩
    hashSize := (numCodes * 2 + 1) % 2 ^ 32
    hash := fun _ => none }

/-- The tables built by `stringTableNew` followed by any calls of `stringTableAdd`. -/
inductive Built : stringTable → Prop
  | new (maxBits : Nat) (eFlag : Bool) (T : stringTable) :
      stringTableNew maxBits eFlag = some T → Built T
  | add (T : stringTable) (p k : Nat) (r : stringTable × Bool × Nat) :
      Built T → stringTableAdd T p k = some r → Built r.1

/-- The size fields of a table made for a capacity between `4` and `2 ^ 31`. -/
structure Sized (T : stringTable) : Prop where
  arr_ge : NUM_SPECIAL_CODES ≤ T.arraySize
  arr_lt : T.arraySize < 2 ^ 31
  hash_eq : T.hashSize = 2 * T.arraySize + 1
  hc_lt : T.highestCode < T.arraySize

/-- Every prefix link of the table leads to an entry with a smaller code. -/
def Chains (T : stringTable) : Prop :=
  ∀ c, validCode T c →
    (T.array c).pfx = EMPTY_PREFIX ∨ (validCode T (T.array c).pfx ∧ (T.array c).pfx < c)

/-- The byte string spelled by a code: the bytes along its prefix chain, first byte first.
A code without entry spells nothing. -/
def strOf (T : stringTable) : Nat → Nat → List Nat
  | 0, _ => []
  | fuel + 1, c =>
    match stringTableCodeSearch T c with
    | none => []
    | some e => (if e.pfx = EMPTY_PREFIX then [] else strOf T fuel e.pfx) ++ [e.k]

/-- The byte string of a code of the table. -/
def str (T : stringTable) (c : Nat) : List Nat := strOf T (T.highestCode + 1) c

/-- Entry `x` lies on the prefix chain that starts at entry `i`. -/
inductive onChain (T : stringTable) : Nat → Nat → Prop
  | refl (i : Nat) : onChain T i i
  | step (i x : Nat) : (T.array i).pfx ≠ EMPTY_PREFIX → onChain T (T.array i).pfx x →
      onChain T i x

/-- Without escape the table starts with the 256 single-byte entries. -/
def Singles (T : stringTable) : Prop :=
  T.eFlag = false →
    NUM_SPECIAL_CODES + 256 ≤ T.arraySize ∧ NUM_SPECIAL_CODES + 255 ≤ T.highestCode ∧
    ∀ b, b < 256 → T.array (NUM_SPECIAL_CODES + b) = ⟨EMPTY_PREFIX, b, NUM_SPECIAL_CODES + b⟩

/-- A well-formed dictionary. -/
structure WFT (T : stringTable) : Prop where
  hashWF : HashWF T
  sized : Sized T
  chains : Chains T
  singles : Singles T

/-- A consistent dictionary: the part of `WFT` that does not depend on the single-byte
entries. -/
structure WFD (T : stringTable) : Prop where
  hashWF : HashWF T
  sized : Sized T
  chains : Chains T

/-- The invariant of the rebuild in `stringTablePrune`. `T` and `pi` are the table and the
recency state before the prune, `Tn` and `pin` the table under construction and the live
recency state, `R` the set of old codes re-added so far, `B` a bound on them, and `m` sends
a code of `Tn` to the old code it was made from. -/
structure PInv (T : stringTable) (pi : pruneInfo) (window : Nat) (Tn : stringTable)
    (pin : pruneInfo) (R : Nat → Prop) (B : Nat) (m : Nat → Nat) : Prop where
  hashWF : HashWF Tn
  sized : Sized Tn
  chains : Chains Tn
  singles : Singles Tn
  arr : Tn.arraySize = T.arraySize
  efl : Tn.eFlag = T.eFlag
  part : ∀ n, validCode Tn n → validCode T (m n) ∧ str Tn n = str T (m n)
  incl : ∀ n, validCode Tn n → R (m n) ∨ (T.eFlag = false ∧ n < NUM_SPECIAL_CODES + 256)
  sing : T.eFlag = false → ∀ n, validCode Tn n → n < NUM_SPECIAL_CODES + 256 → m n = n
  compl : ∀ e, validCode T e → R e → ∃ n, validCode Tn n ∧ m n = e
  bound : ∀ n, validCode Tn n → m n < B ∨ (T.eFlag = false ∧ n < NUM_SPECIAL_CODES + 256)
  order : ∀ n n', validCode Tn n → validCode Tn n' → retained pi window (m n) = true →
    retained pi window (m n') = true → m n < m n' → n < n'
  cnt : pin.counter = pi.counter
  seenR : ∀ n, validCode Tn n → R (m n) → pin.lastSeen n = pi.lastSeen (m n)
  seen0 : ∀ n, n < T.arraySize → ¬ (validCode Tn n ∧ R (m n)) → pin.lastSeen n = 0
  seenOut : ∀ n, T.arraySize ≤ n → pin.lastSeen n = pi.lastSeen n

/-- The old entries re-added by the loop rounds below `i`: the entries on the prefix chain
of a retained entry with code below `i`. -/
def readded (T : stringTable) (pi : pruneInfo) (window i x : Nat) : Prop :=
  ∃ j, validCode T j ∧ j < i ∧ retained pi window j = true ∧ onChain T j x

/-- The old entries that a prune keeps: those on the prefix chain of a retained entry, and
without escape the entries of the 256 single bytes. -/
def kept (T : stringTable) (pi : pruneInfo) (window e : Nat) : Prop :=
  readded T pi window (T.highestCode + 1) e ∨
    (T.eFlag = false ∧ e < NUM_SPECIAL_CODES + 256)

/-- An escape-mode table with capacity 256 and the entries `4 = (empty, 97)`,
`5 = (empty, 98)` and `6 = (5, 99)`. -/
def wTable : stringTable :=
  inserted (inserted (inserted (emptyTable 256 true) 0 97 97) 0 98 98) 5 99 353

/-- A recency state in which only code 6 has been seen. -/
def wPi : pruneInfo := ⟨fun i => if i = 6 then 1 else 0, 2⟩

/-- A recency state for `wTable` in which the entries 4 and 6 were seen at time 1, with the
counter at 2. -/
def wPiTwo : pruneInfo := ⟨fun i => if i = 4 ∨ i = 6 then 1 else 0, 2⟩

/-- The table of `stringTableNew(8, false)`: capacity 256, the single-byte entries
`4 + b = (empty, b)` for `b = 0 .. 251`, and no room left. -/
def fullTable : stringTable := (stringTableNew 8 false).getD (emptyTable 256 false)

/-- The variables of the decoder loop. -/
structure decState where
  table : stringTable
  pi : pruneInfo
  oldCode : Nat
  finalK : Nat
  nbits : Nat

/-- The decoder loop started in a state. -/
def runDec (maxBits window : Nat) (eFlag : Bool) (fuel : Nat) (D : decState)
    (input : List Bool) : Option (Bool × List Nat) :=
  decodeLoop maxBits window eFlag fuel D.table D.pi D.oldCode D.finalK D.nbits input

/-- The decoder reads the fields `pre`, writes the bytes `out` and goes from state `D` to
state `D'`, with enough fuel left for the rest of the input. -/
def DecRun (maxBits window : Nat) (eFlag : Bool) (pre : List (Nat × Nat)) (D D' : decState)
    (out : List Nat) : Prop :=
  ∀ (fuel : Nat) (tail : List Bool), (fieldBits pre ++ tail).length < fuel →
    ∃ fuel', tail.length < fuel' ∧
      runDec maxBits window eFlag fuel D (fieldBits pre ++ tail)
        = (runDec maxBits window eFlag fuel' D' tail).map (fun r => (r.1, out ++ r.2))

/-- The encoder in state `(T, pi, c, nbits)` and the decoder that has read all fields written
so far, in state `(Td, pi, oc, fK, nbits)`. The decoder's table is the encoder's, or lacks
the entry that the decoder inserts when it reads the next code. -/
structure Sync (maxBits : Nat) (eFlag : Bool) (T : stringTable) (pi : pruneInfo)
    (c nbits : Nat) (Td : stringTable) (oc fK : Nat) : Prop where
  wfT : WFT T
  wfD : WFT Td
  arrT : T.arraySize = 2 ^ maxBits
  eflT : T.eFlag = eFlag
  nb2 : 2 ≤ nbits
  width : T.highestCode ≤ 2 ^ nbits - 1
  seen : ∀ i, T.highestCode < i → pi.lastSeen i = 0
  cval : c = EMPTY_PREFIX ∨ validCode T c
  link : (oc = EMPTY_PREFIX ∧ Td = T) ∨
    (validCode T c ∧ validCode Td oc ∧ (str Td oc).head? = some fK ∧
      ∃ k0 r c', stringTableAdd Td oc k0 = some (T, r, c') ∧ (str T c).head? = some k0)

/-- From corresponding states the encoder writes its fields and the decoder, reading them,
returns `true` and writes the pending string and the rest of the input. -/
def SimGoal (maxBits window : Nat) (eFlag : Bool) (input : List Nat) (T : stringTable)
    (pi : pruneInfo) (c nbits : Nat) (Td : stringTable) (oc fK : Nat) : Prop :=
  ∃ o, encodeLoop window input T pi c nbits = some o ∧
    ∀ fuel pad, (fieldBits o ++ pad).length < fuel →
      runDec maxBits window eFlag fuel ⟨Td, pi, oc, fK, nbits⟩ (fieldBits o ++ pad)
        = some (true, str T c ++ input)

/-- The runs of the encoder loop in which the `checkPrune` call whose returned table the
source does not store (after the escape of the last branch, line 154) never finds a positive
window and a full table. It follows the rounds of `encodeLoop`. -/
def keepsTableLoop (window : Nat) :
    List Nat → stringTable → pruneInfo → Nat → Nat → Bool
  | [], _, _, _, _ => true
  | k :: rest, table, pi, c, nbits =>
    match stringTableHashSearch table c k with
    | none => true
    | some (some elt) => keepsTableLoop window rest table pi elt.code nbits
    | some none =>
      if c == EMPTY_PREFIX then
        match escapeChar table pi k nbits with
        | none => true
        | some (_, table1, pi1, nbits1) =>
          match checkPrune table1 pi1 window c nbits1 with
          | none => true
          | some (_, table2, pi2, c2, nbits2) => keepsTableLoop window rest table2 pi2 c2 nbits2
      else
        match stringTableAdd table c k with
        | none => true
        | some (table1, _, _) =>
          match checkPrune table1 (pruneInfoSawCode pi c) window c nbits with
          | none => true
          | some (_, table2, pi2, _, nbits2) =>
            match stringTableHashSearch table2 EMPTY_PREFIX k with
            | none => true
            | some (some kCode) =>
              keepsTableLoop window rest table2 pi2 kCode.code (checkNbits nbits2 table2).2
            | some none =>
              match escapeChar table2 pi2 k (checkNbits nbits2 table2).2 with
              | none => true
              | some (_, table3, pi3, nbits3) =>
                !(decide (window > 0) && stringTableIsFull table3) &&
                  keepsTableLoop window rest table3 pi3 EMPTY_PREFIX nbits3

/-- The runs of `encode` in which no rebuilt table is dropped. -/
def keepsTable (maxBits window : Nat) (eFlag : Bool) (input : List Nat) : Bool :=
  match stringTableNew maxBits eFlag with
  | none => true
  | some table =>
    keepsTableLoop window input table (pruneInfoNew maxBits) EMPTY_PREFIX
      (if eFlag then 2 else 9)

/-- The runs of the encoder loop in which the dictionary never becomes full: no call of
`checkPrune` finds a full table. It follows the rounds of `encodeLoop`. -/
def hasRoomLoop (window : Nat) :
    List Nat → stringTable → pruneInfo → Nat → Nat → Bool
  | [], _, _, _, _ => true
  | k :: rest, table, pi, c, nbits =>
    match stringTableHashSearch table c k with
    | none => true
    | some (some elt) => hasRoomLoop window rest table pi elt.code nbits
    | some none =>
      if c == EMPTY_PREFIX then
        match escapeChar table pi k nbits with
        | none => true
        | some (_, table1, pi1, nbits1) =>
          !stringTableIsFull table1 &&
            match checkPrune table1 pi1 window c nbits1 with
            | none => true
            | some (_, table2, pi2, c2, nbits2) =>
              hasRoomLoop window rest table2 pi2 c2 nbits2
      else
        match stringTableAdd table c k with
        | none => true
        | some (table1, _, _) =>
          !stringTableIsFull table1 &&
            match checkPrune table1 (pruneInfoSawCode pi c) window c nbits with
            | none => true
            | some (_, table2, pi2, _, nbits2) =>
              match stringTableHashSearch table2 EMPTY_PREFIX k with
              | none => true
              | some (some kCode) =>
                hasRoomLoop window rest table2 pi2 kCode.code (checkNbits nbits2 table2).2
              | some none =>
                match escapeChar table2 pi2 k (checkNbits nbits2 table2).2 with
                | none => true
                | some (_, table3, pi3, nbits3) =>
                  !stringTableIsFull table3 &&
                    hasRoomLoop window rest table3 pi3 EMPTY_PREFIX nbits3

/-- The runs of `encode` in which the dictionary never becomes full. -/
def hasRoom (maxBits window : Nat) (eFlag : Bool) (input : List Nat) : Bool :=
  match stringTableNew maxBits eFlag with
  | none => true
  | some table =>
    !stringTableIsFull table &&
      hasRoomLoop window input table (pruneInfoNew maxBits) EMPTY_PREFIX
        (if eFlag then 2 else 9)

/-- Pruning and escape are not both in use, or the run drops no rebuilt table. -/
def Safe (window : Nat) (eFlag : Bool) (input : List Nat) (T : stringTable)
    (pi : pruneInfo) (c nbits : Nat) : Prop :=
  (window = 0 ∨ eFlag = false) ∨ keepsTableLoop window input T pi c nbits = true

/-- The code fields of a body: its fields without the raw byte that follows each
`ESCAPE_CODE`. The flag says that the next field is such a raw byte. -/
def codeFields : Bool → List (Nat × Nat) → List (Nat × Nat)
  | _, [] => []
  | true, _ :: rest => codeFields false rest
  | false, f :: rest => f :: codeFields (f.2 == ESCAPE_CODE) rest

/-- The number of `GROW_NBITS_CODE`s in a body. -/
def growCount (body : List (Nat × Nat)) : Nat :=
  ((codeFields false body).filter (fun f => f.2 == GROW_NBITS_CODE)).length

/-- The body written by `encode`: the `putBits` calls after the three header fields. -/
def encodeBody (maxBits window : Nat) (eFlag : Bool) (input : List Nat) :
    Option (List (Nat × Nat)) :=
  (encodeFields maxBits window eFlag input).map (fun o => o.drop 3)

/-- One round of the `while` loop of `encode` on the byte `k`, from the state
`(T, pi, c, nbits)`, that leaves `table` pointing to a live table: the fields written and
the state after the round, branch by branch. In the last branch the second `checkPrune`,
whose returned table the source does not store (line 154), does not prune, and the round
ends with the table `T3` that it was called on. -/
inductive EncStep (window k : Nat) (T : stringTable) (pi : pruneInfo) (c nbits : Nat) :
    List (Nat × Nat) → stringTable → pruneInfo → Nat → Nat → Prop
  | found (e : tableElt) (hs : stringTableHashSearch T c k = some (some e)) :
      EncStep window k T pi c nbits [] T pi e.code nbits
  | first (T1 : stringTable) (r : Bool) (nc : Nat) (out2 : List (Nat × Nat))
      (T2 : stringTable) (pi2 : pruneInfo) (c2 nbits2 : Nat)
      (hs : stringTableHashSearch T c k = some none) (hc : c = EMPTY_PREFIX)
      (ha : stringTableAdd T EMPTY_PREFIX k = some (T1, r, nc))
      (hp : checkPrune T1 (pruneInfoSawCode pi nc) window c (checkNbits nbits T1).2
        = some (out2, T2, pi2, c2, nbits2)) :
      EncStep window k T pi c nbits
        ([(nbits, ESCAPE_CODE), (8, k)] ++ (checkNbits nbits T1).1 ++ out2) T2 pi2 c2 nbits2
  | elseFound (T1 : stringTable) (r : Bool) (x : Nat) (out2 : List (Nat × Nat))
      (T2 : stringTable) (pi2 : pruneInfo) (c2 nbits2 : Nat) (kCode : tableElt)
      (hs : stringTableHashSearch T c k = some none) (hc : c ≠ EMPTY_PREFIX)
      (ha : stringTableAdd T c k = some (T1, r, x))
      (hp : checkPrune T1 (pruneInfoSawCode pi c) window c nbits
        = some (out2, T2, pi2, c2, nbits2))
      (hk : stringTableHashSearch T2 EMPTY_PREFIX k = some (some kCode)) :
      EncStep window k T pi c nbits
        ([(nbits, c)] ++ out2 ++ (checkNbits nbits2 T2).1) T2 pi2 kCode.code
        (checkNbits nbits2 T2).2
  | elseEscape (T1 : stringTable) (r : Bool) (x : Nat) (out2 : List (Nat × Nat))
      (T2 : stringTable) (pi2 : pruneInfo) (c2 nbits2 : Nat)
      (T3 : stringTable) (r3 : Bool) (nc3 : Nat) (out4 : List (Nat × Nat))
      (T4 : stringTable) (pi4 : pruneInfo) (c4 nbits4 : Nat)
      (hs : stringTableHashSearch T c k = some none) (hc : c ≠ EMPTY_PREFIX)
      (ha : stringTableAdd T c k = some (T1, r, x))
      (hp : checkPrune T1 (pruneInfoSawCode pi c) window c nbits
        = some (out2, T2, pi2, c2, nbits2))
      (hk : stringTableHashSearch T2 EMPTY_PREFIX k = some none)
      (ha3 : stringTableAdd T2 EMPTY_PREFIX k = some (T3, r3, nc3))
      (hp4 : checkPrune T3 (pruneInfoSawCode pi2 nc3) window EMPTY_PREFIX
          (checkNbits (checkNbits nbits2 T2).2 T3).2
        = some (out4, T4, pi4, c4, nbits4))
      (hoff : window = 0 ∨ stringTableIsFull T3 = false) :
      EncStep window k T pi c nbits
        ([(nbits, c)] ++ out2 ++ (checkNbits nbits2 T2).1
          ++ ([((checkNbits nbits2 T2).2, ESCAPE_CODE), (8, k)]
            ++ (checkNbits (checkNbits nbits2 T2).2 T3).1) ++ out4)
        T3 pi4 c4 nbits4

/-- What every state of the encoder loop satisfies: the dictionary is consistent, has the
capacity and the flag of the run, and the pending prefix is empty or one of its codes. -/
structure EncInv (maxBits : Nat) (eFlag : Bool) (T : stringTable) (c : Nat) : Prop where
  wf : WFD T
  arr : T.arraySize = 2 ^ maxBits
  efl : T.eFlag = eFlag
  cval : c = EMPTY_PREFIX ∨ validCode T c

/-- The raw bytes of a body: the field that follows each `ESCAPE_CODE`. The flag says that
the next field is such a raw byte. -/
def rawBytes : Bool → List (Nat × Nat) → List Nat
  | _, [] => []
  | true, f :: rest => f.2 :: rawBytes false rest
  | false, f :: rest => rawBytes (f.2 == ESCAPE_CODE) rest

/-- The codes that follow a `GROW_NBITS_CODE`: for the `n`-th one of a list of code fields,
the pair of `n` and the width of the next code. The flag says that the last field was a
`GROW_NBITS_CODE`, the number counts those seen so far. -/
def afterGrows : Bool → Nat → List (Nat × Nat) → List (Nat × Nat)
  | _, _, [] => []
  | b, n, f :: rest =>
    (if b then [(n, f.1)] else [])
      ++ afterGrows (f.2 == GROW_NBITS_CODE) (if f.2 == GROW_NBITS_CODE then n + 1 else n) rest

/-- The code fields up to the first `PRUNE_CODE`, which is kept. -/
def untilPrune : List (Nat × Nat) → List (Nat × Nat)
  | [] => []
  | f :: rest => if f.2 == PRUNE_CODE then [f] else f :: untilPrune rest

/-- The bytes `a, a, a + 1, a + 1, …`, `n` pairs. -/
def pairRun (a n : Nat) : List Nat := (List.range n).flatMap (fun i => [a + i, a + i])

/-- An input of 509 bytes that fills the dictionary of `maxBits = 9` with escape at the
escape of the byte `254` in the last branch of the loop, so that the `checkPrune` of
line 154 prunes it. -/
def runC : List Nat := [0, 1, 1] ++ pairRun 2 253

/-- An input of 510 bytes that fills the dictionary of `maxBits = 9` with escape at the
insertion made for its last byte but one, `254`, where the `checkPrune` of line 141 prunes
it; 508 codes have been observed by then. -/
def runD : List Nat := [0, 1, 1] ++ pairRun 2 252 ++ [0, 254, 0]

/-- An input of 254 bytes that fills the dictionary of `maxBits = 8` with escape at the
escape of the byte `251`, where the `checkPrune` of line 132 prunes it. -/
def runE : List Nat := List.range 253 ++ [0]

/-- The bytes of an input that have not occurred before, in order; `seen` holds the bytes
that occurred earlier. -/
def firstOccs : List Nat → List Nat → List Nat
  | _, [] => []
  | seen, k :: rest =>
    if k ∈ seen then firstOccs seen rest else k :: firstOccs (k :: seen) rest

/-- The width law on a list of code fields: every code has the expected width, which
starts at `w` and grows by one after each `GROW_NBITS_CODE`; nothing is asked of the codes
after a `PRUNE_CODE`. -/
def widthLaw : Nat → List (Nat × Nat) → Bool
  | _, [] => true
  | w, f :: rest =>
    f.1 == w &&
      (f.2 == PRUNE_CODE || widthLaw (if f.2 == GROW_NBITS_CODE then w + 1 else w) rest)

/-- The dictionary of a run with escape and the bytes read so far: the single-byte entries
are those of the bytes read, and every entry ends with a byte read. -/
structure EscInv (T : stringTable) (seen : List Nat) : Prop where
  single : ∀ k, (∃ d, holds T d EMPTY_PREFIX k) ↔ k ∈ seen
  bytes : ∀ d, validCode T d → (T.array d).k ∈ seen

/-- The handling of a `-m` argument in `main` (`main.c` lines 153-170), for the value `num`
that `checkNumArg` returns (a `long`; `INVALID = -1` for a malformed number): `none` is the
error exit `return 1`, otherwise the value left in `maxBits`, which `main` passes to
`encode`. -/
def mainMaxBits (num : Int) : Option Int :=
  if num ≤ 0 then none
  else if num ≤ 8 ∨ num > 24 then some 12
  else some num

/-- The dictionaries built from `stringTableNew` by `stringTableAdd` and
`stringTablePrune`, with any arguments. -/
inductive Dict : stringTable → Prop
  | new (maxBits : Nat) (eFlag : Bool) (T : stringTable) :
      stringTableNew maxBits eFlag = some T → Dict T
  | add (T : stringTable) (p k : Nat) (r : stringTable × Bool × Nat) :
      Dict T → stringTableAdd T p k = some r → Dict r.1
  | prune (T : stringTable) (pi : pruneInfo) (window c : Nat)
      (r : stringTable × pruneInfo × Nat) :
      Dict T → stringTablePrune T pi window c = some r → Dict r.1

/-- The dictionaries reachable during encoding: built from `stringTableNew` by the
insertions of the encoder, whose prefix is empty or the code of an entry, and by prunes. -/
inductive EncDict : stringTable → Prop
  | new (maxBits : Nat) (eFlag : Bool) (T : stringTable) :
      stringTableNew maxBits eFlag = some T → EncDict T
  | add (T : stringTable) (p k : Nat) (r : stringTable × Bool × Nat) :
      EncDict T → (p = EMPTY_PREFIX ∨ validCode T p) → stringTableAdd T p k = some r →
      EncDict r.1
  | prune (T : stringTable) (pi : pruneInfo) (window c : Nat)
      (r : stringTable × pruneInfo × Nat) :
      EncDict T → stringTablePrune T pi window c = some r → EncDict r.1

/-- The number of entries on the prefix chain of the code `c`: the links followed from the
entry of `c` until an entry with an empty prefix, that entry counted. It is `none` when the
walk meets a code without entry or runs longer than the fuel. -/
def chainSteps (T : stringTable) : Nat → Nat → Option Nat
  | 0, _ => none
  | fuel + 1, c =>
    match stringTableCodeSearch T c with
    | none => none
    | some e =>
      if e.pfx = EMPTY_PREFIX then some 1 else (chainSteps T fuel e.pfx).map (fun n => n + 1)

/-- Every code field of a body has a width from 2 to `maxBits`. -/
def widthsIn (maxBits : Nat) (body : List (Nat × Nat)) : Prop :=
  ∀ f ∈ codeFields false body, 2 ≤ f.1 ∧ f.1 ≤ maxBits

/-! # Theorems -/

theorem probe_zero {n h : Nat} (hh : h < n) : probe n h 0 = h := by
  simp [probe, Nat.mod_eq_of_lt hh]

theorem probe_succ (n h i : Nat) : probe n ((h + 1) % n) i = probe n h (i + 1) := by
  simp only [probe]
  rw [Nat.add_mod, Nat.mod_mod, ← Nat.add_mod]
  congr 1
  omega

theorem probe_lt {n : Nat} (hn : 0 < n) (h i : Nat) : probe n h i < n :=
  Nat.mod_lt _ hn

theorem hashFunc_lt (p k : Nat) {n : Nat} (hn : 0 < n) : hashFunc p k n < n :=
  Nat.mod_lt _ hn

theorem tableEltMatch_iff (p k : Nat) (e : tableElt) :
    tableEltMatch p k e = true ↔ e.pfx = p ∧ e.k = k := by
  simp [tableEltMatch]

/-- What a finished probe of `searchLoop` has seen. -/
theorem searchLoop_some (T : stringTable) (p k : Nat) :
    ∀ (fuel h : Nat) (e : tableElt), h < T.hashSize →
      searchLoop T p k fuel h = some (some e) →
      ∃ idx i, i < fuel ∧ T.hash (probe T.hashSize h i) = some idx ∧ e = T.array idx ∧
        e.pfx = p ∧ e.k = k := by
  intro fuel
  induction fuel with
  | zero => intro h e _ hs; simp [searchLoop] at hs
  | succ fuel ih =>
    intro h e hh hs
    rw [searchLoop] at hs
    cases hhash : T.hash h with
    | none => rw [hhash] at hs; simp at hs
    | some idx =>
      rw [hhash] at hs
      simp only at hs
      by_cases hm : tableEltMatch p k (T.array idx) = true
      · rw [if_pos hm] at hs
        have he : T.array idx = e := by simpa using hs
        refine ⟨idx, 0, Nat.succ_pos _, ?_, he.symm, ?_⟩
        · rw [probe_zero hh]; exact hhash
        · rw [← he]; exact (tableEltMatch_iff p k _).1 hm
      · rw [if_neg hm] at hs
        have hpos : 0 < T.hashSize := Nat.lt_of_le_of_lt (Nat.zero_le _) hh
        obtain ⟨idx', i, hi, hp, he, hpk⟩ := ih _ e (Nat.mod_lt _ hpos) hs
        refine ⟨idx', i + 1, Nat.succ_lt_succ hi, ?_, he, hpk⟩
        rw [← probe_succ]; exact hp

theorem searchLoop_none (T : stringTable) (p k : Nat) :
    ∀ (fuel h : Nat), h < T.hashSize →
      searchLoop T p k fuel h = some none →
      ∃ i, i < fuel ∧ T.hash (probe T.hashSize h i) = none ∧
        ∀ i', i' < i → ∃ idx, T.hash (probe T.hashSize h i') = some idx ∧
          ¬ ((T.array idx).pfx = p ∧ (T.array idx).k = k) := by
  intro fuel
  induction fuel with
  | zero => intro h _ hs; simp [searchLoop] at hs
  | succ fuel ih =>
    intro h hh hs
    rw [searchLoop] at hs
    cases hhash : T.hash h with
    | none =>
      refine ⟨0, Nat.succ_pos _, ?_, ?_⟩
      · rw [probe_zero hh]; exact hhash
      · intro i' hi'; omega
    | some idx =>
      rw [hhash] at hs
      simp only at hs
      by_cases hm : tableEltMatch p k (T.array idx) = true
      · rw [if_pos hm] at hs; simp at hs
      · rw [if_neg hm] at hs
        have hpos : 0 < T.hashSize := Nat.lt_of_le_of_lt (Nat.zero_le _) hh
        obtain ⟨i, hi, hp, hall⟩ := ih _ (Nat.mod_lt _ hpos) hs
        refine ⟨i + 1, Nat.succ_lt_succ hi, ?_, ?_⟩
        · rw [← probe_succ]; exact hp
        · intro i' hi'
          cases i' with
          | zero =>
            refine ⟨idx, ?_, ?_⟩
            · rw [probe_zero hh]; exact hhash
            · intro hc; exact hm ((tableEltMatch_iff p k _).2 hc)
          | succ i' =>
            obtain ⟨idx', h1, h2⟩ := hall i' (by omega)
            exact ⟨idx', by rw [← probe_succ]; exact h1, h2⟩

/-- A probe that meets a match or an empty slot within the fuel returns. -/
theorem searchLoop_total (T : stringTable) (p k : Nat) :
    ∀ (fuel h j : Nat), h < T.hashSize → j < fuel →
      (T.hash (probe T.hashSize h j) = none ∨
        ∃ idx, T.hash (probe T.hashSize h j) = some idx ∧
          (T.array idx).pfx = p ∧ (T.array idx).k = k) →
      ∃ r, searchLoop T p k fuel h = some r := by
  intro fuel
  induction fuel with
  | zero => intro h j _ hj; omega
  | succ fuel ih =>
    intro h j hh hj hstop
    rw [searchLoop]
    cases hhash : T.hash h with
    | none => exact ⟨none, rfl⟩
    | some idx =>
      simp only
      by_cases hm : tableEltMatch p k (T.array idx) = true
      · rw [if_pos hm]; exact ⟨_, rfl⟩
      · rw [if_neg hm]
        have hpos : 0 < T.hashSize := Nat.lt_of_le_of_lt (Nat.zero_le _) hh
        cases j with
        | zero =>
          rw [probe_zero hh, hhash] at hstop
          rcases hstop with h0 | ⟨idx', h1, h2⟩
          · simp at h0
          · simp only [Option.some.injEq] at h1
            subst h1
            exact absurd ((tableEltMatch_iff p k _).2 h2) hm
        | succ j =>
          apply ih _ j (Nat.mod_lt _ hpos) (by omega)
          rw [probe_succ]; exact hstop

theorem findEmpty_some (T : stringTable) :
    ∀ (fuel h r : Nat), h < T.hashSize → findEmpty T fuel h = some r →
      ∃ j, j < fuel ∧ r = probe T.hashSize h j ∧ T.hash r = none ∧
        ∀ i, i < j → T.hash (probe T.hashSize h i) ≠ none := by
  intro fuel
  induction fuel with
  | zero => intro h r _ hs; simp [findEmpty] at hs
  | succ fuel ih =>
    intro h r hh hs
    rw [findEmpty] at hs
    cases hhash : T.hash h with
    | none =>
      rw [hhash] at hs
      simp only [Option.some.injEq] at hs
      subst hs
      exact ⟨0, Nat.succ_pos _, (probe_zero hh).symm, hhash, fun i hi => by omega⟩
    | some idx =>
      rw [hhash] at hs
      simp only at hs
      have hpos : 0 < T.hashSize := Nat.lt_of_le_of_lt (Nat.zero_le _) hh
      obtain ⟨j, hj, hr, hn, hall⟩ := ih _ r (Nat.mod_lt _ hpos) hs
      refine ⟨j + 1, Nat.succ_lt_succ hj, ?_, hn, ?_⟩
      · rw [← probe_succ]; exact hr
      · intro i hi
        cases i with
        | zero => rw [probe_zero hh, hhash]; simp
        | succ i => rw [← probe_succ]; exact hall i (by omega)

theorem findEmpty_total (T : stringTable) :
    ∀ (fuel h j : Nat), h < T.hashSize → j < fuel →
      T.hash (probe T.hashSize h j) = none → ∃ r, findEmpty T fuel h = some r := by
  intro fuel
  induction fuel with
  | zero => intro h j _ hj; omega
  | succ fuel ih =>
    intro h j hh hj hstop
    rw [findEmpty]
    cases hhash : T.hash h with
    | none => exact ⟨h, rfl⟩
    | some idx =>
      simp only
      have hpos : 0 < T.hashSize := Nat.lt_of_le_of_lt (Nat.zero_le _) hh
      cases j with
      | zero => rw [probe_zero hh, hhash] at hstop; simp at hstop
      | succ j =>
        apply ih _ j (Nat.mod_lt _ hpos) (by omega)
        rw [probe_succ]; exact hstop

/-- A hit of the hash search is an entry of the table with the pair looked for. -/
theorem search_some {T : stringTable} (hT : HashWF T) {p k : Nat} {e : tableElt}
    (hs : stringTableHashSearch T p k = some (some e)) :
    ∃ c, holds T c p k ∧ e = T.array c ∧ e.code = c := by
  obtain ⟨idx, i, _, hp, he, hpk⟩ :=
    searchLoop_some T p k _ _ e (hashFunc_lt p k hT.hashSize_pos) hs
  have hv := (hT.hash_rng _ _ hp).2
  refine ⟨idx, ⟨hv, ?_, ?_⟩, he, ?_⟩
  · rw [← he]; exact hpk.1
  · rw [← he]; exact hpk.2
  · rw [he]; exact hT.code_eq idx hv

/-- A miss of the hash search means that no entry has the pair. -/
theorem search_none {T : stringTable} (hT : HashWF T) {p k : Nat}
    (hs : stringTableHashSearch T p k = some none) (c : Nat) : ¬ holds T c p k := by
  rintro ⟨hv, hp, hk⟩
  obtain ⟨i, _, hnone, hall⟩ :=
    searchLoop_none T p k _ _ (hashFunc_lt p k hT.hashSize_pos) hs
  obtain ⟨j, _, hj, hbefore⟩ := hT.hash_reach c hv
  rw [hp, hk] at hj hbefore
  rcases Nat.lt_trichotomy i j with h | h | h
  · exact hbefore i h hnone
  · subst h; rw [hnone] at hj; simp at hj
  · obtain ⟨idx, h1, h2⟩ := hall j h
    rw [hj] at h1
    simp only [Option.some.injEq] at h1
    subst h1
    exact h2 ⟨hp, hk⟩

/-- The hash search finds every entry by its own pair. -/
theorem search_holds {T : stringTable} (hT : HashWF T) {c p k : Nat} (h : holds T c p k) :
    stringTableHashSearch T p k = some (some (T.array c)) := by
  obtain ⟨hv, hp, hk⟩ := h
  obtain ⟨j, hjlt, hj, _⟩ := hT.hash_reach c hv
  rw [hp, hk] at hj
  obtain ⟨r, hr⟩ := searchLoop_total T p k T.hashSize _ j
    (hashFunc_lt p k hT.hashSize_pos) hjlt (Or.inr ⟨c, hj, hp, hk⟩)
  have hr' : stringTableHashSearch T p k = some r := hr
  cases r with
  | none => exact absurd ⟨hv, hp, hk⟩ (search_none hT hr' c)
  | some e =>
    obtain ⟨c', ⟨hv', hp', hk'⟩, he, _⟩ := search_some hT hr'
    have : c' = c := hT.uniq c' c hv' hv (by rw [hp', hp]) (by rw [hk', hk])
    rw [hr', he, this]

/-- The three ways in which `stringTableAdd` returns. -/
theorem stringTableAdd_cases {T : stringTable} {p k : Nat} {T' : stringTable} {r : Bool}
    {c : Nat} (h : stringTableAdd T p k = some (T', r, c)) :
    (∃ e, stringTableHashSearch T p k = some (some e) ∧ T' = T ∧ r = false ∧ c = e.code) ∨
    (stringTableHashSearch T p k = some none ∧ stringTableIsFull T = true ∧ T' = T ∧
      r = false ∧ c = 0) ∨
    (stringTableHashSearch T p k = some none ∧ stringTableIsFull T = false ∧
      ∃ hi, findEmpty T T.hashSize (hashFunc p k T.hashSize) = some hi ∧
        T' = { T with
                highestCode := T.highestCode + 1
                array := setCell T.array (T.highestCode + 1) ⟨p, k, T.highestCode + 1⟩
                hash := setCell T.hash hi (some (T.highestCode + 1)) } ∧
        r = true ∧ c = T.highestCode + 1) := by
  unfold stringTableAdd at h
  cases hs : stringTableHashSearch T p k with
  | none => rw [hs] at h; simp at h
  | some o =>
    rw [hs] at h
    cases o with
    | some e =>
      simp only [Option.some.injEq, Prod.mk.injEq] at h
      exact Or.inl ⟨e, rfl, h.1.symm, h.2.1.symm, h.2.2.symm⟩
    | none =>
      by_cases hf : stringTableIsFull T = true
      · rw [if_pos hf] at h
        simp only [Option.some.injEq, Prod.mk.injEq] at h
        exact Or.inr (Or.inl ⟨rfl, hf, h.1.symm, h.2.1.symm, h.2.2.symm⟩)
      · rw [if_neg hf] at h
        simp only at h
        cases hfe : findEmpty T T.hashSize (hashFunc p k T.hashSize) with
        | none => rw [hfe] at h; simp at h
        | some hi =>
          rw [hfe] at h
          simp only [Option.some.injEq, Prod.mk.injEq] at h
          refine Or.inr (Or.inr ⟨rfl, by simpa using hf, hi, rfl, h.1.symm, h.2.1.symm,
            h.2.2.symm⟩)

@[simp] theorem setCell_same {α : Type} (f : Nat → α) (i : Nat) (v : α) :
    setCell f i v i = v := by
  simp [setCell]

theorem setCell_ne {α : Type} (f : Nat → α) {i j : Nat} (v : α) (h : j ≠ i) :
    setCell f i v j = f j := by
  simp [setCell, h]

theorem inserted_HashWF {T : stringTable} (hT : HashWF T) {p k hi : Nat}
    (hs : stringTableHashSearch T p k = some none)
    (hfe : findEmpty T T.hashSize (hashFunc p k T.hashSize) = some hi) :
    HashWF (inserted T p k hi) := by
  obtain ⟨j, hj, hhi, hnone, hbefore⟩ :=
    findEmpty_some T _ _ hi (hashFunc_lt p k hT.hashSize_pos) hfe
  have hge := hT.hc_ge
  have hold : ∀ c, validCode T c → (inserted T p k hi).array c = T.array c := by
    intro c hc
    exact setCell_ne _ _ (by have := hc.2; omega)
  have hnew : (inserted T p k hi).array (T.highestCode + 1) = ⟨p, k, T.highestCode + 1⟩ :=
    setCell_same _ _ _
  have hval : ∀ c, validCode (inserted T p k hi) c →
      validCode T c ∨ c = T.highestCode + 1 := by
    intro c hc
    have h2 : c ≤ T.highestCode + 1 := hc.2
    by_cases h : c = T.highestCode + 1
    · exact Or.inr h
    · exact Or.inl ⟨hc.1, by omega⟩
  have hkeep : ∀ x, T.hash x ≠ none → (inserted T p k hi).hash x = T.hash x := by
    intro x hx
    apply setCell_ne
    intro hxi
    rw [hxi] at hx
    exact hx hnone
  refine ⟨?_, hT.hashSize_pos, ?_, ?_, ?_, ?_, ?_⟩
  · show NUM_SPECIAL_CODES - 1 ≤ T.highestCode + 1
    omega
  · intro c hc
    rcases hval c hc with h | h
    · rw [hold c h]; exact hT.code_eq c h
    · rw [h, hnew]
  · intro c d hc hd hp hk
    rcases hval c hc with h1 | h1 <;> rcases hval d hd with h2 | h2
    · rw [hold c h1, hold d h2] at hp hk
      exact hT.uniq c d h1 h2 hp hk
    · rw [h2, hnew, hold c h1] at hp hk
      exact absurd ⟨h1, hp, hk⟩ (search_none hT hs c)
    · rw [h1, hnew, hold d h2] at hp hk
      exact absurd ⟨h2, hp.symm, hk.symm⟩ (search_none hT hs d)
    · rw [h1, h2]
  · intro h idx hh
    by_cases hx : h = hi
    · subst hx
      have : (inserted T p k h).hash h = some (T.highestCode + 1) := setCell_same _ _ _
      rw [this] at hh
      simp only [Option.some.injEq] at hh
      subst hh
      refine ⟨?_, ?_, Nat.le_refl _⟩
      · rw [hhi]; exact probe_lt hT.hashSize_pos _ _
      · show NUM_SPECIAL_CODES ≤ T.highestCode + 1
        omega
    · have : (inserted T p k hi).hash h = T.hash h := setCell_ne _ _ hx
      rw [this] at hh
      obtain ⟨h1, h2⟩ := hT.hash_rng h idx hh
      exact ⟨h1, h2.1, Nat.le_succ_of_le h2.2⟩
  · intro h h' idx hh hh'
    have key : ∀ x, (inserted T p k hi).hash x = some idx →
        (x = hi ∧ idx = T.highestCode + 1) ∨ (x ≠ hi ∧ T.hash x = some idx) := by
      intro x hx
      by_cases hxi : x = hi
      · subst hxi
        have : (inserted T p k x).hash x = some (T.highestCode + 1) := setCell_same _ _ _
        rw [this] at hx
        simp only [Option.some.injEq] at hx
        exact Or.inl ⟨rfl, hx.symm⟩
      · have : (inserted T p k hi).hash x = T.hash x := setCell_ne _ _ hxi
        rw [this] at hx
        exact Or.inr ⟨hxi, hx⟩
    rcases key h hh with ⟨a1, a2⟩ | ⟨a1, a2⟩ <;> rcases key h' hh' with ⟨b1, b2⟩ | ⟨b1, b2⟩
    · rw [a1, b1]
    · have := (hT.hash_rng _ _ b2).2.2; omega
    · have := (hT.hash_rng _ _ a2).2.2; omega
    · exact hT.hash_inj h h' idx a2 b2
  · intro c hc
    have hsz : (inserted T p k hi).hashSize = T.hashSize := rfl
    simp only [hsz]
    rcases hval c hc with h | h
    · obtain ⟨j', hj', hslot, hbef⟩ := hT.hash_reach c h
      rw [hold c h]
      refine ⟨j', hj', ?_, ?_⟩
      · rw [← hslot]; exact hkeep _ (by rw [hslot]; simp)
      · intro i hi'
        have := hbef i hi'
        rw [hkeep _ this]; exact this
    · rw [h, hnew]
      refine ⟨j, hj, ?_, ?_⟩
      · show setCell T.hash hi (some (T.highestCode + 1)) _ = _
        rw [← hhi]; exact setCell_same _ _ _
      · intro i hi'
        have := hbefore i hi'
        rw [hkeep _ this]; exact this

/-- The invariant is kept by `stringTableAdd`. -/
theorem add_HashWF {T : stringTable} (hT : HashWF T) {p k : Nat} {T' : stringTable}
    {r : Bool} {c : Nat} (h : stringTableAdd T p k = some (T', r, c)) : HashWF T' := by
  rcases stringTableAdd_cases h with ⟨_, _, hT', _, _⟩ | ⟨_, _, hT', _, _⟩ |
    ⟨hs, _, hi, hfe, hT', _, _⟩
  · rw [hT']; exact hT
  · rw [hT']; exact hT
  · rw [hT']; exact inserted_HashWF hT hs hfe

theorem createTable_eq (numCodes : Nat) (eFlag : Bool) :
    createTable numCodes eFlag = stringTableInit (emptyTable numCodes eFlag) := rfl

theorem emptyTable_HashWF (numCodes : Nat) (eFlag : Bool) :
    HashWF (emptyTable numCodes eFlag) := by
  refine ⟨Nat.le_refl _, ?_, ?_, ?_, ?_, ?_, ?_⟩
  · show 0 < (numCodes * 2 + 1) % 2 ^ 32
    omega
  · intro c hc
    have h1 := hc.1
    have h2 : c ≤ NUM_SPECIAL_CODES - 1 := hc.2
    simp only [NUM_SPECIAL_CODES] at h1 h2
    omega
  · intro c d hc
    have h1 := hc.1
    have h2 : c ≤ NUM_SPECIAL_CODES - 1 := hc.2
    simp only [NUM_SPECIAL_CODES] at h1 h2
    omega
  · intro h idx hh
    simp [emptyTable] at hh
  · intro h h' idx hh
    simp [emptyTable] at hh
  · intro c hc
    have h1 := hc.1
    have h2 : c ≤ NUM_SPECIAL_CODES - 1 := hc.2
    simp only [NUM_SPECIAL_CODES] at h1 h2
    omega

theorem initLoop_HashWF : ∀ (n : Nat) {T T' : stringTable}, HashWF T →
    initLoop n T = some T' → HashWF T' := by
  intro n
  induction n with
  | zero =>
    intro T T' hT h
    simp only [initLoop, Option.some.injEq] at h
    rw [← h]; exact hT
  | succ n ih =>
    intro T T' hT h
    rw [initLoop] at h
    cases h1 : initLoop n T with
    | none => rw [h1] at h; simp at h
    | some t =>
      rw [h1] at h
      simp only at h
      cases h2 : stringTableAdd t EMPTY_PREFIX n with
      | none => rw [h2] at h; simp at h
      | some r =>
        rw [h2] at h
        simp only [Option.some.injEq] at h
        obtain ⟨T1, b, c⟩ := r
        rw [← h]
        exact add_HashWF (ih hT h1) h2

theorem stringTableInit_HashWF {T T' : stringTable} (hT : HashWF T)
    (h : stringTableInit T = some T') : HashWF T' := by
  unfold stringTableInit at h
  by_cases he : (T.eFlag == false) = true
  · rw [if_pos he] at h; exact initLoop_HashWF 256 hT h
  · rw [if_neg he] at h
    simp only [Option.some.injEq] at h
    rw [← h]; exact hT

theorem createTable_HashWF {numCodes : Nat} {eFlag : Bool} {T : stringTable}
    (h : createTable numCodes eFlag = some T) : HashWF T :=
  stringTableInit_HashWF (emptyTable_HashWF numCodes eFlag) h

theorem Built.hashWF {T : stringTable} (h : Built T) : HashWF T := by
  induction h with
  | new maxBits eFlag T h => exact createTable_HashWF h
  | add T p k r _ h ih =>
    obtain ⟨T1, b, c⟩ := r
    exact add_HashWF ih h

theorem probe_inj {n h i j : Nat} (hi : i < n) (hj : j < n)
    (he : probe n h i = probe n h j) : i = j := by
  unfold probe at he
  have h1 : (h + i) ≡ (h + j) [MOD n] := he
  have h2 : i ≡ j [MOD n] := Nat.ModEq.add_left_cancel' h h1
  have h3 : i % n = j % n := h2
  rwa [Nat.mod_eq_of_lt hi, Nat.mod_eq_of_lt hj] at h3

/-- The hash index of a table with fewer entries than slots has an empty slot on every
probe sequence. -/
theorem exists_empty_slot {T : stringTable} (hT : HashWF T)
    (hsz : T.highestCode + 1 - NUM_SPECIAL_CODES < T.hashSize) (h : Nat) :
    ∃ j, j < T.hashSize ∧ T.hash (probe T.hashSize h j) = none := by
  by_contra hcon
  push_neg at hcon
  let f : Nat → Nat := fun j => (T.hash (probe T.hashSize h j)).getD 0
  have hf : ∀ j, j < T.hashSize → T.hash (probe T.hashSize h j) = some (f j) := by
    intro j hj
    have := hcon j hj
    cases hx : T.hash (probe T.hashSize h j) with
    | none => exact absurd hx this
    | some idx => simp [f, hx]
  have hmap : ∀ a ∈ Finset.range T.hashSize,
      f a ∈ Finset.Icc NUM_SPECIAL_CODES T.highestCode := by
    intro a ha
    have hv := (hT.hash_rng _ _ (hf a (Finset.mem_range.1 ha))).2
    exact Finset.mem_Icc.2 ⟨hv.1, hv.2⟩
  have hinj : Set.InjOn f (Finset.range T.hashSize : Set Nat) := by
    intro a ha b hb hab
    have ha' : a < T.hashSize := Finset.mem_range.1 ha
    have hb' : b < T.hashSize := Finset.mem_range.1 hb
    have h1 := hf a ha'
    have h2 := hf b hb'
    rw [hab] at h1
    exact probe_inj ha' hb' (hT.hash_inj _ _ _ h1 h2)
  have hcard := Finset.card_le_card_of_injOn f hmap hinj
  simp only [Finset.card_range, Nat.card_Icc] at hcard
  omega

theorem isFull_iff {T : stringTable} (hS : Sized T) :
    stringTableIsFull T = true ↔ T.highestCode = T.arraySize - 1 := by
  have h1 := hS.arr_ge
  have h2 := hS.arr_lt
  simp only [NUM_SPECIAL_CODES] at h1
  unfold stringTableIsFull
  rw [beq_iff_eq]
  have : (T.arraySize + 2 ^ 32 - 1) % 2 ^ 32 = T.arraySize - 1 := by omega
  rw [this]

theorem Sized.slots {T : stringTable} (hS : Sized T) :
    T.highestCode + 1 - NUM_SPECIAL_CODES < T.hashSize := by
  have h1 := hS.hc_lt
  have h2 := hS.hash_eq
  omega

/-- The hash search of a consistent table returns. -/
theorem search_total {T : stringTable} (hT : HashWF T) (hS : Sized T) (p k : Nat) :
    ∃ r, stringTableHashSearch T p k = some r := by
  obtain ⟨j, hj, hnone⟩ := exists_empty_slot hT hS.slots (hashFunc p k T.hashSize)
  exact searchLoop_total T p k T.hashSize _ j (hashFunc_lt p k hT.hashSize_pos) hj
    (Or.inl hnone)

/-- The function `stringTableAdd` returns on a consistent table. -/
theorem add_total {T : stringTable} (hT : HashWF T) (hS : Sized T) (p k : Nat) :
    ∃ r, stringTableAdd T p k = some r := by
  unfold stringTableAdd
  obtain ⟨r, hr⟩ := search_total hT hS p k
  rw [hr]
  cases r with
  | some e => exact ⟨_, rfl⟩
  | none =>
    simp only
    by_cases hf : stringTableIsFull T = true
    · rw [if_pos hf]; exact ⟨_, rfl⟩
    · rw [if_neg hf]
      obtain ⟨j, hj, hnone⟩ := exists_empty_slot hT hS.slots (hashFunc p k T.hashSize)
      obtain ⟨hi, hhi⟩ := findEmpty_total T T.hashSize _ j
        (hashFunc_lt p k hT.hashSize_pos) hj hnone
      rw [hhi]
      exact ⟨_, rfl⟩

theorem add_Sized {T : stringTable} (hS : Sized T) {p k : Nat} {T' : stringTable}
    {r : Bool} {c : Nat} (h : stringTableAdd T p k = some (T', r, c)) : Sized T' := by
  rcases stringTableAdd_cases h with ⟨_, _, hT', _, _⟩ | ⟨_, _, hT', _, _⟩ |
    ⟨hs, hnf, hi, hfe, hT', _, _⟩
  · rw [hT']; exact hS
  · rw [hT']; exact hS
  · rw [hT']
    have hne : ¬ (T.highestCode = T.arraySize - 1) := by
      rw [← isFull_iff hS, hnf]; simp
    have := hS.hc_lt
    exact ⟨hS.arr_ge, hS.arr_lt, hS.hash_eq, by show T.highestCode + 1 < T.arraySize; omega⟩

/-- C3 (add-then-find): in a table built by `stringTableNew` and any calls of
`stringTableAdd`, when `stringTableAdd` inserts the pair `(p, k)` and reports code `c`,
the hash search for `(p, k)` in the resulting table returns an entry with code `c`, and the
code search for `c` returns the entry with prefix `p`, byte `k` and code `c`. -/
theorem add_then_find (T : stringTable) (hT : Built T) (p k : Nat) (T' : stringTable)
    (c : Nat) (h : stringTableAdd T p k = some (T', true, c)) :
    (∃ e, stringTableHashSearch T' p k = some (some e) ∧ e.code = c) ∧
      stringTableCodeSearch T' c = some ⟨p, k, c⟩ := by
  have hW := hT.hashWF
  have hW' := add_HashWF hW h
  rcases stringTableAdd_cases h with ⟨_, _, _, hr, _⟩ | ⟨_, _, _, hr, _⟩ |
    ⟨hs, hnf, hi, hfe, hT', _, hc⟩
  · simp at hr
  · simp at hr
  · have hge := hW.hc_ge
    simp only [NUM_SPECIAL_CODES] at hge
    have harr : T'.array c = ⟨p, k, c⟩ := by
      rw [hT', hc]; exact setCell_same _ _ _
    have hhc : T'.highestCode = c := by rw [hT', hc]
    have hv : validCode T' c := ⟨by rw [hc]; simp only [NUM_SPECIAL_CODES]; omega,
      by rw [hhc]⟩
    have hh : holds T' c p k := ⟨hv, by rw [harr], by rw [harr]⟩
    refine ⟨⟨T'.array c, search_holds hW' hh, by rw [harr]⟩, ?_⟩
    unfold stringTableCodeSearch
    have h1 : ¬ (c > T'.highestCode) := by rw [hhc]; omega
    have h2 : ¬ (c < NUM_SPECIAL_CODES) := by have := hv.1; omega
    simp [h1, h2, harr]

theorem add_then_find_witness :
    stringTableAdd (emptyTable 256 true) 0 65
        = some (inserted (emptyTable 256 true) 0 65 65, true, 4) ∧
      (∃ e, stringTableHashSearch (inserted (emptyTable 256 true) 0 65 65) 0 65
          = some (some e) ∧ e.code = 4) ∧
      stringTableCodeSearch (inserted (emptyTable 256 true) 0 65 65) 4 = some ⟨0, 65, 4⟩ :=
  ⟨rfl, add_then_find (emptyTable 256 true) (Built.new 8 true _ rfl) 0 65 _ 4 rfl⟩

/-- C4: on a table built by `stringTableNew` and `stringTableAdd`, a call of
`stringTableAdd` returns when the size fields are sane, and when it returns it reports
`false` exactly if the pair is already present or is absent from a full table; in both of
these cases the table is unchanged, and the reported code is the code of the existing entry
if the pair is present and `0` if the table is full. -/
theorem add_false_iff (T : stringTable) (hT : Built T) (p k : Nat) :
    (Sized T → ∃ res, stringTableAdd T p k = some res) ∧
    ∀ (T' : stringTable) (r : Bool) (c : Nat), stringTableAdd T p k = some (T', r, c) →
      (r = false ↔ ((∃ d, holds T d p k) ∨
          ((∀ d, ¬ holds T d p k) ∧ stringTableIsFull T = true))) ∧
      (r = false → T' = T) ∧
      (∀ d, holds T d p k → c = d) ∧
      ((∀ d, ¬ holds T d p k) → stringTableIsFull T = true → c = 0) := by
  have hW := hT.hashWF
  refine ⟨fun hS => add_total hW hS p k, ?_⟩
  intro T' r c h
  rcases stringTableAdd_cases h with ⟨e, hs, hT', hr, hc⟩ | ⟨hs, hf, hT', hr, hc⟩ |
    ⟨hs, hnf, hi, hfe, hT', hr, hc⟩
  · obtain ⟨d, hd, he, hcode⟩ := search_some hW hs
    refine ⟨⟨fun _ => Or.inl ⟨d, hd⟩, fun _ => hr⟩, fun _ => hT', ?_, ?_⟩
    · intro d' hd'
      have : d = d' := hW.uniq d d' hd.1 hd'.1 (by rw [hd.2.1, hd'.2.1])
        (by rw [hd.2.2, hd'.2.2])
      rw [hc, hcode, this]
    · intro hno _
      exact absurd hd (hno d)
  · refine ⟨⟨fun _ => Or.inr ⟨fun d => search_none hW hs d, hf⟩, fun _ => hr⟩,
      fun _ => hT', ?_, fun _ _ => hc⟩
    intro d hd
    exact absurd hd (search_none hW hs d)
  · refine ⟨⟨fun h0 => ?_, fun h0 => ?_⟩, fun h0 => ?_, ?_, ?_⟩
    · rw [hr] at h0; simp at h0
    · rcases h0 with ⟨d, hd⟩ | ⟨_, hf⟩
      · exact absurd hd (search_none hW hs d)
      · rw [hnf] at hf; simp at hf
    · rw [hr] at h0; simp at h0
    · intro d hd
      exact absurd hd (search_none hW hs d)
    · intro _ hf
      rw [hnf] at hf; simp at hf

/-- The state of `stringTableInit` after its first `n` insertions into an empty table with
room for them. -/
theorem initLoop_spec (N : Nat) (hN : 260 ≤ N) (hN' : N < 2 ^ 31) :
    ∀ n, n ≤ 256 → ∃ T, initLoop n (emptyTable N false) = some T ∧
      T.highestCode = NUM_SPECIAL_CODES - 1 + n ∧
      (∀ b, b < n → T.array (NUM_SPECIAL_CODES + b) = ⟨EMPTY_PREFIX, b, NUM_SPECIAL_CODES + b⟩) ∧
      HashWF T ∧ Sized T ∧ T.arraySize = N ∧ T.eFlag = false := by
  intro n
  induction n with
  | zero =>
    intro _
    refine ⟨emptyTable N false, rfl, rfl, fun b hb => by omega, emptyTable_HashWF N false,
      ⟨?_, hN', ?_, ?_⟩, rfl, rfl⟩
    · show NUM_SPECIAL_CODES ≤ N
      simp only [NUM_SPECIAL_CODES]; omega
    · show (N * 2 + 1) % 2 ^ 32 = 2 * N + 1
      omega
    · show NUM_SPECIAL_CODES - 1 < N
      simp only [NUM_SPECIAL_CODES]; omega
  | succ n ih =>
    intro hn
    obtain ⟨T, hT, hhc, harr, hW, hS, hsize, hef⟩ := ih (by omega)
    obtain ⟨⟨T', r, c⟩, hadd⟩ := add_total hW hS EMPTY_PREFIX n
    have hres : initLoop (n + 1) (emptyTable N false) = some T' := by
      rw [initLoop, hT]; simp only; rw [hadd]
    simp only [NUM_SPECIAL_CODES] at hhc harr
    have habsent : ∀ d, ¬ holds T d EMPTY_PREFIX n := by
      rintro d ⟨⟨hd1, hd2⟩, _, hk⟩
      simp only [NUM_SPECIAL_CODES] at hd1
      have := harr (d - 4) (by omega)
      rw [show 4 + (d - 4) = d by omega] at this
      rw [this] at hk
      simp only at hk
      omega
    refine ⟨T', hres, ?_, ?_, add_HashWF hW hadd, add_Sized hS hadd, ?_, ?_⟩
    all_goals
      rcases stringTableAdd_cases hadd with ⟨e, hs, _⟩ | ⟨hs, hf, _⟩ |
        ⟨hs, hnf, hi, hfe, hT', hr, hc⟩
      · obtain ⟨d, hd, _⟩ := search_some hW hs
        exact absurd hd (habsent d)
      · have := (isFull_iff hS).1 hf
        omega
    · rw [hT']; simp only [NUM_SPECIAL_CODES]
      show T.highestCode + 1 = _
      omega
    · intro b hb
      rw [hT']
      simp only [NUM_SPECIAL_CODES]
      by_cases hbn : b = n
      · subst hbn
        have : T.highestCode + 1 = 4 + b := by omega
        show setCell T.array (T.highestCode + 1) _ (4 + b) = _
        rw [this]; simp [EMPTY_PREFIX]
      · show setCell T.array (T.highestCode + 1) _ (4 + b) = _
        rw [setCell_ne _ _ (by omega)]
        exact harr b (by omega)
    · rw [hT']; exact hsize
    · rw [hT']; exact hef

theorem shift_eq (maxBits : Nat) (h : maxBits ≤ 30) :
    (1 <<< maxBits) % 2 ^ 32 = 2 ^ maxBits := by
  rw [Nat.shiftLeft_eq, Nat.one_mul]
  apply Nat.mod_eq_of_lt
  calc 2 ^ maxBits ≤ 2 ^ 30 := Nat.pow_le_pow_right (by norm_num) h
    _ < 2 ^ 32 := by norm_num

/-- The table of `createTable` without escape, for a capacity of at least 260 codes. -/
theorem createTable_false_spec (N : Nat) (hN : 260 ≤ N) (hN' : N < 2 ^ 31) :
    ∃ T, createTable N false = some T ∧
      T.highestCode = NUM_SPECIAL_CODES + 255 ∧
      (∀ b, b < 256 → T.array (NUM_SPECIAL_CODES + b) = ⟨EMPTY_PREFIX, b, NUM_SPECIAL_CODES + b⟩) ∧
      HashWF T ∧ Sized T ∧ T.arraySize = N ∧ T.eFlag = false := by
  obtain ⟨T, h1, h2, h3⟩ := initLoop_spec N hN hN' 256 (Nat.le_refl _)
  refine ⟨T, ?_, ?_, h3⟩
  · rw [createTable_eq]; unfold stringTableInit
    simp only [emptyTable, beq_self_eq_true, if_true]
    exact h1
  · rw [h2]; rfl

theorem createTable_true_spec (N : Nat) :
    createTable N true = some (emptyTable N true) := by
  rw [createTable_eq]; unfold stringTableInit
  simp [emptyTable]

/-- C5, as amended: for every `maxBits` in `[9, 24]`, `stringTableNew(maxBits, false)` holds
exactly the 256 single-byte entries, with `(empty, b)` at code `NUM_SPECIAL_CODES + b` and
`highestCode = 259`; for every `maxBits` in `[8, 24]`, `stringTableNew(maxBits, true)`
holds no entry, `highestCode = NUM_SPECIAL_CODES - 1`. -/
theorem stringTableNew_contents (maxBits : Nat) (h8 : 8 ≤ maxBits) (h24 : maxBits ≤ 24) :
    (9 ≤ maxBits → ∃ T, stringTableNew maxBits false = some T ∧
      T.highestCode = 259 ∧
      ∀ b, b < 256 → stringTableCodeSearch T (NUM_SPECIAL_CODES + b)
        = some ⟨EMPTY_PREFIX, b, NUM_SPECIAL_CODES + b⟩) ∧
    (∃ T, stringTableNew maxBits true = some T ∧ T.highestCode = NUM_SPECIAL_CODES - 1 ∧
      ∀ c, stringTableCodeSearch T c = none) := by
  have hsh := shift_eq maxBits (by omega)
  constructor
  · intro h9
    have hlo : 2 ^ 9 ≤ 2 ^ maxBits := Nat.pow_le_pow_right (by norm_num) h9
    have hhi : 2 ^ maxBits ≤ 2 ^ 24 := Nat.pow_le_pow_right (by norm_num) h24
    obtain ⟨T, h1, h2, h3, _⟩ := createTable_false_spec (2 ^ maxBits)
      (by norm_num at hlo; omega) (by norm_num at hhi ⊢; omega)
    refine ⟨T, ?_, h2, ?_⟩
    · unfold stringTableNew; rw [hsh]; exact h1
    · intro b hb
      unfold stringTableCodeSearch
      rw [h2, h3 b hb]
      simp only [NUM_SPECIAL_CODES]
      have h1 : ¬ (4 + b > 4 + 255) := by omega
      have h2 : ¬ (4 + b < 4) := by omega
      simp [h1, h2]
  · refine ⟨emptyTable (2 ^ maxBits) true, ?_, rfl, ?_⟩
    · unfold stringTableNew; rw [hsh]; exact createTable_true_spec _
    · intro c
      unfold stringTableCodeSearch
      simp only [emptyTable, NUM_SPECIAL_CODES]
      by_cases hc : c > 4 - 1
      · simp [hc]
      · have : c < 4 := by omega
        simp [this]

theorem stringTableNew_contents_witness :
    (8 ≤ 9 ∧ 9 ≤ 24) ∧
    ((9 ≤ 9 → ∃ T, stringTableNew 9 false = some T ∧
      T.highestCode = 259 ∧
      ∀ b, b < 256 → stringTableCodeSearch T (NUM_SPECIAL_CODES + b)
        = some ⟨EMPTY_PREFIX, b, NUM_SPECIAL_CODES + b⟩) ∧
    (∃ T, stringTableNew 9 true = some T ∧ T.highestCode = NUM_SPECIAL_CODES - 1 ∧
      ∀ c, stringTableCodeSearch T c = none)) :=
  ⟨by decide, stringTableNew_contents 9 (by decide) (by decide)⟩

set_option maxRecDepth 100000 in
/-- C5 fails as stated at `maxBits = 8`: the table of `stringTableNew(8, false)` is full
after 252 insertions, `highestCode` is 255 and the bytes 252 to 255 have no entry. -/
theorem stringTableNew_eight_counterexample :
    ¬ (∀ maxBits, 8 ≤ maxBits → maxBits ≤ 24 →
        ∃ T, stringTableNew maxBits false = some T ∧ T.highestCode = 259) := by
  intro h
  obtain ⟨T, h1, h2⟩ := h 8 (by decide) (by decide)
  have h3 : (stringTableNew 8 false).map (fun T => T.highestCode) = some 255 := by decide!
  rw [h1] at h3
  simp only [Option.map_some', Option.some.injEq] at h3
  omega

theorem codeSearch_valid {T : stringTable} {c : Nat} (h : validCode T c) :
    stringTableCodeSearch T c = some (T.array c) := by
  unfold stringTableCodeSearch
  have h1 : ¬ (c > T.highestCode) := by have := h.2; omega
  have h2 : ¬ (c < NUM_SPECIAL_CODES) := by have := h.1; omega
  simp [h1, h2]

theorem codeSearch_invalid {T : stringTable} {c : Nat} (h : ¬ validCode T c) :
    stringTableCodeSearch T c = none := by
  unfold stringTableCodeSearch
  unfold validCode at h
  by_cases h1 : c > T.highestCode
  · simp [h1]
  · have h2 : c < NUM_SPECIAL_CODES := by omega
    simp [h2]

theorem codeSearch_some {T : stringTable} {c : Nat} {e : tableElt}
    (h : stringTableCodeSearch T c = some e) : validCode T c ∧ e = T.array c := by
  by_cases hv : validCode T c
  · rw [codeSearch_valid hv] at h
    exact ⟨hv, by simpa using h.symm⟩
  · rw [codeSearch_invalid hv] at h; simp at h

theorem strOf_fuel {T : stringTable} (hC : Chains T) :
    ∀ (c f1 f2 : Nat), c < f1 → c < f2 → strOf T f1 c = strOf T f2 c := by
  intro c
  induction c using Nat.strong_induction_on with
  | _ c ih =>
    intro f1 f2 h1 h2
    obtain ⟨g1, rfl⟩ : ∃ g, f1 = g + 1 := ⟨f1 - 1, by omega⟩
    obtain ⟨g2, rfl⟩ : ∃ g, f2 = g + 1 := ⟨f2 - 1, by omega⟩
    rw [strOf, strOf]
    by_cases hv : validCode T c
    · rw [codeSearch_valid hv]
      simp only
      by_cases hp : (T.array c).pfx = EMPTY_PREFIX
      · rw [if_pos hp, if_pos hp]
      · rw [if_neg hp, if_neg hp]
        rcases hC c hv with h | ⟨_, hlt⟩
        · exact absurd h hp
        · rw [ih _ hlt g1 g2 (by omega) (by omega)]
    · rw [codeSearch_invalid hv]

theorem str_unfold {T : stringTable} (hC : Chains T) {c : Nat} (hv : validCode T c) :
    str T c = (if (T.array c).pfx = EMPTY_PREFIX then [] else str T (T.array c).pfx)
      ++ [(T.array c).k] := by
  unfold str
  rw [strOf, codeSearch_valid hv]
  simp only
  by_cases hp : (T.array c).pfx = EMPTY_PREFIX
  · rw [if_pos hp, if_pos hp]
  · rw [if_neg hp, if_neg hp]
    rcases hC c hv with h | ⟨hv', hlt⟩
    · exact absurd h hp
    · rw [strOf_fuel hC _ T.highestCode (T.highestCode + 1)
        (by have := hv.2; omega) (by have := hv.2; omega)]

theorem str_single {T : stringTable} (hC : Chains T) {c : Nat} (hv : validCode T c)
    (hp : (T.array c).pfx = EMPTY_PREFIX) : str T c = [(T.array c).k] := by
  rw [str_unfold hC hv, if_pos hp]; rfl

theorem str_cons {T : stringTable} (hC : Chains T) {c : Nat} (hv : validCode T c)
    (hp : (T.array c).pfx ≠ EMPTY_PREFIX) :
    str T c = str T (T.array c).pfx ++ [(T.array c).k] := by
  rw [str_unfold hC hv, if_neg hp]

theorem str_invalid {T : stringTable} {c : Nat} (hv : ¬ validCode T c) : str T c = [] := by
  unfold str
  rw [strOf, codeSearch_invalid hv]

theorem str_ne_nil {T : stringTable} (hC : Chains T) {c : Nat} (hv : validCode T c) :
    str T c ≠ [] := by
  rw [str_unfold hC hv]
  simp

/-- Different entries of a table spell different byte strings. -/
theorem str_inj {T : stringTable} (hW : HashWF T) (hC : Chains T) :
    ∀ (c d : Nat), validCode T c → validCode T d → str T c = str T d → c = d := by
  intro c
  induction c using Nat.strong_induction_on with
  | _ c ih =>
    intro d hc hd heq
    rw [str_unfold hC hc, str_unfold hC hd] at heq
    have hk : (T.array c).k = (T.array d).k := by
      have := congrArg List.getLast? heq
      simpa using this
    have hinit := congrArg List.dropLast heq
    simp only [List.dropLast_concat] at hinit
    by_cases hpc : (T.array c).pfx = EMPTY_PREFIX <;>
      by_cases hpd : (T.array d).pfx = EMPTY_PREFIX
    · exact hW.uniq c d hc hd (by rw [hpc, hpd]) hk
    · rw [if_pos hpc, if_neg hpd] at hinit
      rcases hC d hd with h | ⟨hv', _⟩
      · exact absurd h hpd
      · exact absurd hinit.symm (str_ne_nil hC hv')
    · rw [if_neg hpc, if_pos hpd] at hinit
      rcases hC c hc with h | ⟨hv', _⟩
      · exact absurd h hpc
      · exact absurd hinit (str_ne_nil hC hv')
    · rw [if_neg hpc, if_neg hpd] at hinit
      rcases hC c hc with h | ⟨hvc, hlt⟩
      · exact absurd h hpc
      · rcases hC d hd with h | ⟨hvd, _⟩
        · exact absurd h hpd
        · have := ih _ hlt _ hvc hvd hinit
          exact hW.uniq c d hc hd this hk

theorem onChain_iff (T : stringTable) (i x : Nat) :
    onChain T i x ↔ x = i ∨ ((T.array i).pfx ≠ EMPTY_PREFIX ∧ onChain T (T.array i).pfx x) := by
  constructor
  · intro h
    cases h with
    | refl => exact Or.inl rfl
    | step _ _ hp hc => exact Or.inr ⟨hp, hc⟩
  · rintro (h | ⟨hp, hc⟩)
    · rw [h]; exact onChain.refl i
    · exact onChain.step i x hp hc

theorem onChain_valid {T : stringTable} (hC : Chains T) {i x : Nat} (h : onChain T i x) :
    validCode T i → validCode T x ∧ x ≤ i := by
  induction h with
  | refl i => intro hv; exact ⟨hv, Nat.le_refl _⟩
  | step i x hp _ ih =>
    intro hv
    rcases hC i hv with h | ⟨hv', hlt⟩
    · exact absurd h hp
    · obtain ⟨h1, h2⟩ := ih hv'
      exact ⟨h1, by omega⟩

theorem inserted_valid {T : stringTable} {p k hi c : Nat}
    (h : validCode (inserted T p k hi) c) : validCode T c ∨ c = T.highestCode + 1 := by
  have h2 : c ≤ T.highestCode + 1 := h.2
  by_cases hc : c = T.highestCode + 1
  · exact Or.inr hc
  · exact Or.inl ⟨h.1, by omega⟩

theorem valid_inserted {T : stringTable} (p k hi : Nat) {c : Nat} (h : validCode T c) :
    validCode (inserted T p k hi) c :=
  ⟨h.1, Nat.le_succ_of_le h.2⟩

theorem valid_inserted_new {T : stringTable} (hge : NUM_SPECIAL_CODES - 1 ≤ T.highestCode)
    (p k hi : Nat) : validCode (inserted T p k hi) (T.highestCode + 1) := by
  refine ⟨?_, Nat.le_refl _⟩
  simp only [NUM_SPECIAL_CODES] at hge ⊢
  omega

theorem inserted_array_old {T : stringTable} (p k hi : Nat) {c : Nat} (h : validCode T c) :
    (inserted T p k hi).array c = T.array c :=
  setCell_ne _ _ (by have := h.2; omega)

theorem inserted_array_new (T : stringTable) (p k hi : Nat) :
    (inserted T p k hi).array (T.highestCode + 1) = ⟨p, k, T.highestCode + 1⟩ :=
  setCell_same _ _ _

theorem inserted_Chains {T : stringTable} (hC : Chains T) {p : Nat} (k hi : Nat)
    (hp : p = EMPTY_PREFIX ∨ validCode T p) : Chains (inserted T p k hi) := by
  intro c hc
  rcases inserted_valid hc with h | h
  · rw [inserted_array_old p k hi h]
    rcases hC c h with h1 | ⟨h1, h2⟩
    · exact Or.inl h1
    · exact Or.inr ⟨valid_inserted p k hi h1, h2⟩
  · rw [h, inserted_array_new]
    rcases hp with h1 | h1
    · exact Or.inl h1
    · exact Or.inr ⟨valid_inserted p k hi h1, by have := h1.2; show p < T.highestCode + 1; omega⟩

theorem inserted_Singles {T : stringTable} (hS : Singles T) (p k hi : Nat) :
    Singles (inserted T p k hi) := by
  intro he
  obtain ⟨h1, h2, h3⟩ := hS he
  refine ⟨h1, Nat.le_succ_of_le h2, ?_⟩
  intro b hb
  have hv : validCode T (NUM_SPECIAL_CODES + b) := ⟨Nat.le_add_right _ _, by omega⟩
  rw [inserted_array_old p k hi hv]
  exact h3 b hb

theorem str_inserted_old {T : stringTable} (hC : Chains T) {p k hi : Nat}
    (hp : p = EMPTY_PREFIX ∨ validCode T p) :
    ∀ c, validCode T c → str (inserted T p k hi) c = str T c := by
  have hC' := inserted_Chains hC k hi hp
  intro c
  induction c using Nat.strong_induction_on with
  | _ c ih =>
    intro hv
    rw [str_unfold hC' (valid_inserted p k hi hv), str_unfold hC hv,
      inserted_array_old p k hi hv]
    by_cases h0 : (T.array c).pfx = EMPTY_PREFIX
    · rw [if_pos h0, if_pos h0]
    · rw [if_neg h0, if_neg h0]
      rcases hC c hv with h | ⟨h1, h2⟩
      · exact absurd h h0
      · rw [ih _ h2 h1]

theorem str_inserted_new {T : stringTable} (hW : HashWF T) (hC : Chains T) {p k hi : Nat}
    (hp : p = EMPTY_PREFIX ∨ validCode T p) :
    str (inserted T p k hi) (T.highestCode + 1)
      = (if p = EMPTY_PREFIX then [] else str T p) ++ [k] := by
  have hC' := inserted_Chains hC k hi hp
  rw [str_unfold hC' (valid_inserted_new hW.hc_ge p k hi), inserted_array_new]
  simp only
  by_cases h0 : p = EMPTY_PREFIX
  · rw [if_pos h0, if_pos h0]
  · rw [if_neg h0, if_neg h0]
    rcases hp with h | h
    · exact absurd h h0
    · rw [str_inserted_old hC (Or.inr h) p h]

/-- The string of an entry in terms of its pair. -/
theorem str_holds {T : stringTable} (hC : Chains T) {c p k : Nat} (h : holds T c p k) :
    str T c = (if p = EMPTY_PREFIX then [] else str T p) ++ [k] := by
  obtain ⟨hv, hp, hk⟩ := h
  rw [str_unfold hC hv, hp, hk]

/-- An entry whose string is `s ++ [k]`, with `s` the string of `p` or empty for the empty
prefix, is the entry of the pair `(p, k)`. -/
theorem holds_of_str {T : stringTable} (hW : HashWF T) (hC : Chains T) {c p k : Nat}
    (hv : validCode T c) (hp : p = EMPTY_PREFIX ∨ validCode T p)
    (hs : str T c = (if p = EMPTY_PREFIX then [] else str T p) ++ [k]) : holds T c p k := by
  rw [str_unfold hC hv] at hs
  have hk : (T.array c).k = k := by
    have := congrArg List.getLast? hs
    simpa using this
  have hinit := congrArg List.dropLast hs
  simp only [List.dropLast_concat] at hinit
  refine ⟨hv, ?_, hk⟩
  have hval0 : ∀ x, validCode T x → x ≠ EMPTY_PREFIX := by
    intro x hx h0
    have := hx.1
    rw [h0] at this
    simp [NUM_SPECIAL_CODES, EMPTY_PREFIX] at this
  by_cases h1 : (T.array c).pfx = EMPTY_PREFIX <;> by_cases h2 : p = EMPTY_PREFIX
  · rw [h1, h2]
  · rw [if_pos h1, if_neg h2] at hinit
    rcases hp with h | h
    · exact absurd h h2
    · exact absurd hinit.symm (str_ne_nil hC h)
  · rw [if_neg h1, if_pos h2] at hinit
    rcases hC c hv with h | ⟨h, _⟩
    · exact absurd h h1
    · exact absurd hinit (str_ne_nil hC h)
  · rw [if_neg h1, if_neg h2] at hinit
    rcases hC c hv with h | ⟨h, _⟩
    · exact absurd h h1
    · rcases hp with h' | h'
      · exact absurd h' h2
      · exact str_inj hW hC _ _ h h' hinit

theorem valid_ne_empty {T : stringTable} {x : Nat} (hx : validCode T x) :
    x ≠ EMPTY_PREFIX := by
  intro h0
  have := hx.1
  rw [h0] at this
  simp [NUM_SPECIAL_CODES, EMPTY_PREFIX] at this

/-- Counting: codes of one table that map one-to-one into the codes of another table, all
missing one of its codes, leave the first table with fewer entries. -/
theorem card_lt_of_inj {Tn T : stringTable} (m : Nat → Nat) (e : Nat)
    (he : validCode T e)
    (hmap : ∀ n, validCode Tn n → validCode T (m n) ∧ m n ≠ e)
    (hinj : ∀ n n', validCode Tn n → validCode Tn n' → m n = m n' → n = n') :
    Tn.highestCode < T.highestCode := by
  have hm : ∀ a ∈ Finset.Icc NUM_SPECIAL_CODES Tn.highestCode,
      m a ∈ (Finset.Icc NUM_SPECIAL_CODES T.highestCode).erase e := by
    intro a ha
    have hv : validCode Tn a := by
      have := Finset.mem_Icc.1 ha
      exact ⟨this.1, this.2⟩
    obtain ⟨h1, h2⟩ := hmap a hv
    exact Finset.mem_erase.2 ⟨h2, Finset.mem_Icc.2 ⟨h1.1, h1.2⟩⟩
  have hi : Set.InjOn m (Finset.Icc NUM_SPECIAL_CODES Tn.highestCode : Set Nat) := by
    intro a ha b hb hab
    have ha' := Finset.mem_Icc.1 ha
    have hb' := Finset.mem_Icc.1 hb
    exact hinj a b ⟨ha'.1, ha'.2⟩ ⟨hb'.1, hb'.2⟩ hab
  have hcard := Finset.card_le_card_of_injOn m hm hi
  have hemem : e ∈ Finset.Icc NUM_SPECIAL_CODES T.highestCode :=
    Finset.mem_Icc.2 ⟨he.1, he.2⟩
  rw [Finset.card_erase_of_mem hemem] at hcard
  simp only [Nat.card_Icc] at hcard
  have := he.1
  have := he.2
  omega

theorem PInv.inj {T : stringTable} {pi : pruneInfo} {window : Nat} {Tn : stringTable}
    {pin : pruneInfo} {R : Nat → Prop} {B : Nat} {m : Nat → Nat}
    (hI : PInv T pi window Tn pin R B m) {n n' : Nat} (hn : validCode Tn n)
    (hn' : validCode Tn n') (h : m n = m n') : n = n' := by
  apply str_inj hI.hashWF hI.chains n n' hn hn'
  rw [(hI.part n hn).2, (hI.part n' hn').2, h]

/-- One `stringTableAdd` of the rebuild: the entry made from the old entry `e`, whose prefix
has already been re-added with new code `np`. -/
theorem pinv_add {T : stringTable} {pi : pruneInfo} {window : Nat} {Tn : stringTable}
    {pin : pruneInfo} {R : Nat → Prop} {B : Nat} {m : Nat → Nat} (hT : WFT T)
    (hI : PInv T pi window Tn pin R B m) {e np : Nat} (he : validCode T e) (heB : e < B)
    (hsel : retained pi window e = true → R e ∨ B ≤ e + 1)
    (hlink : ((T.array e).pfx = EMPTY_PREFIX ∧ np = EMPTY_PREFIX) ∨
      ((T.array e).pfx ≠ EMPTY_PREFIX ∧ validCode Tn np ∧ m np = (T.array e).pfx)) :
    ∃ Tn' r nc, stringTableAdd Tn np (T.array e).k = some (Tn', r, nc) ∧
      ∃ m', PInv T pi window Tn' ⟨setCell pin.lastSeen nc (pi.lastSeen e), pin.counter⟩
          (fun x => R x ∨ x = e) B m' ∧ validCode Tn' nc ∧ m' nc = e := by
  have hnp : np = EMPTY_PREFIX ∨ validCode Tn np := by
    rcases hlink with ⟨_, h⟩ | ⟨_, h, _⟩
    · exact Or.inl h
    · exact Or.inr h
  have hstrE : str T e = (if np = EMPTY_PREFIX then [] else str Tn np) ++ [(T.array e).k] := by
    rw [str_unfold hT.chains he]
    rcases hlink with ⟨h1, h2⟩ | ⟨h1, h2, h3⟩
    · rw [if_pos h1, if_pos h2]
    · rw [if_neg h1, if_neg (valid_ne_empty h2), (hI.part np h2).2, h3]
  have F1 : ∀ n, validCode Tn n → (holds Tn n np (T.array e).k ↔ m n = e) := by
    intro n hn
    constructor
    · intro hh
      have h1 := str_holds hI.chains hh
      rw [← hstrE, (hI.part n hn).2] at h1
      exact str_inj hT.hashWF hT.chains _ _ (hI.part n hn).1 he h1
    · intro hm
      apply holds_of_str hI.hashWF hI.chains hn hnp
      rw [(hI.part n hn).2, hm, hstrE]
  obtain ⟨⟨Tn', r, nc⟩, hadd⟩ := add_total hI.hashWF hI.sized np (T.array e).k
  refine ⟨Tn', r, nc, hadd, ?_⟩
  rcases stringTableAdd_cases hadd with ⟨e', hs, hTn', hr, hc⟩ | ⟨hs, hf, hTn', hr, hc⟩ |
    ⟨hs, hnf, hi, hfe, hTn', hr, hc⟩
  · -- the entry is already there
    obtain ⟨c, hholds, he', hcode⟩ := search_some hI.hashWF hs
    have hnc : nc = c := by rw [hc, hcode]
    have hvc : validCode Tn c := hholds.1
    have hmc : m c = e := (F1 c hvc).1 hholds
    subst hTn'
    subst hnc
    refine ⟨m, ?_, hvc, hmc⟩
    refine ⟨hI.hashWF, hI.sized, hI.chains, hI.singles, hI.arr, hI.efl, hI.part, ?_, hI.sing,
      ?_, hI.bound, hI.order, hI.cnt, ?_, ?_, ?_⟩
    · intro n hn
      rcases hI.incl n hn with h | h
      · exact Or.inl (Or.inl h)
      · exact Or.inr h
    · intro e2 he2 hR
      rcases hR with h | h
      · exact hI.compl e2 he2 h
      · exact ⟨nc, hvc, by rw [hmc, h]⟩
    · intro n hn hR
      show setCell pin.lastSeen nc (pi.lastSeen e) n = _
      by_cases hnn : n = nc
      · rw [hnn, setCell_same, hmc]
      · rw [setCell_ne _ _ hnn]
        rcases hR with h | h
        · exact hI.seenR n hn h
        · exact absurd (hI.inj hn hvc (by rw [h, hmc])) hnn
    · intro n hn hnot
      show setCell pin.lastSeen nc (pi.lastSeen e) n = _
      have hnn : n ≠ nc := by
        intro h
        apply hnot
        rw [h]
        exact ⟨hvc, Or.inr hmc⟩
      rw [setCell_ne _ _ hnn]
      apply hI.seen0 n hn
      rintro ⟨h1, h2⟩
      exact hnot ⟨h1, Or.inl h2⟩
    · intro n hn
      show setCell pin.lastSeen nc (pi.lastSeen e) n = _
      have hnn : n ≠ nc := by
        have h1 := hvc.2
        have h2 := hI.sized.hc_lt
        have h3 := hI.arr
        omega
      rw [setCell_ne _ _ hnn]
      exact hI.seenOut n hn
  · -- the new table cannot be full
    exfalso
    have hlt := card_lt_of_inj m e he
      (fun n hn => ⟨(hI.part n hn).1, fun h => search_none hI.hashWF hs n ((F1 n hn).2 h)⟩)
      (fun n n' hn hn' h => hI.inj hn hn' h)
    have h1 := (isFull_iff hI.sized).1 hf
    have h2 := hT.sized.hc_lt
    have h3 := hI.arr
    omega
  · -- a fresh entry
    have hfresh : ∀ n, validCode Tn n → m n ≠ e :=
      fun n hn h => search_none hI.hashWF hs n ((F1 n hn).2 h)
    have hTn'' : Tn' = inserted Tn np (T.array e).k hi := hTn'
    subst hTn''
    have hvnew : validCode (inserted Tn np (T.array e).k hi) nc := by
      rw [hc]; exact valid_inserted_new hI.hashWF.hc_ge _ _ _
    have hmold : ∀ n, validCode Tn n → setCell m nc e n = m n := by
      intro n hn
      apply setCell_ne
      have := hn.2
      omega
    have hmnew : setCell m nc e nc = e := setCell_same _ _ _
    have hcases : ∀ n, validCode (inserted Tn np (T.array e).k hi) n →
        validCode Tn n ∨ n = nc := by
      intro n hn
      rcases inserted_valid hn with h | h
      · exact Or.inl h
      · exact Or.inr (by rw [h, hc])
    have holdne : ∀ n, validCode Tn n → n ≠ nc := by
      intro n hn
      have := hn.2
      omega
    refine ⟨setCell m nc e, ?_, hvnew, hmnew⟩
    refine ⟨add_HashWF hI.hashWF hadd, add_Sized hI.sized hadd,
      inserted_Chains hI.chains _ _ hnp, inserted_Singles hI.singles _ _ _, hI.arr, hI.efl,
      ?_, ?_, ?_, ?_, ?_, ?_, hI.cnt, ?_, ?_, ?_⟩
    · intro n hn
      rcases hcases n hn with h | h
      · rw [hmold n h, str_inserted_old hI.chains hnp n h]
        exact hI.part n h
      · rw [h, hmnew]
        refine ⟨he, ?_⟩
        rw [hc, str_inserted_new hI.hashWF hI.chains hnp, hstrE]
    · intro n hn
      rcases hcases n hn with h | h
      · rw [hmold n h]
        rcases hI.incl n h with h' | h'
        · exact Or.inl (Or.inl h')
        · exact Or.inr h'
      · rw [h, hmnew]; exact Or.inl (Or.inr rfl)
    · intro hef n hn hlt
      rcases hcases n hn with h | h
      · rw [hmold n h]; exact hI.sing hef n h hlt
      · exfalso
        have := (hI.singles (by rw [hI.efl]; exact hef)).2.1
        omega
    · intro e2 he2 hR
      rcases hR with h | h
      · obtain ⟨n, hn, hmn⟩ := hI.compl e2 he2 h
        exact ⟨n, valid_inserted _ _ _ hn, by rw [hmold n hn, hmn]⟩
      · exact ⟨nc, hvnew, by rw [hmnew, h]⟩
    · intro n hn
      rcases hcases n hn with h | h
      · rw [hmold n h]; exact hI.bound n h
      · rw [h, hmnew]; exact Or.inl heB
    · intro n n' hn hn' hrn hrn' hlt
      rcases hcases n hn with h | h <;> rcases hcases n' hn' with h' | h'
      · rw [hmold n h, hmold n' h'] at *
        exact hI.order n n' h h' hrn hrn' hlt
      · rw [h']
        have := h.2
        omega
      · exfalso
        rw [h, hmnew] at hrn hlt
        rw [hmold n' h'] at hrn' hlt
        rcases hsel hrn with hRe | hB
        · obtain ⟨n0, hn0, hm0⟩ := hI.compl e he hRe
          exact hfresh n0 hn0 hm0
        · rcases hI.bound n' h' with hb | ⟨hef, hlt'⟩
          · omega
          · have hmn' := hI.sing hef n' h' hlt'
            have hs2 := (hI.singles (by rw [hI.efl]; exact hef)).2.1
            have hve : validCode Tn e := ⟨he.1, by omega⟩
            exact hfresh e hve (hI.sing hef e hve (by omega))
      · rw [h, h'] at hlt
        omega
    · intro n hn hR
      show setCell pin.lastSeen nc (pi.lastSeen e) n = _
      rcases hcases n hn with h | h
      · rw [setCell_ne _ _ (holdne n h)]
        rw [hmold n h] at hR ⊢
        rcases hR with h' | h'
        · exact hI.seenR n h h'
        · exact absurd h' (hfresh n h)
      · rw [h, setCell_same, hmnew]
    · intro n hn hnot
      show setCell pin.lastSeen nc (pi.lastSeen e) n = _
      have hnn : n ≠ nc := by
        intro h
        apply hnot
        rw [h, hmnew]
        exact ⟨hvnew, Or.inr rfl⟩
      rw [setCell_ne _ _ hnn]
      apply hI.seen0 n hn
      rintro ⟨h1, h2⟩
      apply hnot
      rw [hmold n h1]
      exact ⟨valid_inserted _ _ _ h1, Or.inl h2⟩
    · intro n hn
      show setCell pin.lastSeen nc (pi.lastSeen e) n = _
      have hnn : n ≠ nc := by
        have h2 := (add_Sized hI.sized hadd).hc_lt
        have h3 := hI.arr
        have h4 : (inserted Tn np (T.array e).k hi).highestCode = Tn.highestCode + 1 := rfl
        have h5 : (inserted Tn np (T.array e).k hi).arraySize = Tn.arraySize := rfl
        omega
      rw [setCell_ne _ _ hnn]
      exact hI.seenOut n hn

theorem PInv.congr {T : stringTable} {pi : pruneInfo} {window : Nat} {Tn : stringTable}
    {pin : pruneInfo} {R R' : Nat → Prop} {B B' : Nat} {m : Nat → Nat}
    (hI : PInv T pi window Tn pin R B m) (hR : ∀ x, R x ↔ R' x) (hB : B ≤ B') :
    PInv T pi window Tn pin R' B' m := by
  refine ⟨hI.hashWF, hI.sized, hI.chains, hI.singles, hI.arr, hI.efl, hI.part, ?_, hI.sing,
    ?_, ?_, hI.order, hI.cnt, ?_, ?_, hI.seenOut⟩
  · intro n hn
    rcases hI.incl n hn with h | h
    · exact Or.inl ((hR _).1 h)
    · exact Or.inr h
  · intro e he h
    exact hI.compl e he ((hR _).2 h)
  · intro n hn
    rcases hI.bound n hn with h | h
    · exact Or.inl (by omega)
    · exact Or.inr h
  · intro n hn h
    exact hI.seenR n hn ((hR _).2 h)
  · intro n hn h
    apply hI.seen0 n hn
    rintro ⟨h1, h2⟩
    exact h ⟨h1, (hR _).1 h2⟩

/-- The function `recursiveAdd` on an entry `e` of the chain of the loop index `i`. -/
theorem pinv_recursiveAdd {T : stringTable} {pi : pruneInfo} {window : Nat} (hT : WFT T)
    (i : Nat) :
    ∀ (fuel e : Nat) (Tn : stringTable) (pin : pruneInfo) (R : Nat → Prop) (m : Nat → Nat),
      PInv T pi window Tn pin R (i + 1) m → validCode T e → e ≤ i → e < fuel →
      (∀ x, validCode T x → x < i → retained pi window x = true → R x) →
      ∃ Tn' pin' nc m', recursiveAdd T pi fuel Tn (some (T.array e)) pin
          = some (Tn', pin', nc) ∧
        PInv T pi window Tn' pin' (fun x => R x ∨ onChain T e x) (i + 1) m' ∧
        validCode Tn' nc ∧ m' nc = e := by
  intro fuel
  induction fuel with
  | zero => intro e _ _ _ _ _ _ _ h; omega
  | succ fuel ih =>
    intro e Tn pin R m hI he hei hfuel hsel
    rw [recursiveAdd]
    have hcode : (T.array e).code = e := hT.hashWF.code_eq e he
    by_cases hp : (T.array e).pfx = EMPTY_PREFIX
    · have hb : ((T.array e).pfx != EMPTY_PREFIX) = false := by simp [hp]
      rw [hb]
      simp only [Bool.false_eq_true, if_false]
      obtain ⟨Tn', r, nc, hadd, m', hI', hv, hm⟩ := pinv_add hT hI he (by omega)
        (fun hr => by
          by_cases h : e = i
          · exact Or.inr (by omega)
          · exact Or.inl (hsel e he (by omega) hr))
        (Or.inl ⟨hp, rfl⟩)
      rw [hadd]
      simp only
      refine ⟨Tn', _, nc, m', rfl, ?_, hv, hm⟩
      rw [hcode, hI.cnt]
      rw [hI.cnt] at hI'
      refine hI'.congr ?_ (Nat.le_refl _)
      intro x
      rw [onChain_iff]
      constructor
      · rintro (h | h)
        · exact Or.inl h
        · exact Or.inr (Or.inl h)
      · rintro (h | h | ⟨h, _⟩)
        · exact Or.inl h
        · exact Or.inr h
        · exact absurd hp h
    · have hb : ((T.array e).pfx != EMPTY_PREFIX) = true := by simp [hp]
      rw [hb]
      simp only [if_true]
      rcases hT.chains e he with h | ⟨hvp, hlt⟩
      · exact absurd h hp
      · rw [codeSearch_valid hvp]
        obtain ⟨Tn1, pin1, np, m1, hrec, hI1, hvnp, hmnp⟩ :=
          ih (T.array e).pfx Tn pin R m hI hvp (by omega) (by omega) hsel
        rw [hrec]
        simp only
        obtain ⟨Tn', r, nc, hadd, m', hI', hv, hm⟩ := pinv_add hT hI1 he (by omega)
          (fun hr => by
            by_cases h : e = i
            · exact Or.inr (by omega)
            · exact Or.inl (Or.inl (hsel e he (by omega) hr)))
          (Or.inr ⟨hp, hvnp, hmnp⟩)
        rw [hadd]
        simp only
        refine ⟨Tn', _, nc, m', rfl, ?_, hv, hm⟩
        rw [hcode]
        refine hI'.congr ?_ (Nat.le_refl _)
        intro x
        rw [onChain_iff T e x]
        constructor
        · rintro ((h | h) | h)
          · exact Or.inl h
          · exact Or.inr (Or.inr ⟨hp, h⟩)
          · exact Or.inr (Or.inl h)
        · rintro (h | h | ⟨_, h⟩)
          · exact Or.inl (Or.inl h)
          · exact Or.inr h
          · exact Or.inl (Or.inr h)

theorem readded_succ_of_not {T : stringTable} {pi : pruneInfo} {window i : Nat}
    (h : retained pi window i ≠ true) (x : Nat) :
    readded T pi window i x ↔ readded T pi window (i + 1) x := by
  constructor
  · rintro ⟨j, h1, h2, h3, h4⟩
    exact ⟨j, h1, by omega, h3, h4⟩
  · rintro ⟨j, h1, h2, h3, h4⟩
    by_cases hji : j = i
    · rw [hji] at h3; exact absurd h3 h
    · exact ⟨j, h1, by omega, h3, h4⟩

theorem readded_succ_of_retained {T : stringTable} {pi : pruneInfo} {window i : Nat}
    (hv : validCode T i) (h : retained pi window i = true) (x : Nat) :
    (readded T pi window i x ∨ onChain T i x) ↔ readded T pi window (i + 1) x := by
  constructor
  · rintro (⟨j, h1, h2, h3, h4⟩ | h')
    · exact ⟨j, h1, by omega, h3, h4⟩
    · exact ⟨i, hv, by omega, h, h'⟩
  · rintro ⟨j, h1, h2, h3, h4⟩
    by_cases hji : j = i
    · rw [hji] at h4; exact Or.inr h4
    · exact Or.inl ⟨j, h1, by omega, h3, h4⟩

/-- The loop of `stringTablePrune` keeps the invariant and returns. -/
theorem pinv_pruneLoop {T : stringTable} {pi : pruneInfo} {window : Nat} (hT : WFT T) :
    ∀ (n i : Nat) (Tn : stringTable) (pin : pruneInfo) (ctu : Nat) (m : Nat → Nat),
      i + n = T.highestCode + 1 → NUM_SPECIAL_CODES ≤ i →
      PInv T pi window Tn pin (readded T pi window i) i m →
      ∃ Tn' pin' ctu' m', pruneLoop T pi window n i Tn pin ctu = some (Tn', pin', ctu') ∧
        PInv T pi window Tn' pin' (readded T pi window (T.highestCode + 1))
          (T.highestCode + 1) m' := by
  intro n
  induction n with
  | zero =>
    intro i Tn pin ctu m hin _ hI
    have : i = T.highestCode + 1 := by omega
    subst this
    exact ⟨Tn, pin, ctu, m, rfl, hI⟩
  | succ n ih =>
    intro i Tn pin ctu m hin hi4 hI
    have hv : validCode T i := ⟨hi4, by omega⟩
    rw [pruneLoop]
    by_cases hr : retained pi window i = true
    · rw [if_pos hr]
      obtain ⟨Tn1, pin1, nc, m1, hrec, hI1, _, _⟩ :=
        pinv_recursiveAdd hT i (T.highestCode + 1) i Tn pin _ m
          (hI.congr (fun _ => Iff.rfl) (Nat.le_succ i)) hv (Nat.le_refl _) (by omega)
          (fun x hx hxi hrx => ⟨x, hx, hxi, hrx, onChain.refl x⟩)
      rw [hrec]
      simp only
      exact ih (i + 1) Tn1 pin1 _ m1 (by omega) (by omega)
        (hI1.congr (readded_succ_of_retained hv hr) (Nat.le_refl _))
    · rw [if_neg hr]
      exact ih (i + 1) Tn pin ctu m (by omega) (by omega)
        (hI.congr (readded_succ_of_not hr) (Nat.le_succ i))

theorem readded_base (T : stringTable) (pi : pruneInfo) (window x : Nat) :
    ¬ readded T pi window NUM_SPECIAL_CODES x := by
  rintro ⟨j, h1, h2, _⟩
  have := h1.1
  omega

theorem emptyTable_not_valid (N : Nat) (e : Bool) (c : Nat) :
    ¬ validCode (emptyTable N e) c := by
  rintro ⟨h1, h2⟩
  have h3 : c ≤ NUM_SPECIAL_CODES - 1 := h2
  simp only [NUM_SPECIAL_CODES] at h1 h3
  omega

/-- The state in which the loop of `stringTablePrune` starts. -/
theorem prune_init {T : stringTable} (pi : pruneInfo) (window : Nat) (hT : WFT T) :
    ∃ Tn0, createTable T.arraySize T.eFlag = some Tn0 ∧
      PInv T pi window Tn0
        ⟨fun i => if i < T.arraySize then 0 else pi.lastSeen i, pi.counter⟩
        (readded T pi window NUM_SPECIAL_CODES) NUM_SPECIAL_CODES id := by
  have hSz := hT.sized
  rcases Bool.eq_false_or_eq_true T.eFlag with hef | hef
  · refine ⟨emptyTable T.arraySize true, by rw [hef]; exact createTable_true_spec _, ?_⟩
    have hnv := emptyTable_not_valid T.arraySize true
    refine ⟨emptyTable_HashWF _ _, ⟨hSz.arr_ge, hSz.arr_lt, ?_, ?_⟩, ?_, ?_, rfl, hef.symm,
      ?_, ?_, ?_, ?_, ?_, ?_, rfl, ?_, ?_, ?_⟩
    · show (T.arraySize * 2 + 1) % 2 ^ 32 = 2 * T.arraySize + 1
      have := hSz.arr_lt
      omega
    · show NUM_SPECIAL_CODES - 1 < T.arraySize
      have := hSz.arr_ge
      simp only [NUM_SPECIAL_CODES] at this ⊢
      omega
    · intro c hc; exact absurd hc (hnv c)
    · intro h; simp [emptyTable] at h
    · intro n hn; exact absurd hn (hnv n)
    · intro n hn; exact absurd hn (hnv n)
    · intro _ n hn; exact absurd hn (hnv n)
    · intro e _ hR; exact absurd hR (readded_base _ _ _ _)
    · intro n hn; exact absurd hn (hnv n)
    · intro n n' hn; exact absurd hn (hnv n)
    · intro n hn; exact absurd hn (hnv n)
    · intro n hn _
      show (if n < T.arraySize then 0 else pi.lastSeen n) = 0
      rw [if_pos hn]
    · intro n hn
      show (if n < T.arraySize then 0 else pi.lastSeen n) = _
      rw [if_neg (by omega)]
  · obtain ⟨h260, h259, hsing⟩ := hT.singles hef
    simp only [NUM_SPECIAL_CODES] at h260 h259 hsing
    obtain ⟨Tn0, hcreate, hhc, harr, hW, hS, hsize, heflag⟩ :=
      createTable_false_spec T.arraySize (by omega) hSz.arr_lt
    simp only [NUM_SPECIAL_CODES] at hhc harr
    have hval : ∀ n, validCode Tn0 n → 4 ≤ n ∧ n ≤ 259 := by
      intro n hn
      have h1 := hn.1
      have h2 := hn.2
      simp only [NUM_SPECIAL_CODES] at h1
      omega
    have harr' : ∀ n, validCode Tn0 n → Tn0.array n = ⟨EMPTY_PREFIX, n - 4, n⟩ := by
      intro n hn
      obtain ⟨h1, h2⟩ := hval n hn
      have := harr (n - 4) (by omega)
      rw [show 4 + (n - 4) = n by omega] at this
      exact this
    have hTarr : ∀ n, 4 ≤ n → n ≤ 259 → T.array n = ⟨EMPTY_PREFIX, n - 4, n⟩ := by
      intro n h1 h2
      have := hsing (n - 4) (by omega)
      rw [show 4 + (n - 4) = n by omega] at this
      exact this
    have hC0 : Chains Tn0 := by
      intro c hc
      rw [harr' c hc]
      exact Or.inl rfl
    refine ⟨Tn0, by rw [hef]; exact hcreate, ?_⟩
    refine ⟨hW, hS, hC0, ?_, hsize, by rw [heflag, hef], ?_, ?_, ?_, ?_, ?_, ?_, rfl, ?_, ?_,
      ?_⟩
    · intro _
      refine ⟨by rw [hsize]; simp only [NUM_SPECIAL_CODES]; omega,
        by rw [hhc]; simp only [NUM_SPECIAL_CODES]; omega, ?_⟩
      intro b hb
      simp only [NUM_SPECIAL_CODES]
      exact harr b hb
    · intro n hn
      obtain ⟨h1, h2⟩ := hval n hn
      have hvT : validCode T n := ⟨hn.1, by omega⟩
      refine ⟨hvT, ?_⟩
      show str Tn0 n = str T n
      rw [str_single hC0 hn (by rw [harr' n hn]), str_single hT.chains hvT
        (by rw [hTarr n h1 h2]), harr' n hn, hTarr n h1 h2]
    · intro n hn
      refine Or.inr ⟨hef, ?_⟩
      have := (hval n hn).2
      simp only [NUM_SPECIAL_CODES]
      omega
    · intro _ n _ _; rfl
    · intro e _ hR; exact absurd hR (readded_base _ _ _ _)
    · intro n hn
      refine Or.inr ⟨hef, ?_⟩
      have := (hval n hn).2
      simp only [NUM_SPECIAL_CODES]
      omega
    · intro n n' _ _ _ _ h; exact h
    · intro n _ hR; exact absurd hR (readded_base _ _ _ _)
    · intro n hn _
      show (if n < T.arraySize then 0 else pi.lastSeen n) = 0
      rw [if_pos hn]
    · intro n hn
      show (if n < T.arraySize then 0 else pi.lastSeen n) = _
      rw [if_neg (by omega)]

/-- The function `stringTablePrune` returns on a well-formed table, and its results satisfy
the invariant of the rebuild for all old codes. -/
theorem prune_spec {T : stringTable} (pi : pruneInfo) (window ctu : Nat) (hT : WFT T) :
    ∃ T' pi' ctu' m, stringTablePrune T pi window ctu = some (T', pi', ctu') ∧
      PInv T pi window T' pi' (readded T pi window (T.highestCode + 1))
        (T.highestCode + 1) m := by
  obtain ⟨Tn0, hcreate, hI0⟩ := prune_init pi window hT
  unfold stringTablePrune
  simp only
  rw [hcreate]
  simp only
  have hge := hT.hashWF.hc_ge
  exact pinv_pruneLoop hT _ NUM_SPECIAL_CODES Tn0 _ ctu id
    (by simp only [NUM_SPECIAL_CODES] at hge ⊢; omega) (Nat.le_refl _) hI0

theorem PInv.wft {T : stringTable} {pi : pruneInfo} {window : Nat} {Tn : stringTable}
    {pin : pruneInfo} {R : Nat → Prop} {B : Nat} {m : Nat → Nat}
    (hI : PInv T pi window Tn pin R B m) : WFT Tn :=
  ⟨hI.hashWF, hI.sized, hI.chains, hI.singles⟩

/-- An insertion with an empty or existing prefix keeps a dictionary well formed. -/
theorem add_WFT {T : stringTable} (hT : WFT T) {p k : Nat}
    (hp : p = EMPTY_PREFIX ∨ validCode T p) {T' : stringTable} {r : Bool} {c : Nat}
    (h : stringTableAdd T p k = some (T', r, c)) : WFT T' := by
  refine ⟨add_HashWF hT.hashWF h, add_Sized hT.sized h, ?_, ?_⟩
  · rcases stringTableAdd_cases h with ⟨_, _, hT', _, _⟩ | ⟨_, _, hT', _, _⟩ |
      ⟨_, _, hi, _, hT', _, _⟩
    · rw [hT']; exact hT.chains
    · rw [hT']; exact hT.chains
    · rw [hT']; exact inserted_Chains hT.chains k hi hp
  · rcases stringTableAdd_cases h with ⟨_, _, hT', _, _⟩ | ⟨_, _, hT', _, _⟩ |
      ⟨_, _, hi, _, hT', _, _⟩
    · rw [hT']; exact hT.singles
    · rw [hT']; exact hT.singles
    · rw [hT']; exact inserted_Singles hT.singles p k hi

theorem emptyTable_WFT (N : Nat) (h4 : NUM_SPECIAL_CODES ≤ N) (hN : N < 2 ^ 31) :
    WFT (emptyTable N true) := by
  refine ⟨emptyTable_HashWF _ _, ⟨h4, hN, ?_, ?_⟩, ?_, ?_⟩
  · show (N * 2 + 1) % 2 ^ 32 = 2 * N + 1
    omega
  · show NUM_SPECIAL_CODES - 1 < N
    simp only [NUM_SPECIAL_CODES] at h4 ⊢
    omega
  · intro c hc; exact absurd hc (emptyTable_not_valid N true c)
  · intro h; simp [emptyTable] at h

theorem wTable_WFT : WFT wTable := by
  have h0 : WFT (emptyTable 256 true) := emptyTable_WFT 256 (by decide) (by norm_num)
  have h1 : WFT (inserted (emptyTable 256 true) 0 97 97) :=
    add_WFT h0 (Or.inl rfl)
      (show stringTableAdd (emptyTable 256 true) 0 97 = some (_, true, 4) from rfl)
  have h2 : WFT (inserted (inserted (emptyTable 256 true) 0 97 97) 0 98 98) :=
    add_WFT h1 (Or.inl rfl)
      (show stringTableAdd (inserted (emptyTable 256 true) 0 97 97) 0 98
        = some (_, true, 5) from rfl)
  exact add_WFT h2 (Or.inr ⟨by decide, by decide⟩)
    (show stringTableAdd (inserted (inserted (emptyTable 256 true) 0 97 97) 0 98 98) 5 99
      = some (wTable, true, 6) from rfl)

/-- Prune law (contents), with the selection test of the source: on a well-formed
dictionary `stringTablePrune` returns a well-formed dictionary whose entries spell exactly
the byte strings of the kept old entries: those on the prefix chain of an entry for which
the unsigned test `lastSeen[e.code] > counter - window` of the source holds (`retained`),
and without escape the 256 single bytes. Every entry of the new dictionary spells the
string of a kept old entry, and an old entry has its string in the new dictionary exactly
if it is kept. -/
theorem prune_contents (T : stringTable) (hT : WFT T) (pi : pruneInfo) (window ctu : Nat) :
    ∃ T' pi' ctu', stringTablePrune T pi window ctu = some (T', pi', ctu') ∧ WFT T' ∧
      (∀ n, validCode T' n →
        ∃ e, validCode T e ∧ kept T pi window e ∧ str T' n = str T e) ∧
      (∀ e, validCode T e →
        ((∃ n, validCode T' n ∧ str T' n = str T e) ↔ kept T pi window e)) := by
  obtain ⟨T', pi', ctu', m, hp, hI⟩ := prune_spec pi window ctu hT
  refine ⟨T', pi', ctu', hp, hI.wft, ?_, ?_⟩
  · intro n hn
    obtain ⟨hv, hs⟩ := hI.part n hn
    refine ⟨m n, hv, ?_, hs⟩
    rcases hI.incl n hn with h | ⟨h1, h2⟩
    · exact Or.inl h
    · exact Or.inr ⟨h1, by rw [hI.sing h1 n hn h2]; exact h2⟩
  · intro e he
    constructor
    · rintro ⟨n, hn, hs⟩
      obtain ⟨hv, hs'⟩ := hI.part n hn
      have hme : m n = e := str_inj hT.hashWF hT.chains _ _ hv he (by rw [← hs', hs])
      rcases hI.incl n hn with h | ⟨h1, h2⟩
      · exact Or.inl (by rw [← hme]; exact h)
      · exact Or.inr ⟨h1, by rw [← hme, hI.sing h1 n hn h2]; exact h2⟩
    · rintro (h | ⟨h1, h2⟩)
      · obtain ⟨n, hn, hmn⟩ := hI.compl e he h
        exact ⟨n, hn, by rw [(hI.part n hn).2, hmn]⟩
      · have hs := (hI.singles (by rw [hI.efl]; exact h1)).2.1
        have hv : validCode T' e := ⟨he.1, by omega⟩
        exact ⟨e, hv, by rw [(hI.part e hv).2, hI.sing h1 e hv h2]⟩

theorem prune_contents_witness :
    WFT wTable ∧
    ∃ T' pi' ctu', stringTablePrune wTable wPi 2 5 = some (T', pi', ctu') ∧ WFT T' ∧
      (∀ n, validCode T' n →
        ∃ e, validCode wTable e ∧ kept wTable wPi 2 e ∧ str T' n = str wTable e) ∧
      (∀ e, validCode wTable e →
        ((∃ n, validCode T' n ∧ str T' n = str wTable e) ↔ kept wTable wPi 2 e)) :=
  ⟨wTable_WFT, prune_contents wTable wTable_WFT wPi 2 5⟩

/-- C6: the prune does not select by `lastSeen > C - w` when the window exceeds the counter.
On `wTable` with the entry 6 seen at time 1, the counter at 2 and `window = 3`, the entry 6
satisfies `lastSeen[6] > C - w` (`1 > 2 - 3`), but the unsigned test of the source is false
for it and `stringTablePrune` returns a dictionary without entries; with `window = 2` the
entry and its prefix are kept. -/
theorem prune_contents_wraps :
    validCode wTable 6 ∧ (wPi.lastSeen 6 : Int) > (wPi.counter : Int) - 3 ∧
    retained wPi 3 6 = false ∧
    (stringTablePrune wTable wPi 3 5).map (fun r => r.1.highestCode)
      = some (NUM_SPECIAL_CODES - 1) ∧
    (wPi.lastSeen 6 : Int) > (wPi.counter : Int) - 2 ∧ retained wPi 2 6 = true ∧
    (stringTablePrune wTable wPi 2 5).map (fun r => r.1.highestCode) = some 5 := by
  refine ⟨by decide, by decide, by decide, by decide, by decide, by decide, by decide⟩

/-- C7 (recency across a prune): on a well-formed dictionary `stringTablePrune` leaves the
counter unchanged; every old entry re-added by `recursiveAdd` (on the prefix chain of a
selected entry) has a new code at which `lastSeen` is the old `lastSeen` at its old code;
and `lastSeen` is `0` at every other index of the array. -/
theorem prune_recency (T : stringTable) (hT : WFT T) (pi : pruneInfo) (window ctu : Nat) :
    ∃ T' pi' ctu', stringTablePrune T pi window ctu = some (T', pi', ctu') ∧
      pi'.counter = pi.counter ∧
      (∀ e, validCode T e → readded T pi window (T.highestCode + 1) e →
        ∃ n, validCode T' n ∧ str T' n = str T e ∧ pi'.lastSeen n = pi.lastSeen e) ∧
      (∀ n, n < T.arraySize →
        (¬ ∃ e, validCode T e ∧ readded T pi window (T.highestCode + 1) e ∧
          validCode T' n ∧ str T' n = str T e) → pi'.lastSeen n = 0) := by
  obtain ⟨T', pi', ctu', m, hp, hI⟩ := prune_spec pi window ctu hT
  refine ⟨T', pi', ctu', hp, hI.cnt, ?_, ?_⟩
  · intro e he hR
    obtain ⟨n, hn, hmn⟩ := hI.compl e he hR
    refine ⟨n, hn, by rw [(hI.part n hn).2, hmn], ?_⟩
    rw [hI.seenR n hn (by rw [hmn]; exact hR), hmn]
  · intro n hn hnot
    apply hI.seen0 n hn
    rintro ⟨h1, h2⟩
    exact hnot ⟨m n, (hI.part n h1).1, h2, h1, (hI.part n h1).2⟩

theorem prune_recency_witness :
    WFT wTable ∧
    ∃ T' pi' ctu', stringTablePrune wTable wPi 2 5 = some (T', pi', ctu') ∧
      pi'.counter = wPi.counter ∧
      (∀ e, validCode wTable e → readded wTable wPi 2 (wTable.highestCode + 1) e →
        ∃ n, validCode T' n ∧ str T' n = str wTable e ∧ pi'.lastSeen n = wPi.lastSeen e) ∧
      (∀ n, n < wTable.arraySize →
        (¬ ∃ e, validCode wTable e ∧ readded wTable wPi 2 (wTable.highestCode + 1) e ∧
          validCode T' n ∧ str T' n = str wTable e) → pi'.lastSeen n = 0) :=
  ⟨wTable_WFT, prune_recency wTable wTable_WFT wPi 2 5⟩

/-- C9 (order of the new codes): on a well-formed dictionary `stringTablePrune` gives every
selected entry a new code, two selected entries with old codes `i < j` get new codes in the
same order, and every entry of the new dictionary with a non-empty prefix has a prefix with
a smaller code than its own. -/
theorem prune_order (T : stringTable) (hT : WFT T) (pi : pruneInfo) (window ctu : Nat) :
    ∃ T' pi' ctu', stringTablePrune T pi window ctu = some (T', pi', ctu') ∧
      (∀ i, validCode T i → retained pi window i = true →
        ∃ ni, validCode T' ni ∧ str T' ni = str T i) ∧
      (∀ i j ni nj, validCode T i → validCode T j → retained pi window i = true →
        retained pi window j = true → i < j → validCode T' ni → validCode T' nj →
        str T' ni = str T i → str T' nj = str T j → ni < nj) ∧
      (∀ n, validCode T' n → (T'.array n).pfx ≠ EMPTY_PREFIX →
        validCode T' (T'.array n).pfx ∧ (T'.array n).pfx < n) := by
  obtain ⟨T', pi', ctu', m, hp, hI⟩ := prune_spec pi window ctu hT
  have hm : ∀ n e, validCode T' n → validCode T e → str T' n = str T e → m n = e := by
    intro n e hn he hs
    exact str_inj hT.hashWF hT.chains _ _ (hI.part n hn).1 he (by rw [← (hI.part n hn).2, hs])
  refine ⟨T', pi', ctu', hp, ?_, ?_, ?_⟩
  · intro i hi hr
    obtain ⟨n, hn, hmn⟩ := hI.compl i hi ⟨i, hi, by have := hi.2; omega, hr, onChain.refl i⟩
    exact ⟨n, hn, by rw [(hI.part n hn).2, hmn]⟩
  · intro i j ni nj hi hj hri hrj hij hni hnj hsi hsj
    have h1 := hm ni i hni hi hsi
    have h2 := hm nj j hnj hj hsj
    exact hI.order ni nj hni hnj (by rw [h1]; exact hri) (by rw [h2]; exact hrj)
      (by rw [h1, h2]; exact hij)
  · intro n hn hp'
    rcases hI.chains n hn with h | h
    · exact absurd h hp'
    · exact h

theorem prune_order_witness :
    (WFT wTable ∧ validCode wTable 4 ∧ validCode wTable 6 ∧ retained wPiTwo 2 4 = true ∧
      retained wPiTwo 2 6 = true) ∧
    ∃ T' pi' ctu', stringTablePrune wTable wPiTwo 2 5 = some (T', pi', ctu') ∧
      (∀ i, validCode wTable i → retained wPiTwo 2 i = true →
        ∃ ni, validCode T' ni ∧ str T' ni = str wTable i) ∧
      (∀ i j ni nj, validCode wTable i → validCode wTable j → retained wPiTwo 2 i = true →
        retained wPiTwo 2 j = true → i < j → validCode T' ni → validCode T' nj →
        str T' ni = str wTable i → str T' nj = str wTable j → ni < nj) ∧
      (∀ n, validCode T' n → (T'.array n).pfx ≠ EMPTY_PREFIX →
        validCode T' (T'.array n).pfx ∧ (T'.array n).pfx < n) :=
  ⟨⟨wTable_WFT, by decide, by decide, by decide, by decide⟩,
    prune_order wTable wTable_WFT wPiTwo 2 5⟩

set_option maxRecDepth 100000 in
/-- C8 fails on the code: in `wTable` only entry 6 = (5, 99) is selected, so entry
5 = (empty, 98) is re-added as the prefix of 6 and gets the new code 4, but
`stringTablePrune` called with `*codeToUpdate = 5` returns with `*codeToUpdate` still 5. -/
theorem prune_codeToUpdate_stale :
    (stringTablePrune wTable wPi 2 5).map
        (fun r => (r.2.2, stringTableCodeSearch r.1 4, stringTableCodeSearch r.1 5))
      = some (5, some ⟨0, 98, 4⟩, some ⟨4, 99, 5⟩) ∧
    stringTableCodeSearch wTable 5 = some ⟨0, 98, 5⟩ ∧ retained wPi 2 6 = true ∧
    retained wPi 2 5 = false := by
  decide!

/-- C10 (protocol violations): in every state of the decoder loop, called with the header
fields `maxBits`, `window` and `eFlag`, reading `ESCAPE_CODE` when the escape flag is off,
`PRUNE_CODE` when the window is `0`, or a `GROW_NBITS_CODE` that raises `nbits` above
`maxBits` makes `decode` return `false` at once, with nothing more written. -/
theorem decode_rejects (maxBits window : Nat) (eFlag : Bool) (fuel : Nat)
    (table : stringTable) (pi : pruneInfo) (oldCode finalK nbits : Nat)
    (input rest : List Bool) (code : Nat)
    (hread : getBits nbits input = some (code, rest))
    (hviol : (code = ESCAPE_CODE ∧ eFlag = false) ∨ (code = PRUNE_CODE ∧ window = 0) ∨
      (code = GROW_NBITS_CODE ∧ maxBits < nbits + 1)) :
    decodeLoop maxBits window eFlag (fuel + 1) table pi oldCode finalK nbits input
      = some (false, []) := by
  rw [decodeLoop, hread]
  rcases hviol with ⟨h1, h2⟩ | ⟨h1, h2⟩ | ⟨h1, h2⟩
  · subst h1; subst h2
    simp [ESCAPE_CODE, STOP_CODE, GROW_NBITS_CODE, PRUNE_CODE]
  · subst h1; subst h2
    simp [STOP_CODE, GROW_NBITS_CODE, PRUNE_CODE]
  · subst h1
    have : nbits + 1 > maxBits := h2
    simp [STOP_CODE, GROW_NBITS_CODE, this]

theorem decode_rejects_witness :
    (getBits 9 (putBits 9 0 ++ [true]) = some (0, [true]) ∧
      ((0 = ESCAPE_CODE ∧ false = false) ∨ (0 = PRUNE_CODE ∧ 0 = 0) ∨
        (0 = GROW_NBITS_CODE ∧ 12 < 9 + 1))) ∧
    decodeLoop 12 0 false (0 + 1) (emptyTable 4096 false) (pruneInfoNew 12) 0 0 9
      (putBits 9 0 ++ [true]) = some (false, []) :=
  ⟨⟨by decide, Or.inl ⟨rfl, rfl⟩⟩,
    decode_rejects 12 0 false 0 (emptyTable 4096 false) (pruneInfoNew 12) 0 0 9
      (putBits 9 0 ++ [true]) [true] 0 (by decide) (Or.inl ⟨rfl, rfl⟩)⟩

/-! ## Bit fields -/

theorem putBits_length (w v : Nat) : (putBits w v).length = w := by
  induction w with
  | zero => rfl
  | succ w ih => simp [putBits, ih]

theorem getBitsAux_putBits (w : Nat) :
    ∀ (acc v : Nat) (rest : List Bool),
      getBitsAux w acc (putBits w v ++ rest) = some (acc * 2 ^ w + v % 2 ^ w, rest) := by
  induction w with
  | zero =>
    intro acc v rest
    simp [getBitsAux, putBits, Nat.mod_one]
  | succ w ih =>
    intro acc v rest
    rw [putBits, List.cons_append, getBitsAux, ih]
    have h1 : (v.testBit w).toNat = v / 2 ^ w % 2 := Nat.toNat_testBit v w
    have h2 : v % 2 ^ (w + 1) = v % 2 ^ w + 2 ^ w * (v / 2 ^ w % 2) := Nat.mod_pow_succ
    rw [h1, h2]
    congr 2
    rw [pow_succ]
    ring

/-- Reading back a field that fits its width. -/
theorem getBits_putBits {w v : Nat} (hv : v < 2 ^ w) (rest : List Bool) :
    getBits w (putBits w v ++ rest) = some (v, rest) := by
  unfold getBits
  rw [getBitsAux_putBits, Nat.mod_eq_of_lt hv]
  simp

theorem putBits_eight : ∀ b7 b6 b5 b4 b3 b2 b1 b0 : Bool,
    putBits 8 (128 * b7.toNat + 64 * b6.toNat + 32 * b5.toNat + 16 * b4.toNat + 8 * b3.toNat
      + 4 * b2.toNat + 2 * b1.toNat + b0.toNat) = [b7, b6, b5, b4, b3, b2, b1, b0] := by
  decide

/-- Unpacking the packed bytes gives the bits back when they fill whole bytes. -/
theorem unpack_pack : ∀ (n : Nat) (bits : List Bool), bits.length = 8 * n →
    unpackBytes (packBytes bits) = bits := by
  intro n
  induction n with
  | zero =>
    intro bits h
    have : bits = [] := List.length_eq_zero.1 (by omega)
    subst this
    rfl
  | succ n ih =>
    intro bits h
    match bits, h with
    | b7 :: b6 :: b5 :: b4 :: b3 :: b2 :: b1 :: b0 :: rest, h =>
      have hr : rest.length = 8 * n := by
        simp only [List.length_cons] at h
        omega
      rw [packBytes, unpackBytes, putBits_eight, ih rest hr]
      rfl
    | [], h => simp at h
    | [_], h => simp at h; omega
    | [_, _], h => simp at h; omega
    | [_, _, _], h => simp at h; omega
    | [_, _, _, _], h => simp at h; omega
    | [_, _, _, _, _], h => simp at h; omega
    | [_, _, _, _, _, _], h => simp at h; omega
    | [_, _, _, _, _, _, _], h => simp at h; omega

theorem flushBits_length (bits : List Bool) : ∃ n, (flushBits bits).length = 8 * n := by
  refine ⟨(bits.length + (8 - bits.length % 8) % 8) / 8, ?_⟩
  unfold flushBits
  rw [List.length_append, List.length_replicate]
  omega

theorem unpack_pack_flush (bits : List Bool) :
    unpackBytes (packBytes (flushBits bits))
      = bits ++ List.replicate ((8 - bits.length % 8) % 8) false := by
  obtain ⟨n, hn⟩ := flushBits_length bits
  rw [unpack_pack n _ hn]
  rfl

theorem fieldBits_append (a b : List (Nat × Nat)) :
    fieldBits (a ++ b) = fieldBits a ++ fieldBits b := by
  induction a with
  | nil => rfl
  | cons f a ih => simp [fieldBits, ih]

theorem fieldBits_cons (w v : Nat) (a : List (Nat × Nat)) :
    fieldBits ((w, v) :: a) = putBits w v ++ fieldBits a := rfl

/-! ## The walk of the decoder -/

/-- The walk of the decoder from an entry ends at the first entry of the chain and leaves
the other bytes of the string on the stack. -/
theorem walk_spec {T : stringTable} (hC : Chains T) :
    ∀ (fuel x : Nat) (st : List Nat), validCode T x → x < fuel →
      ∃ e l, walkLoop T fuel (some (T.array x)) st = some (some e, l) ∧
        e.k :: l = str T x ++ st := by
  intro fuel
  induction fuel with
  | zero => intro x _ _ h; omega
  | succ fuel ih =>
    intro x st hv hx
    rw [walkLoop]
    by_cases hp : (T.array x).pfx = EMPTY_PREFIX
    · have hb : ((T.array x).pfx != EMPTY_PREFIX) = false := by simp [hp]
      rw [hb]
      simp only [Bool.false_eq_true, if_false]
      refine ⟨T.array x, st, rfl, ?_⟩
      rw [str_single hC hv hp]; rfl
    · have hb : ((T.array x).pfx != EMPTY_PREFIX) = true := by simp [hp]
      rw [hb]
      simp only [if_true]
      rcases hC x hv with h | ⟨hvp, hlt⟩
      · exact absurd h hp
      · rw [codeSearch_valid hvp]
        obtain ⟨e, l, h1, h2⟩ := ih (T.array x).pfx ((T.array x).k :: st) hvp (by omega)
        refine ⟨e, l, h1, ?_⟩
        rw [h2, str_cons hC hv hp]
        simp

/-- The two shapes of a returned `stringTableAdd`: nothing changed, or one entry more. -/
theorem add_shape {T : stringTable} (hW : HashWF T) {p k : Nat} {T' : stringTable}
    {r : Bool} {c : Nat} (h : stringTableAdd T p k = some (T', r, c)) :
    (T' = T ∧ r = false) ∨
    (∃ hi, T' = inserted T p k hi ∧ r = true ∧ c = T.highestCode + 1 ∧
      (∀ d, ¬ holds T d p k) ∧ stringTableIsFull T = false) := by
  rcases stringTableAdd_cases h with ⟨_, _, hT', hr, _⟩ | ⟨_, _, hT', hr, _⟩ |
    ⟨hs, hnf, hi, _, hT', hr, hc⟩
  · exact Or.inl ⟨hT', hr⟩
  · exact Or.inl ⟨hT', hr⟩
  · exact Or.inr ⟨hi, hT', hr, hc, fun d => search_none hW hs d, hnf⟩

/-- What `stringTableAdd` keeps of a well-formed table. -/
theorem add_ext {T : stringTable} (hT : WFT T) {p k : Nat}
    (hp : p = EMPTY_PREFIX ∨ validCode T p) {T' : stringTable} {r : Bool} {c : Nat}
    (h : stringTableAdd T p k = some (T', r, c)) :
    T'.arraySize = T.arraySize ∧ T'.eFlag = T.eFlag ∧ T.highestCode ≤ T'.highestCode ∧
    T'.highestCode ≤ T.highestCode + 1 ∧
    ∀ x, validCode T x → validCode T' x ∧ T'.array x = T.array x ∧ str T' x = str T x := by
  rcases add_shape hT.hashWF h with ⟨h1, _⟩ | ⟨hi, h1, _⟩
  · subst h1
    exact ⟨rfl, rfl, Nat.le_refl _, Nat.le_succ _, fun x hx => ⟨hx, rfl, rfl⟩⟩
  · subst h1
    exact ⟨rfl, rfl, Nat.le_succ _, Nat.le_refl _, fun x hx =>
      ⟨valid_inserted p k hi hx, inserted_array_old p k hi hx,
        str_inserted_old hT.chains hp x hx⟩⟩

theorem shiftLeft_one (n : Nat) : 1 <<< n = 2 ^ n := by
  rw [Nat.shiftLeft_eq, Nat.one_mul]

theorem nbitsLoop_spec : ∀ (fuel n hc : Nat), hc ≤ 2 ^ (n + fuel) - 1 →
    n ≤ nbitsLoop fuel n hc ∧ hc ≤ 2 ^ (nbitsLoop fuel n hc) - 1 ∧
    (nbitsLoop fuel n hc = n ∨ 2 ^ (nbitsLoop fuel n hc - 1) - 1 < hc) := by
  intro fuel
  induction fuel with
  | zero =>
    intro n hc h
    exact ⟨Nat.le_refl _, h, Or.inl rfl⟩
  | succ fuel ih =>
    intro n hc h
    rw [nbitsLoop, shiftLeft_one]
    by_cases hlt : 2 ^ n - 1 < hc
    · rw [if_pos hlt]
      obtain ⟨h1, h2, h3⟩ := ih (n + 1) hc (by rw [show n + 1 + fuel = n + (fuel + 1) by omega]; exact h)
      refine ⟨by omega, h2, Or.inr ?_⟩
      rcases h3 with h3 | h3
      · rw [h3]; simpa using hlt
      · exact h3
    · rw [if_neg hlt]
      exact ⟨Nat.le_refl _, by omega, Or.inl rfl⟩

/-- The width recomputed after a prune is at least `2`, wide enough for `highestCode`, and
not above `maxBits` when `highestCode` is below `2 ^ maxBits`. -/
theorem nbitsFor_spec (hc maxBits : Nat) (hm : 2 ≤ maxBits) (hlt : hc < 2 ^ maxBits) :
    2 ≤ nbitsFor hc ∧ hc ≤ 2 ^ (nbitsFor hc) - 1 ∧ nbitsFor hc ≤ maxBits := by
  have hfuel : hc ≤ 2 ^ (2 + hc) - 1 := by
    have h1 : hc < 2 ^ hc := Nat.lt_two_pow hc
    have h2 : 2 ^ hc ≤ 2 ^ (2 + hc) := Nat.pow_le_pow_right (by norm_num) (by omega)
    omega
  obtain ⟨h1, h2, h3⟩ := nbitsLoop_spec hc 2 hc hfuel
  refine ⟨h1, h2, ?_⟩
  show nbitsLoop hc 2 hc ≤ maxBits
  rcases h3 with h3 | h3
  · rw [h3]; exact hm
  · by_contra hcon
    have h4 : 2 ^ maxBits ≤ 2 ^ (nbitsLoop hc 2 hc - 1) :=
      Nat.pow_le_pow_right (by norm_num) (by omega)
    have h5 : 0 < 2 ^ maxBits := Nat.two_pow_pos maxBits
    omega

/-- Without escape every byte has its entry, found by the hash search. -/
theorem search_single {T : stringTable} (hT : WFT T) (he : T.eFlag = false) {k : Nat}
    (hk : k < 256) :
    stringTableHashSearch T EMPTY_PREFIX k
      = some (some ⟨EMPTY_PREFIX, k, NUM_SPECIAL_CODES + k⟩) := by
  obtain ⟨_, h2, h3⟩ := hT.singles he
  have hv : validCode T (NUM_SPECIAL_CODES + k) := ⟨Nat.le_add_right _ _, by omega⟩
  have hh : holds T (NUM_SPECIAL_CODES + k) EMPTY_PREFIX k := ⟨hv, by rw [h3 k hk], by rw [h3 k hk]⟩
  rw [search_holds hT.hashWF hh, h3 k hk]

/-- The function `recursiveAdd` reads the old table only below the entry it adds. -/
theorem recursiveAdd_agree {T1 Td : stringTable} (hC : Chains Td) (pi : pruneInfo)
    (hhc : Td.highestCode ≤ T1.highestCode)
    (harr : ∀ x, validCode Td x → T1.array x = Td.array x) :
    ∀ (e f1 f2 : Nat) (Tn : stringTable) (pin : pruneInfo), validCode Td e → e < f1 →
      e < f2 →
      recursiveAdd T1 pi f1 Tn (some (T1.array e)) pin
        = recursiveAdd Td pi f2 Tn (some (Td.array e)) pin := by
  intro e
  induction e using Nat.strong_induction_on with
  | _ e ih =>
    intro f1 f2 Tn pin hv h1 h2
    obtain ⟨g1, rfl⟩ : ∃ g, f1 = g + 1 := ⟨f1 - 1, by omega⟩
    obtain ⟨g2, rfl⟩ : ∃ g, f2 = g + 1 := ⟨f2 - 1, by omega⟩
    rw [recursiveAdd, recursiveAdd, harr e hv]
    by_cases hp : (Td.array e).pfx = EMPTY_PREFIX
    · have hb : ((Td.array e).pfx != EMPTY_PREFIX) = false := by simp [hp]
      rw [hb]
      simp only [Bool.false_eq_true, if_false]
    · have hb : ((Td.array e).pfx != EMPTY_PREFIX) = true := by simp [hp]
      rw [hb]
      simp only [if_true]
      rcases hC e hv with h | ⟨hvp, hlt⟩
      · exact absurd h hp
      · have hvp1 : validCode T1 (Td.array e).pfx := ⟨hvp.1, by have := hvp.2; omega⟩
        rw [codeSearch_valid hvp, codeSearch_valid hvp1,
          ih _ hlt g1 g2 Tn pin hvp (by omega) (by omega)]

/-- The rebuilt table and recency state do not depend on `*codeToUpdate`, nor on a last
entry of the old table that is not retained. -/
theorem pruneLoop_agree {T1 Td : stringTable} (hC : Chains Td) (pi : pruneInfo)
    (window : Nat) (hhc : Td.highestCode ≤ T1.highestCode)
    (harr : ∀ x, validCode Td x → T1.array x = Td.array x) :
    ∀ (n i : Nat) (Tn : stringTable) (pin : pruneInfo) (ctu ctu' : Nat),
      i + n = Td.highestCode + 1 → NUM_SPECIAL_CODES ≤ i →
      (pruneLoop T1 pi window n i Tn pin ctu).map (fun r => (r.1, r.2.1))
        = (pruneLoop Td pi window n i Tn pin ctu').map (fun r => (r.1, r.2.1)) := by
  intro n
  induction n with
  | zero => intro i Tn pin ctu ctu' _ _; rfl
  | succ n ih =>
    intro i Tn pin ctu ctu' hin hi4
    have hv : validCode Td i := ⟨hi4, by omega⟩
    rw [pruneLoop, pruneLoop]
    by_cases hr : retained pi window i = true
    · rw [if_pos hr, if_pos hr,
        recursiveAdd_agree hC pi hhc harr i (T1.highestCode + 1) (Td.highestCode + 1) Tn pin
          hv (by have := hv.2; omega) (by have := hv.2; omega)]
      cases hrec : recursiveAdd Td pi (Td.highestCode + 1) Tn (some (Td.array i)) pin with
      | none => rfl
      | some r =>
        obtain ⟨Tn1, pin1, nc⟩ := r
        exact ih (i + 1) Tn1 pin1 _ _ (by omega) (by omega)
    · rw [if_neg hr, if_neg hr]
      exact ih (i + 1) Tn pin ctu ctu' (by omega) (by omega)

theorem pruneLoop_extra (T1 : stringTable) (pi : pruneInfo) (window : Nat) :
    ∀ (n i : Nat) (Tn : stringTable) (pin : pruneInfo) (ctu : Nat),
      retained pi window (i + n) = false →
      (pruneLoop T1 pi window (n + 1) i Tn pin ctu).map (fun r => (r.1, r.2.1))
        = (pruneLoop T1 pi window n i Tn pin ctu).map (fun r => (r.1, r.2.1)) := by
  intro n
  induction n with
  | zero =>
    intro i Tn pin ctu hr
    have hr' : ¬ (retained pi window i = true) := by
      rw [show i = i + 0 from rfl, hr]; simp
    simp [pruneLoop, hr']
  | succ n ih =>
    intro i Tn pin ctu hr
    rw [pruneLoop]
    conv_rhs => rw [pruneLoop]
    by_cases hri : retained pi window i = true
    · rw [if_pos hri, if_pos hri]
      cases hrec : recursiveAdd T1 pi (T1.highestCode + 1) Tn (some (T1.array i)) pin with
      | none => rfl
      | some r =>
        obtain ⟨Tn1, pin1, nc⟩ := r
        exact ih (i + 1) Tn1 pin1 _ (by rw [show i + 1 + n = i + (n + 1) by omega]; exact hr)
    · rw [if_neg hri, if_neg hri]
      exact ih (i + 1) Tn pin ctu (by rw [show i + 1 + n = i + (n + 1) by omega]; exact hr)

/-- The prune of a table with one entry more than `Td`, the last one not retained, builds
what the prune of `Td` builds. -/
theorem prune_agree {T1 Td : stringTable} (hT : WFT Td) (pi : pruneInfo) (window : Nat)
    (ctu ctu' : Nat) (hsz : T1.arraySize = Td.arraySize) (hef : T1.eFlag = Td.eFlag)
    (harr : ∀ x, validCode Td x → T1.array x = Td.array x)
    (hhc : T1.highestCode = Td.highestCode ∨
      (T1.highestCode = Td.highestCode + 1 ∧ retained pi window (Td.highestCode + 1) = false)) :
    (stringTablePrune T1 pi window ctu).map (fun r => (r.1, r.2.1))
      = (stringTablePrune Td pi window ctu').map (fun r => (r.1, r.2.1)) := by
  unfold stringTablePrune
  simp only
  rw [hsz, hef]
  cases hcr : createTable Td.arraySize Td.eFlag with
  | none => rfl
  | some Tn0 =>
    simp only
    have hge := hT.hashWF.hc_ge
    simp only [NUM_SPECIAL_CODES] at hge
    rcases hhc with h | ⟨h, hr⟩
    · rw [h]
      exact pruneLoop_agree hT.chains pi window (by omega) harr _ _ Tn0 _ ctu ctu'
        (by simp only [NUM_SPECIAL_CODES]; omega) (Nat.le_refl _)
    · rw [h, show Td.highestCode + 1 + 1 - NUM_SPECIAL_CODES
        = (Td.highestCode + 1 - NUM_SPECIAL_CODES) + 1 by simp only [NUM_SPECIAL_CODES]; omega,
        pruneLoop_extra T1 pi window _ _ Tn0 _ ctu
          (by rw [show NUM_SPECIAL_CODES + (Td.highestCode + 1 - NUM_SPECIAL_CODES)
            = Td.highestCode + 1 by simp only [NUM_SPECIAL_CODES]; omega]; exact hr)]
      exact pruneLoop_agree hT.chains pi window (by omega) harr _ _ Tn0 _ ctu ctu'
        (by simp only [NUM_SPECIAL_CODES]; omega) (Nat.le_refl _)

/-! ## Single rounds of the decoder loop -/

theorem two_le_pow {n : Nat} (h : 2 ≤ n) : 4 ≤ 2 ^ n := by
  have : 2 ^ 2 ≤ 2 ^ n := Nat.pow_le_pow_right (by norm_num) h
  simpa using this

theorem dec_stop (maxBits window : Nat) (eFlag : Bool) (fuel : Nat) (Td : stringTable)
    (pi : pruneInfo) (oc fK : Nat) {nbits : Nat} (hn : 2 ≤ nbits) (tail : List Bool) :
    decodeLoop maxBits window eFlag (fuel + 1) Td pi oc fK nbits
      (putBits nbits STOP_CODE ++ tail) = some (true, []) := by
  have h4 := two_le_pow hn
  rw [decodeLoop, getBits_putBits (by simp only [STOP_CODE]; omega)]
  simp

theorem dec_grow (maxBits window : Nat) (eFlag : Bool) (fuel : Nat) (Td : stringTable)
    (pi : pruneInfo) (oc fK : Nat) {nbits : Nat} (hn : 2 ≤ nbits) (hm : nbits + 1 ≤ maxBits)
    (tail : List Bool) :
    decodeLoop maxBits window eFlag (fuel + 1) Td pi oc fK nbits
      (putBits nbits GROW_NBITS_CODE ++ tail)
      = decodeLoop maxBits window eFlag fuel Td pi oc fK (nbits + 1) tail := by
  have h4 := two_le_pow hn
  rw [decodeLoop, getBits_putBits (by simp only [GROW_NBITS_CODE]; omega)]
  have : ¬ (nbits + 1 > maxBits) := by omega
  simp [STOP_CODE, GROW_NBITS_CODE, this]

theorem dec_prune (maxBits : Nat) {window : Nat} (hw : window ≠ 0) (eFlag : Bool)
    (fuel : Nat) (Td : stringTable) (pi : pruneInfo) (oc fK : Nat) {nbits : Nat}
    (hn : 2 ≤ nbits) (tail : List Bool) {T1 : stringTable} {pi1 : pruneInfo} {x : Nat}
    (hp : stringTablePrune Td pi window oc = some (T1, pi1, x)) :
    decodeLoop maxBits window eFlag (fuel + 1) Td pi oc fK nbits
      (putBits nbits PRUNE_CODE ++ tail)
      = decodeLoop maxBits window eFlag fuel T1 pi1 EMPTY_PREFIX fK
          (nbitsFor T1.highestCode) tail := by
  have h4 := two_le_pow hn
  rw [decodeLoop, getBits_putBits (by simp only [PRUNE_CODE]; omega), hp]
  simp [STOP_CODE, GROW_NBITS_CODE, PRUNE_CODE, hw]

theorem dec_escape (maxBits window : Nat) (fuel : Nat) (Td : stringTable)
    (pi : pruneInfo) (oc fK : Nat) {nbits : Nat} (hn : 2 ≤ nbits) {k : Nat} (hk : k < 256)
    (tail : List Bool) {T1 T2 : stringTable} {r : Bool} {tc : Nat}
    (h1 : (if oc != EMPTY_PREFIX then (stringTableAdd Td oc k).map (fun r => r.1)
      else some Td) = some T1)
    (h2 : stringTableAdd T1 EMPTY_PREFIX k = some (T2, r, tc)) :
    decodeLoop maxBits window true (fuel + 1) Td pi oc fK nbits
      (putBits nbits ESCAPE_CODE ++ (putBits 8 k ++ tail))
      = (decodeLoop maxBits window true fuel T2 (pruneInfoSawCode pi tc) EMPTY_PREFIX fK
          nbits tail).map (fun r => (r.1, k :: r.2)) := by
  have h4 := two_le_pow hn
  rw [decodeLoop, getBits_putBits (by simp only [ESCAPE_CODE]; omega)]
  simp only [STOP_CODE, GROW_NBITS_CODE, PRUNE_CODE, ESCAPE_CODE]
  rw [getBits_putBits (by norm_num; exact hk)]
  simp only [h1, h2]
  simp

theorem head_append_of_ne_nil {l : List Nat} (h : l ≠ []) (l' : List Nat) :
    (l ++ l').head? = l.head? := by
  cases l with
  | nil => exact absurd rfl h
  | cons a l => rfl

/-- The decoder round for a data code `c` of the encoder's table `T`, when the decoder's
table is `T` or lacks only the entry whose insertion is pending. -/
theorem dec_data (maxBits window : Nat) (eFlag : Bool) (fuel : Nat) {T Td : stringTable}
    (pi : pruneInfo) {c oc fK nbits : Nat} (hT : WFT T) (hD : WFT Td)
    (hw : T.highestCode ≤ 2 ^ nbits - 1) (hc : validCode T c)
    (hlink : (oc = EMPTY_PREFIX ∧ Td = T) ∨
      (validCode Td oc ∧ (str Td oc).head? = some fK ∧
        ∃ k0 r c', stringTableAdd Td oc k0 = some (T, r, c') ∧ (str T c).head? = some k0))
    (tail : List Bool) :
    ∃ fk, (str T c).head? = some fk ∧
      decodeLoop maxBits window eFlag (fuel + 1) Td pi oc fK nbits (putBits nbits c ++ tail)
        = (decodeLoop maxBits window eFlag fuel T (pruneInfoSawCode pi c) c fk nbits
            tail).map (fun r => (r.1, str T c ++ r.2)) := by
  have hc4 : 4 ≤ c := hc.1
  have hclt : c < 2 ^ nbits := by
    have := hc.2
    have : 0 < 2 ^ nbits := Nat.two_pow_pos nbits
    omega
  have hne : ∀ {x : stringTable} {y : Nat}, validCode x y → (y != EMPTY_PREFIX) = true := by
    intro x y hy
    have := valid_ne_empty hy
    simpa using this
  rw [decodeLoop, getBits_putBits hclt]
  have e1 : (c == STOP_CODE) = false := by simp [STOP_CODE]; omega
  have e2 : (c == GROW_NBITS_CODE) = false := by simp [GROW_NBITS_CODE]; omega
  have e3 : (c == PRUNE_CODE) = false := by simp [PRUNE_CODE]; omega
  have e4 : (c == ESCAPE_CODE) = false := by simp [ESCAPE_CODE]; omega
  simp only [e1, e2, e3, e4, Bool.false_eq_true, if_false]
  rcases hlink with ⟨h1, h2⟩ | ⟨hvo, hfk, k0, r, c', hadd, hk0⟩
  · subst h1; subst h2
    obtain ⟨e, l, hwalk, hstr⟩ := walk_spec hD.chains (Td.highestCode + 1) c [] hc
      (by have := hc.2; omega)
    rw [List.append_nil] at hstr
    refine ⟨e.k, by rw [← hstr]; rfl, ?_⟩
    rw [codeSearch_valid hc]
    simp only [Option.isSome_some, if_true]
    rw [codeSearch_valid hc, hwalk]
    simp only
    have : (EMPTY_PREFIX != EMPTY_PREFIX) = false := by simp
    rw [this]
    simp only [Bool.false_eq_true, if_false]
    rw [← hstr]
  · obtain ⟨_, _, _, _, hext⟩ := add_ext hD (Or.inr hvo) hadd
    by_cases hvd : validCode Td c
    · obtain ⟨e, l, hwalk, hstr⟩ := walk_spec hD.chains (Td.highestCode + 1) c [] hvd
        (by have := hvd.2; omega)
      rw [List.append_nil, ← (hext c hvd).2.2] at hstr
      have hek : e.k = k0 := by
        rw [← hstr] at hk0
        simpa using hk0
      refine ⟨e.k, by rw [← hstr]; rfl, ?_⟩
      rw [codeSearch_valid hvd]
      simp only [Option.isSome_some, if_true]
      rw [codeSearch_valid hvd, hwalk]
      simp only
      rw [hne hvo]
      simp only [if_true]
      rw [hek, hadd]
      simp only [Option.map_some']
      rw [← hstr, hek]
    · -- the code is the entry whose insertion is pending
      rcases add_shape hD.hashWF hadd with ⟨h1, _⟩ | ⟨hi, h1, _, _, _, _⟩
      · rw [h1] at hc; exact absurd hc hvd
      · have hcn : c = Td.highestCode + 1 := by
          rw [h1] at hc
          rcases inserted_valid hc with h | h
          · exact absurd h hvd
          · exact h
        have hstrc : str T c = str Td oc ++ [k0] := by
          rw [h1, hcn, str_inserted_new hD.hashWF hD.chains (Or.inr hvo),
            if_neg (valid_ne_empty hvo)]
        have hnn := str_ne_nil hD.chains hvo
        have hfk0 : fK = k0 := by
          rw [hstrc, head_append_of_ne_nil hnn, hfk] at hk0
          simpa using hk0
        obtain ⟨e, l, hwalk, hstr⟩ := walk_spec hD.chains (Td.highestCode + 1) oc [fK] hvo
          (by have := hvo.2; omega)
        have hek : e.k = fK := by
          have := congrArg List.head? hstr
          rw [head_append_of_ne_nil hnn, hfk] at this
          simpa using this
        refine ⟨e.k, by rw [hstrc, head_append_of_ne_nil hnn, hfk, hek], ?_⟩
        rw [codeSearch_invalid hvd]
        simp only [Option.isSome_none, Bool.false_eq_true, if_false]
        rw [codeSearch_valid hvo, hwalk]
        simp only
        rw [hne hvo]
        simp only [if_true]
        rw [hek, hfk0, hadd]
        simp only [Option.map_some']
        rw [hstrc, ← hfk0, ← hstr, hek]

/-- The function `checkNbits` after at most one insertion. -/
theorem checkNbits_spec {nbits : Nat} {T : stringTable} (h : T.highestCode ≤ 2 ^ nbits) :
    T.highestCode ≤ 2 ^ (checkNbits nbits T).2 - 1 ∧
    ((checkNbits nbits T = ([], nbits)) ∨
      (checkNbits nbits T = ([(nbits, GROW_NBITS_CODE)], nbits + 1) ∧
        2 ^ nbits - 1 < T.highestCode)) := by
  unfold checkNbits
  rw [shiftLeft_one]
  by_cases hg : T.highestCode > 2 ^ nbits - 1
  · rw [if_pos hg]
    refine ⟨?_, Or.inr ⟨rfl, hg⟩⟩
    show T.highestCode ≤ 2 ^ (nbits + 1) - 1
    rw [pow_succ]
    have : 0 < 2 ^ nbits := Nat.two_pow_pos nbits
    omega
  · rw [if_neg hg]
    exact ⟨by show T.highestCode ≤ 2 ^ nbits - 1; omega, Or.inl rfl⟩

/-- The decoder follows the fields written by `checkNbits`. -/
theorem dec_checkNbits (maxBits window : Nat) (eFlag : Bool) (Td : stringTable)
    (pi : pruneInfo) (oc fK : Nat) {nbits : Nat} (hn : 2 ≤ nbits) {T : stringTable}
    (h : T.highestCode ≤ 2 ^ nbits) (hsz : T.highestCode < 2 ^ maxBits) (tail : List Bool)
    (fuel : Nat) (hfuel : (fieldBits (checkNbits nbits T).1 ++ tail).length < fuel) :
    ∃ fuel', tail.length < fuel' ∧
      decodeLoop maxBits window eFlag fuel Td pi oc fK nbits
          (fieldBits (checkNbits nbits T).1 ++ tail)
        = decodeLoop maxBits window eFlag fuel' Td pi oc fK (checkNbits nbits T).2 tail := by
  rcases (checkNbits_spec h).2 with hg | ⟨hg, hlt⟩
  · rw [hg] at hfuel ⊢
    exact ⟨fuel, by simpa [fieldBits] using hfuel, rfl⟩
  · rw [hg] at hfuel ⊢
    simp only [fieldBits, List.append_nil, List.length_append, putBits_length] at hfuel
    obtain ⟨f, rfl⟩ : ∃ f, fuel = f + 1 := ⟨fuel - 1, by omega⟩
    refine ⟨f, by omega, ?_⟩
    have hm : nbits + 1 ≤ maxBits := by
      by_contra hcon
      have : 2 ^ maxBits ≤ 2 ^ nbits := Nat.pow_le_pow_right (by norm_num) (by omega)
      omega
    simp only [fieldBits, List.append_nil]
    exact dec_grow maxBits window eFlag f Td pi oc fK hn hm tail

theorem add_code_le {T : stringTable} (hW : HashWF T) {p k : Nat} {T' : stringTable}
    {r : Bool} {c : Nat} (h : stringTableAdd T p k = some (T', r, c)) :
    c ≤ T'.highestCode := by
  rcases stringTableAdd_cases h with ⟨e, hs, hT', _, hc⟩ | ⟨_, _, _, _, hc⟩ |
    ⟨_, _, hi, _, hT', _, hc⟩
  · obtain ⟨d, hd, _, hcode⟩ := search_some hW hs
    rw [hc, hcode, hT']
    exact hd.1.2
  · rw [hc]; exact Nat.zero_le _
  · rw [hc, hT']

theorem saw_seen {T : stringTable} {pi : pruneInfo} {c : Nat} (hc : c ≤ T.highestCode)
    (h : ∀ i, T.highestCode < i → pi.lastSeen i = 0) :
    ∀ i, T.highestCode < i → (pruneInfoSawCode pi c).lastSeen i = 0 := by
  intro i hi
  show setCell pi.lastSeen c pi.counter i = 0
  rw [setCell_ne _ _ (by omega)]
  exact h i hi

/-! ## Rounds of the encoder loop -/

theorem escapeChar_eq {T : stringTable} (pi : pruneInfo) {k : Nat} (nbits : Nat)
    {T1 : stringTable} {r : Bool} {nc : Nat}
    (h : stringTableAdd T EMPTY_PREFIX k = some (T1, r, nc)) :
    escapeChar T pi k nbits
      = some ([(nbits, ESCAPE_CODE), (8, k)] ++ (checkNbits nbits T1).1, T1,
          pruneInfoSawCode pi nc, (checkNbits nbits T1).2) := by
  unfold escapeChar
  rw [h]

theorem checkPrune_off {T : stringTable} (pi : pruneInfo) {window : Nat} (c nbits : Nat)
    (h : window = 0 ∨ stringTableIsFull T = false) :
    checkPrune T pi window c nbits = some ([], T, pi, c, nbits) := by
  unfold checkPrune
  have : (decide (window > 0) && stringTableIsFull T) = false := by
    rcases h with h | h
    · subst h; simp
    · rw [h]; simp
  rw [this]
  simp

theorem checkPrune_on {T : stringTable} (pi : pruneInfo) {window : Nat} (c nbits : Nat)
    (hw : window ≠ 0) (hf : stringTableIsFull T = true) {T1 : stringTable}
    {pi1 : pruneInfo} {x : Nat} (hp : stringTablePrune T pi window c = some (T1, pi1, x)) :
    checkPrune T pi window c nbits
      = some ([(nbits, PRUNE_CODE)], T1, pi1, EMPTY_PREFIX, nbitsFor T1.highestCode) := by
  unfold checkPrune
  have : (decide (window > 0) && stringTableIsFull T) = true := by
    rw [hf]; simp; omega
  rw [this, hp]
  simp

theorem encodeLoop_found {window : Nat} {k : Nat} (rest : List Nat) {T : stringTable}
    (pi : pruneInfo) {c : Nat} (nbits : Nat) {e : tableElt}
    (hs : stringTableHashSearch T c k = some (some e)) :
    encodeLoop window (k :: rest) T pi c nbits = encodeLoop window rest T pi e.code nbits := by
  rw [encodeLoop, encodeRound, hs]
  simp

theorem encodeLoop_first {window : Nat} {k : Nat} (rest : List Nat) {T : stringTable}
    {pi : pruneInfo} {c nbits : Nat} (hs : stringTableHashSearch T c k = some none)
    (hc : c = EMPTY_PREFIX) {out1 out2 : List (Nat × Nat)} {T1 T2 : stringTable}
    {pi1 pi2 : pruneInfo} {nbits1 c2 nbits2 : Nat}
    (he : escapeChar T pi k nbits = some (out1, T1, pi1, nbits1))
    (hp : checkPrune T1 pi1 window c nbits1 = some (out2, T2, pi2, c2, nbits2)) :
    encodeLoop window (k :: rest) T pi c nbits
      = (encodeLoop window rest T2 pi2 c2 nbits2).map (fun o => out1 ++ out2 ++ o) := by
  rw [encodeLoop, encodeRound, hs]
  have : (c == EMPTY_PREFIX) = true := by simp [hc]
  simp only [this, if_true, he, hp, Bool.false_eq_true, if_false]

theorem encodeLoop_else_found {window : Nat} {k : Nat} (rest : List Nat) {T : stringTable}
    {pi : pruneInfo} {c nbits : Nat} (hs : stringTableHashSearch T c k = some none)
    (hc : c ≠ EMPTY_PREFIX) {T1 T2 : stringTable} {r : Bool} {x : Nat}
    (ha : stringTableAdd T c k = some (T1, r, x)) {out2 : List (Nat × Nat)}
    {pi2 : pruneInfo} {c2 nbits2 : Nat}
    (hp : checkPrune T1 (pruneInfoSawCode pi c) window c nbits
      = some (out2, T2, pi2, c2, nbits2)) {kCode : tableElt}
    (hk : stringTableHashSearch T2 EMPTY_PREFIX k = some (some kCode)) :
    encodeLoop window (k :: rest) T pi c nbits
      = (encodeLoop window rest T2 pi2 kCode.code (checkNbits nbits2 T2).2).map
          (fun o => [(nbits, c)] ++ out2 ++ (checkNbits nbits2 T2).1 ++ o) := by
  rw [encodeLoop, encodeRound, hs]
  have : (c == EMPTY_PREFIX) = false := by simp [hc]
  simp only [this, Bool.false_eq_true, if_false, ha, hp, hk]

theorem encodeLoop_else_escape {window : Nat} {k : Nat} (rest : List Nat) {T : stringTable}
    {pi : pruneInfo} {c nbits : Nat} (hs : stringTableHashSearch T c k = some none)
    (hc : c ≠ EMPTY_PREFIX) {T1 T2 : stringTable} {r : Bool} {x : Nat}
    (ha : stringTableAdd T c k = some (T1, r, x)) {out2 : List (Nat × Nat)}
    {pi2 : pruneInfo} {c2 nbits2 : Nat}
    (hp : checkPrune T1 (pruneInfoSawCode pi c) window c nbits
      = some (out2, T2, pi2, c2, nbits2))
    (hk : stringTableHashSearch T2 EMPTY_PREFIX k = some none)
    {out3 out4 : List (Nat × Nat)} {T3 T4 : stringTable} {pi3 pi4 : pruneInfo}
    {nbits3 c4 nbits4 : Nat}
    (he : escapeChar T2 pi2 k (checkNbits nbits2 T2).2 = some (out3, T3, pi3, nbits3))
    (hp4 : checkPrune T3 pi3 window EMPTY_PREFIX nbits3 = some (out4, T4, pi4, c4, nbits4))
    (hoff : window = 0 ∨ stringTableIsFull T3 = false) :
    encodeLoop window (k :: rest) T pi c nbits
      = (encodeLoop window rest T3 pi4 c4 nbits4).map
          (fun o => [(nbits, c)] ++ out2 ++ (checkNbits nbits2 T2).1 ++ out3 ++ out4 ++ o) := by
  rw [encodeLoop, encodeRound, hs]
  have : (c == EMPTY_PREFIX) = false := by simp [hc]
  have hfree : (decide (window > 0) && stringTableIsFull T3) = false := by
    rcases hoff with h | h
    · subst h; simp
    · rw [h]; simp
  simp only [this, Bool.false_eq_true, if_false, ha, hp, hk, he, hp4, hfree]

theorem map_out_nil (x : Option (Bool × List Nat)) :
    x.map (fun r => (r.1, [] ++ r.2)) = x := by
  cases x with
  | none => rfl
  | some r => simp

theorem map_out_comp (x : Option (Bool × List Nat)) (a b : List Nat) :
    (x.map (fun r => (r.1, b ++ r.2))).map (fun r => (r.1, a ++ r.2))
      = x.map (fun r => (r.1, (a ++ b) ++ r.2)) := by
  cases x with
  | none => rfl
  | some r => simp

theorem DecRun.nil (maxBits window : Nat) (eFlag : Bool) (D : decState) :
    DecRun maxBits window eFlag [] D D [] := by
  intro fuel tail h
  refine ⟨fuel, by simpa [fieldBits] using h, ?_⟩
  rw [map_out_nil]
  rfl

theorem DecRun.comp {maxBits window : Nat} {eFlag : Bool} {pre1 pre2 : List (Nat × Nat)}
    {D D1 D2 : decState} {out1 out2 : List Nat}
    (h1 : DecRun maxBits window eFlag pre1 D D1 out1)
    (h2 : DecRun maxBits window eFlag pre2 D1 D2 out2) :
    DecRun maxBits window eFlag (pre1 ++ pre2) D D2 (out1 ++ out2) := by
  intro fuel tail h
  rw [fieldBits_append, List.append_assoc] at h ⊢
  obtain ⟨f1, hf1, e1⟩ := h1 fuel _ h
  obtain ⟨f2, hf2, e2⟩ := h2 f1 tail hf1
  refine ⟨f2, hf2, ?_⟩
  rw [e1, e2, map_out_comp]

theorem DecRun.data {maxBits window : Nat} {eFlag : Bool} {T Td : stringTable}
    {pi : pruneInfo} {c oc fK nbits : Nat} (hT : WFT T) (hD : WFT Td)
    (hn : 2 ≤ nbits) (hw : T.highestCode ≤ 2 ^ nbits - 1) (hc : validCode T c)
    (hlink : (oc = EMPTY_PREFIX ∧ Td = T) ∨
      (validCode Td oc ∧ (str Td oc).head? = some fK ∧
        ∃ k0 r c', stringTableAdd Td oc k0 = some (T, r, c') ∧ (str T c).head? = some k0))
    {fk : Nat} (hfk : (str T c).head? = some fk) :
    DecRun maxBits window eFlag [(nbits, c)] ⟨Td, pi, oc, fK, nbits⟩
      ⟨T, pruneInfoSawCode pi c, c, fk, nbits⟩ (str T c) := by
  intro fuel tail h
  simp only [fieldBits, List.append_nil, List.length_append, putBits_length] at h
  obtain ⟨f, rfl⟩ : ∃ f, fuel = f + 1 := ⟨fuel - 1, by omega⟩
  refine ⟨f, by omega, ?_⟩
  obtain ⟨fk', h1, h2⟩ := dec_data maxBits window eFlag f pi hT hD hw hc hlink tail
  have : fk' = fk := by rw [h1] at hfk; simpa using hfk
  subst this
  simp only [fieldBits, List.append_nil]
  exact h2

theorem DecRun.grow {maxBits window : Nat} {eFlag : Bool} {Td : stringTable}
    {pi : pruneInfo} {oc fK nbits : Nat} (hn : 2 ≤ nbits) {T : stringTable}
    (h : T.highestCode ≤ 2 ^ nbits) (hsz : T.highestCode < 2 ^ maxBits) :
    DecRun maxBits window eFlag (checkNbits nbits T).1 ⟨Td, pi, oc, fK, nbits⟩
      ⟨Td, pi, oc, fK, (checkNbits nbits T).2⟩ [] := by
  intro fuel tail hf
  obtain ⟨f, h1, h2⟩ := dec_checkNbits maxBits window eFlag Td pi oc fK hn h hsz tail fuel hf
  refine ⟨f, h1, ?_⟩
  rw [map_out_nil]
  exact h2

theorem DecRun.prune {maxBits window : Nat} (hw : window ≠ 0) {eFlag : Bool}
    {Td : stringTable} {pi : pruneInfo} {oc fK nbits : Nat} (hn : 2 ≤ nbits)
    {T1 : stringTable} {pi1 : pruneInfo} {x : Nat}
    (hp : stringTablePrune Td pi window oc = some (T1, pi1, x)) :
    DecRun maxBits window eFlag [(nbits, PRUNE_CODE)] ⟨Td, pi, oc, fK, nbits⟩
      ⟨T1, pi1, EMPTY_PREFIX, fK, nbitsFor T1.highestCode⟩ [] := by
  intro fuel tail h
  simp only [fieldBits, List.append_nil, List.length_append, putBits_length] at h
  obtain ⟨f, rfl⟩ : ∃ f, fuel = f + 1 := ⟨fuel - 1, by omega⟩
  refine ⟨f, by omega, ?_⟩
  rw [map_out_nil]
  simp only [fieldBits, List.append_nil]
  exact dec_prune maxBits hw eFlag f Td pi oc fK hn tail hp

theorem DecRun.escape {maxBits window : Nat} {Td : stringTable} {pi : pruneInfo}
    {oc fK nbits : Nat} (hn : 2 ≤ nbits) {k : Nat} (hk : k < 256) {T1 T2 : stringTable}
    {r : Bool} {tc : Nat}
    (h1 : (if oc != EMPTY_PREFIX then (stringTableAdd Td oc k).map (fun r => r.1)
      else some Td) = some T1)
    (h2 : stringTableAdd T1 EMPTY_PREFIX k = some (T2, r, tc)) :
    DecRun maxBits window true [(nbits, ESCAPE_CODE), (8, k)] ⟨Td, pi, oc, fK, nbits⟩
      ⟨T2, pruneInfoSawCode pi tc, EMPTY_PREFIX, fK, nbits⟩ [k] := by
  intro fuel tail h
  simp only [fieldBits, List.append_nil, List.length_append, putBits_length] at h
  obtain ⟨f, rfl⟩ : ∃ f, fuel = f + 1 := ⟨fuel - 1, by omega⟩
  refine ⟨f, by omega, ?_⟩
  simp only [fieldBits, List.append_nil, List.append_assoc]
  exact dec_escape maxBits window f Td pi oc fK hn hk tail h1 h2

/-- A run of the decoder over the fields of one encoder round, followed by a successful run
over the remaining fields. -/
theorem DecRun.lift {maxBits window : Nat} {eFlag : Bool} {pre : List (Nat × Nat)}
    {D D' : decState} {out : List Nat} (hrun : DecRun maxBits window eFlag pre D D' out)
    {o' : List (Nat × Nat)} {res : List Nat}
    (hdec : ∀ fuel pad, (fieldBits o' ++ pad).length < fuel →
      runDec maxBits window eFlag fuel D' (fieldBits o' ++ pad) = some (true, res)) :
    ∀ fuel pad, (fieldBits (pre ++ o') ++ pad).length < fuel →
      runDec maxBits window eFlag fuel D (fieldBits (pre ++ o') ++ pad)
        = some (true, out ++ res) := by
  intro fuel pad h
  rw [fieldBits_append, List.append_assoc] at h ⊢
  obtain ⟨f, hf, e⟩ := hrun fuel _ h
  rw [e, hdec f pad hf]
  rfl

theorem SimGoal.step {maxBits window : Nat} {eFlag : Bool} {k : Nat} {rest : List Nat}
    {T T' Td Td' : stringTable} {pi pi' : pruneInfo} {c c' nbits nbits' oc oc' fK fK' : Nat}
    {pre : List (Nat × Nat)} {out : List Nat}
    (henc : encodeLoop window (k :: rest) T pi c nbits
      = (encodeLoop window rest T' pi' c' nbits').map (fun o => pre ++ o))
    (hrun : DecRun maxBits window eFlag pre ⟨Td, pi, oc, fK, nbits⟩
      ⟨Td', pi', oc', fK', nbits'⟩ out)
    (hstr : out ++ (str T' c' ++ rest) = str T c ++ k :: rest)
    (hg : SimGoal maxBits window eFlag rest T' pi' c' nbits' Td' oc' fK') :
    SimGoal maxBits window eFlag (k :: rest) T pi c nbits Td oc fK := by
  obtain ⟨o', he, hd⟩ := hg
  refine ⟨pre ++ o', by rw [henc, he]; rfl, ?_⟩
  intro fuel pad h
  rw [← hstr]
  exact hrun.lift hd fuel pad h

theorem str_empty (T : stringTable) : str T EMPTY_PREFIX = [] := by
  apply str_invalid
  intro h
  exact valid_ne_empty h rfl

theorem exists_head {T : stringTable} (hC : Chains T) {c : Nat} (hv : validCode T c) :
    ∃ fk, (str T c).head? = some fk := by
  have := str_ne_nil hC hv
  cases h : str T c with
  | nil => exact absurd h this
  | cons a l => exact ⟨a, rfl⟩

theorem Sync.link' {maxBits : Nat} {eFlag : Bool} {T : stringTable} {pi : pruneInfo}
    {c nbits : Nat} {Td : stringTable} {oc fK : Nat}
    (S : Sync maxBits eFlag T pi c nbits Td oc fK) :
    (oc = EMPTY_PREFIX ∧ Td = T) ∨
      (validCode Td oc ∧ (str Td oc).head? = some fK ∧
        ∃ k0 r c', stringTableAdd Td oc k0 = some (T, r, c') ∧ (str T c).head? = some k0) := by
  rcases S.link with h | ⟨_, h⟩
  · exact Or.inl h
  · exact Or.inr h

theorem Sync.hc_lt {maxBits : Nat} {eFlag : Bool} {T : stringTable} {pi : pruneInfo}
    {c nbits : Nat} {Td : stringTable} {oc fK : Nat}
    (S : Sync maxBits eFlag T pi c nbits Td oc fK) : T.highestCode < 2 ^ maxBits := by
  rw [← S.arrT]; exact S.wfT.sized.hc_lt

theorem sim_nil {maxBits window : Nat} {eFlag : Bool} {T : stringTable} {pi : pruneInfo}
    {c nbits : Nat} {Td : stringTable} {oc fK : Nat}
    (S : Sync maxBits eFlag T pi c nbits Td oc fK) :
    SimGoal maxBits window eFlag [] T pi c nbits Td oc fK := by
  refine ⟨_, rfl, ?_⟩
  have hstop : ∀ (D : decState), D.nbits = nbits → ∀ fuel pad,
      (fieldBits [(nbits, STOP_CODE)] ++ pad).length < fuel →
      runDec maxBits window eFlag fuel D (fieldBits [(nbits, STOP_CODE)] ++ pad)
        = some (true, []) := by
    intro D hD fuel pad h
    simp only [fieldBits, List.append_nil, List.length_append, putBits_length] at h
    obtain ⟨f, rfl⟩ : ∃ f, fuel = f + 1 := ⟨fuel - 1, by omega⟩
    simp only [fieldBits, List.append_nil]
    unfold runDec
    rw [hD]
    exact dec_stop maxBits window eFlag f D.table D.pi D.oldCode D.finalK S.nb2 pad
  by_cases hc : c = EMPTY_PREFIX
  · subst hc
    have : (EMPTY_PREFIX != EMPTY_PREFIX) = false := by simp
    simp only [this, Bool.false_eq_true, if_false, List.nil_append]
    intro fuel pad h
    rw [str_empty]
    exact hstop _ rfl fuel pad h
  · have hb : (c != EMPTY_PREFIX) = true := by simp [hc]
    simp only [hb, if_true]
    have hv : validCode T c := by
      rcases S.cval with h | h
      · exact absurd h hc
      · exact h
    obtain ⟨fk, hfk⟩ := exists_head S.wfT.chains hv
    have hrun : DecRun maxBits window eFlag [(nbits, c)] ⟨Td, pi, oc, fK, nbits⟩
        ⟨T, pruneInfoSawCode pi c, c, fk, nbits⟩ (str T c) :=
      DecRun.data S.wfT S.wfD S.nb2 S.width hv S.link' hfk
    intro fuel pad h
    exact hrun.lift (hstop _ rfl) fuel pad h

theorem Safe.found {window : Nat} {eFlag : Bool} {k : Nat} {rest : List Nat}
    {T : stringTable} {pi : pruneInfo} {c nbits : Nat} {e : tableElt}
    (h : Safe window eFlag (k :: rest) T pi c nbits)
    (hs : stringTableHashSearch T c k = some (some e)) :
    Safe window eFlag rest T pi e.code nbits := by
  rcases h with h | h
  · exact Or.inl h
  · refine Or.inr ?_
    rw [keepsTableLoop, hs] at h
    exact h

theorem Safe.first {window : Nat} {eFlag : Bool} {k : Nat} {rest : List Nat}
    {T : stringTable} {pi : pruneInfo} {c nbits : Nat}
    (h : Safe window eFlag (k :: rest) T pi c nbits)
    (hs : stringTableHashSearch T c k = some none)
    (hc : c = EMPTY_PREFIX) {out1 out2 : List (Nat × Nat)} {T1 T2 : stringTable}
    {pi1 pi2 : pruneInfo} {nbits1 c2 nbits2 : Nat}
    (he : escapeChar T pi k nbits = some (out1, T1, pi1, nbits1))
    (hp : checkPrune T1 pi1 window c nbits1 = some (out2, T2, pi2, c2, nbits2)) :
    Safe window eFlag rest T2 pi2 c2 nbits2 := by
  rcases h with h | h
  · exact Or.inl h
  · refine Or.inr ?_
    rw [keepsTableLoop, hs] at h
    have : (c == EMPTY_PREFIX) = true := by simp [hc]
    simp only [this, if_true, he, hp] at h
    exact h

theorem Safe.else_found {window : Nat} {eFlag : Bool} {k : Nat} {rest : List Nat}
    {T : stringTable} {pi : pruneInfo} {c nbits : Nat}
    (h : Safe window eFlag (k :: rest) T pi c nbits)
    (hs : stringTableHashSearch T c k = some none)
    (hc : c ≠ EMPTY_PREFIX) {T1 T2 : stringTable} {r : Bool} {x : Nat}
    (ha : stringTableAdd T c k = some (T1, r, x)) {out2 : List (Nat × Nat)}
    {pi2 : pruneInfo} {c2 nbits2 : Nat}
    (hp : checkPrune T1 (pruneInfoSawCode pi c) window c nbits
      = some (out2, T2, pi2, c2, nbits2)) {kCode : tableElt}
    (hk : stringTableHashSearch T2 EMPTY_PREFIX k = some (some kCode)) :
    Safe window eFlag rest T2 pi2 kCode.code (checkNbits nbits2 T2).2 := by
  rcases h with h | h
  · exact Or.inl h
  · refine Or.inr ?_
    rw [keepsTableLoop, hs] at h
    have : (c == EMPTY_PREFIX) = false := by simp [hc]
    simp only [this, Bool.false_eq_true, if_false, ha, hp, hk] at h
    exact h

/-- In a safe run the unstored `checkPrune` does nothing. -/
theorem Safe.else_escape {window : Nat} {k : Nat} {rest : List Nat}
    {T : stringTable} {pi : pruneInfo} {c nbits : Nat}
    (h : Safe window true (k :: rest) T pi c nbits)
    (hs : stringTableHashSearch T c k = some none)
    (hc : c ≠ EMPTY_PREFIX) {T1 T2 : stringTable} {r : Bool} {x : Nat}
    (ha : stringTableAdd T c k = some (T1, r, x)) {out2 : List (Nat × Nat)}
    {pi2 : pruneInfo} {c2 nbits2 : Nat}
    (hp : checkPrune T1 (pruneInfoSawCode pi c) window c nbits
      = some (out2, T2, pi2, c2, nbits2))
    (hk : stringTableHashSearch T2 EMPTY_PREFIX k = some none)
    {out3 : List (Nat × Nat)} {T3 : stringTable} {pi3 : pruneInfo} {nbits3 : Nat}
    (he : escapeChar T2 pi2 k (checkNbits nbits2 T2).2 = some (out3, T3, pi3, nbits3)) :
    (window = 0 ∨ stringTableIsFull T3 = false) ∧
      Safe window true rest T3 pi3 EMPTY_PREFIX nbits3 := by
  rcases h with h | h
  · have hw : window = 0 := by
      rcases h with h | h
      · exact h
      · simp at h
    exact ⟨Or.inl hw, Or.inl (Or.inl hw)⟩
  · rw [keepsTableLoop, hs] at h
    have : (c == EMPTY_PREFIX) = false := by simp [hc]
    simp only [this, Bool.false_eq_true, if_false, ha, hp, hk, he, Bool.and_eq_true,
      Bool.not_eq_true', Bool.and_eq_false_iff, decide_eq_false_iff_not] at h
    refine ⟨?_, Or.inr h.2⟩
    rcases h.1 with h1 | h1
    · exact Or.inl (by omega)
    · exact Or.inr h1

theorem sim_found {maxBits window : Nat} {eFlag : Bool} {k : Nat} {rest : List Nat}
    {T : stringTable} {pi : pruneInfo} {c nbits : Nat} {Td : stringTable} {oc fK : Nat}
    (S : Sync maxBits eFlag T pi c nbits Td oc fK) {e : tableElt}
    (hs : stringTableHashSearch T c k = some (some e))
    (ih : Sync maxBits eFlag T pi e.code nbits Td oc fK →
      SimGoal maxBits window eFlag rest T pi e.code nbits Td oc fK) :
    SimGoal maxBits window eFlag (k :: rest) T pi c nbits Td oc fK := by
  obtain ⟨d, hd, _, hcode⟩ := search_some S.wfT.hashWF hs
  rw [hcode] at ih
  have hstr : str T d = str T c ++ [k] := by
    rw [str_holds S.wfT.chains hd]
    by_cases hc : c = EMPTY_PREFIX
    · rw [if_pos hc, hc, str_empty]
    · rw [if_neg hc]
  have S' : Sync maxBits eFlag T pi d nbits Td oc fK := by
    refine ⟨S.wfT, S.wfD, S.arrT, S.eflT, S.nb2, S.width, S.seen, Or.inr hd.1, ?_⟩
    rcases S.link with h | ⟨hvc, hvo, hfk, k0, r, c', hadd, hk0⟩
    · exact Or.inl h
    · refine Or.inr ⟨hd.1, hvo, hfk, k0, r, c', hadd, ?_⟩
      rw [hstr, head_append_of_ne_nil (str_ne_nil S.wfT.chains hvc)]
      exact hk0
  obtain ⟨o, he, hdec⟩ := ih S'
  refine ⟨o, by rw [encodeLoop_found rest pi nbits hs, hcode]; exact he, ?_⟩
  intro fuel pad h
  rw [hdec fuel pad h, hstr]
  simp

/-- The state after an insertion and a `checkNbits`. -/
theorem sync_after_add {maxBits : Nat} {eFlag : Bool} {T : stringTable} {pi : pruneInfo}
    {nbits : Nat} (hT : WFT T) (harr : T.arraySize = 2 ^ maxBits) (hef : T.eFlag = eFlag)
    (hn : 2 ≤ nbits) (hw : T.highestCode ≤ 2 ^ nbits - 1)
    (hseen : ∀ i, T.highestCode < i → pi.lastSeen i = 0) {p k : Nat}
    (hp : p = EMPTY_PREFIX ∨ validCode T p) {T1 : stringTable} {r : Bool} {x : Nat}
    (hadd : stringTableAdd T p k = some (T1, r, x)) :
    WFT T1 ∧ T1.arraySize = 2 ^ maxBits ∧ T1.eFlag = eFlag ∧ T1.highestCode ≤ 2 ^ nbits ∧
    T1.highestCode < 2 ^ maxBits ∧ 2 ≤ (checkNbits nbits T1).2 ∧
    T1.highestCode ≤ 2 ^ (checkNbits nbits T1).2 - 1 ∧
    (∀ y, y ≤ T1.highestCode → ∀ i, T1.highestCode < i →
      (pruneInfoSawCode pi y).lastSeen i = 0) ∧
    (∀ i, T1.highestCode < i → pi.lastSeen i = 0) := by
  have hT1 := add_WFT hT hp hadd
  obtain ⟨h1, h2, h3, h4, _⟩ := add_ext hT hp hadd
  have hpos : 0 < 2 ^ nbits := Nat.two_pow_pos nbits
  have hle : T1.highestCode ≤ 2 ^ nbits := by omega
  have hseen1 : ∀ i, T1.highestCode < i → pi.lastSeen i = 0 :=
    fun i hi => hseen i (by omega)
  have hsz : T1.highestCode < 2 ^ maxBits := by
    have := hT1.sized.hc_lt
    rw [h1, harr] at this
    exact this
  refine ⟨hT1, by rw [h1, harr], by rw [h2, hef], hle, hsz, ?_, (checkNbits_spec hle).1,
    fun y hy => saw_seen hy hseen1, hseen1⟩
  rcases (checkNbits_spec hle).2 with h | ⟨h, _⟩
  · rw [h]; exact hn
  · rw [h]; show 2 ≤ nbits + 1; omega

theorem two_le_maxBits {maxBits n : Nat} (h : NUM_SPECIAL_CODES ≤ n) (he : n = 2 ^ maxBits) :
    2 ≤ maxBits := by
  by_contra hcon
  have h1 : 2 ^ maxBits ≤ 2 ^ 1 := Nat.pow_le_pow_right (by norm_num) (by omega)
  simp only [NUM_SPECIAL_CODES] at h
  omega

/-- The state after a prune. -/
theorem sync_after_prune {maxBits : Nat} {eFlag : Bool} {T1 : stringTable}
    {pi1 : pruneInfo} (hT1 : WFT T1) (harr : T1.arraySize = 2 ^ maxBits)
    (hef : T1.eFlag = eFlag) (hseen : ∀ i, T1.highestCode < i → pi1.lastSeen i = 0)
    {window ctu : Nat} {T2 : stringTable} {pi2 : pruneInfo} {x : Nat}
    (hp : stringTablePrune T1 pi1 window ctu = some (T2, pi2, x)) :
    WFT T2 ∧ T2.arraySize = 2 ^ maxBits ∧ T2.eFlag = eFlag ∧ T2.highestCode < 2 ^ maxBits ∧
    2 ≤ nbitsFor T2.highestCode ∧ T2.highestCode ≤ 2 ^ nbitsFor T2.highestCode - 1 ∧
    T2.highestCode ≤ 2 ^ nbitsFor T2.highestCode ∧
    (∀ i, T2.highestCode < i → pi2.lastSeen i = 0) := by
  obtain ⟨T', pi', ctu', m, hp', hI⟩ := prune_spec pi1 window ctu hT1
  rw [hp] at hp'
  simp only [Option.some.injEq, Prod.mk.injEq] at hp'
  obtain ⟨e1, e2, _⟩ := hp'
  subst e1; subst e2
  have hT2 := hI.wft
  have harr2 : T2.arraySize = 2 ^ maxBits := by rw [hI.arr, harr]
  have hsz2 : T2.highestCode < 2 ^ maxBits := by rw [← harr2]; exact hT2.sized.hc_lt
  have hm2 : 2 ≤ maxBits := two_le_maxBits hT1.sized.arr_ge harr
  obtain ⟨hnb, hwb, _⟩ := nbitsFor_spec T2.highestCode maxBits hm2 hsz2
  have hpos : 0 < 2 ^ nbitsFor T2.highestCode := Nat.two_pow_pos _
  refine ⟨hT2, harr2, by rw [hI.efl, hef], hsz2, hnb, hwb, by omega, ?_⟩
  intro i hi
  by_cases hlt : i < T1.arraySize
  · apply hI.seen0 i hlt
    rintro ⟨h, _⟩
    have := h.2
    omega
  · rw [hI.seenOut i (by omega)]
    apply hseen
    have := hT1.sized.hc_lt
    omega

theorem eFlag_of_miss {T : stringTable} (hT : WFT T) {eFlag : Bool} (hef : T.eFlag = eFlag)
    {k : Nat} (hk : k < 256)
    (hs : stringTableHashSearch T EMPTY_PREFIX k = some none) : eFlag = true := by
  cases hh : eFlag with
  | true => rfl
  | false =>
    have := search_single hT (by rw [hef, hh]) hk
    rw [hs] at this
    simp at this

theorem fire_or_off (window : Nat) (T : stringTable) :
    (window ≠ 0 ∧ stringTableIsFull T = true) ∨
      (window = 0 ∨ stringTableIsFull T = false) := by
  by_cases hw : window = 0
  · exact Or.inr (Or.inl hw)
  · cases hf : stringTableIsFull T with
    | false => exact Or.inr (Or.inr rfl)
    | true => exact Or.inl ⟨hw, rfl⟩

theorem sim_first {maxBits window : Nat} {eFlag : Bool}
    {k : Nat} (hk : k < 256) {rest : List Nat}
    {T : stringTable} {pi : pruneInfo} {c nbits : Nat} {Td : stringTable} {oc fK : Nat}
    (S : Sync maxBits eFlag T pi c nbits Td oc fK)
    (hsafe : Safe window eFlag (k :: rest) T pi c nbits)
    (hs : stringTableHashSearch T c k = some none) (hc : c = EMPTY_PREFIX)
    (ih : ∀ T' pi' c' nbits' Td' oc' fK', Sync maxBits eFlag T' pi' c' nbits' Td' oc' fK' →
      Safe window eFlag rest T' pi' c' nbits' →
      SimGoal maxBits window eFlag rest T' pi' c' nbits' Td' oc' fK') :
    SimGoal maxBits window eFlag (k :: rest) T pi c nbits Td oc fK := by
  subst hc
  have hlink : oc = EMPTY_PREFIX ∧ Td = T := by
    rcases S.link with h | ⟨hv, _⟩
    · exact h
    · exact absurd rfl (valid_ne_empty hv)
  obtain ⟨hoc, hTd⟩ := hlink
  subst hoc; subst hTd
  have hef := eFlag_of_miss S.wfT S.eflT hk hs
  subst hef
  obtain ⟨⟨T1, r, nc⟩, hadd⟩ := add_total S.wfT.hashWF S.wfT.sized EMPTY_PREFIX k
  obtain ⟨hT1, harr1, hef1, hle1, hsz1, hn1, hw1, hseen1, _⟩ :=
    sync_after_add S.wfT S.arrT S.eflT S.nb2 S.width S.seen (Or.inl rfl) hadd
  have hseenpi := hseen1 nc (add_code_le S.wfT.hashWF hadd)
  have hesc : DecRun maxBits window true [(nbits, ESCAPE_CODE), (8, k)]
      ⟨Td, pi, EMPTY_PREFIX, fK, nbits⟩
      ⟨T1, pruneInfoSawCode pi nc, EMPTY_PREFIX, fK, nbits⟩ [k] :=
    DecRun.escape S.nb2 hk (by simp) hadd
  have hgrow : DecRun maxBits window true (checkNbits nbits T1).1
      ⟨T1, pruneInfoSawCode pi nc, EMPTY_PREFIX, fK, nbits⟩
      ⟨T1, pruneInfoSawCode pi nc, EMPTY_PREFIX, fK, (checkNbits nbits T1).2⟩ [] :=
    DecRun.grow S.nb2 hle1 hsz1
  rcases fire_or_off window T1 with ⟨hw, hfull⟩ | hoff
  · obtain ⟨T2, pi2, x, m, hprune, _⟩ :=
      prune_spec (pruneInfoSawCode pi nc) window EMPTY_PREFIX hT1
    obtain ⟨hT2, harr2, hef2, hsz2, hnb, hwb, hle2, hseen2⟩ :=
      sync_after_prune hT1 harr1 hef1 hseenpi hprune
    have hcp := checkPrune_on (pruneInfoSawCode pi nc) EMPTY_PREFIX (checkNbits nbits T1).2
      hw hfull hprune
    have hesceq := escapeChar_eq pi nbits hadd
    have henc := encodeLoop_first rest hs rfl hesceq hcp
    have hprun : DecRun maxBits window true [((checkNbits nbits T1).2, PRUNE_CODE)]
        ⟨T1, pruneInfoSawCode pi nc, EMPTY_PREFIX, fK, (checkNbits nbits T1).2⟩
        ⟨T2, pi2, EMPTY_PREFIX, fK, nbitsFor T2.highestCode⟩ [] :=
      DecRun.prune hw hn1 hprune
    have S' : Sync maxBits true T2 pi2 EMPTY_PREFIX (nbitsFor T2.highestCode) T2
        EMPTY_PREFIX fK :=
      ⟨hT2, hT2, harr2, hef2, hnb, hwb, hseen2, Or.inl rfl, Or.inl ⟨rfl, rfl⟩⟩
    refine SimGoal.step henc ((hesc.comp hgrow).comp hprun) ?_
      (ih _ _ _ _ _ _ _ S' (hsafe.first hs rfl hesceq hcp))
    simp [str_empty]
  · have hcp := checkPrune_off (pruneInfoSawCode pi nc) EMPTY_PREFIX (checkNbits nbits T1).2
      hoff
    have hesceq := escapeChar_eq pi nbits hadd
    have henc := encodeLoop_first rest hs rfl hesceq hcp
    have S' : Sync maxBits true T1 (pruneInfoSawCode pi nc) EMPTY_PREFIX
        (checkNbits nbits T1).2 T1 EMPTY_PREFIX fK :=
      ⟨hT1, hT1, harr1, hef1, hn1, hw1, hseenpi, Or.inl rfl, Or.inl ⟨rfl, rfl⟩⟩
    refine SimGoal.step henc ((hesc.comp hgrow).comp (DecRun.nil _ _ _ _)) ?_
      (ih _ _ _ _ _ _ _ S' (hsafe.first hs rfl hesceq hcp))
    simp [str_empty]

/-- The rest of the last branch of the encoder loop, after the code `c` has been written and
`checkPrune` and `checkNbits` have run: the decoder is in state `D`, its table `Tdec` is the
encoder's table `T2` or lacks the entry `(oc, k)` that it inserts on an escape. -/
theorem sim_else_tail {maxBits window : Nat} {eFlag : Bool}
    {k : Nat} (hk : k < 256) {rest : List Nat}
    {T : stringTable} {pi : pruneInfo} {c nbits : Nat} {Td : stringTable} {oc fK : Nat}
    (hsafe : Safe window eFlag (k :: rest) T pi c nbits)
    (hs : stringTableHashSearch T c k = some none) (hv : validCode T c)
    {T1 : stringTable} {r1 : Bool} {x1 : Nat} (hadd : stringTableAdd T c k = some (T1, r1, x1))
    {out2 : List (Nat × Nat)} {T2 : stringTable} {pi2 : pruneInfo} {c2 nbits2 : Nat}
    (hcp : checkPrune T1 (pruneInfoSawCode pi c) window c nbits
      = some (out2, T2, pi2, c2, nbits2))
    (hT2 : WFT T2) (harr2 : T2.arraySize = 2 ^ maxBits) (hef2 : T2.eFlag = eFlag)
    (hn2 : 2 ≤ (checkNbits nbits2 T2).2)
    (hw2 : T2.highestCode ≤ 2 ^ (checkNbits nbits2 T2).2 - 1)
    (hseen2 : ∀ i, T2.highestCode < i → pi2.lastSeen i = 0)
    {Tdec : stringTable} {ocd fk : Nat} (hTdec : WFT Tdec)
    (hrun : DecRun maxBits window eFlag ([(nbits, c)] ++ out2 ++ (checkNbits nbits2 T2).1)
      ⟨Td, pi, oc, fK, nbits⟩ ⟨Tdec, pi2, ocd, fk, (checkNbits nbits2 T2).2⟩ (str T c))
    (hlink : (ocd = EMPTY_PREFIX ∧ Tdec = T2) ∨
      (validCode Tdec ocd ∧ (str Tdec ocd).head? = some fk ∧
        ∃ r x, stringTableAdd Tdec ocd k = some (T2, r, x)))
    (ih : ∀ T' pi' c' nbits' Td' oc' fK', Sync maxBits eFlag T' pi' c' nbits' Td' oc' fK' →
      Safe window eFlag rest T' pi' c' nbits' →
      SimGoal maxBits window eFlag rest T' pi' c' nbits' Td' oc' fK') :
    SimGoal maxBits window eFlag (k :: rest) T pi c nbits Td oc fK := by
  obtain ⟨res, hs2⟩ := search_total hT2.hashWF hT2.sized EMPTY_PREFIX k
  cases res with
  | some kCode =>
    obtain ⟨d, hd, _, hcode⟩ := search_some hT2.hashWF hs2
    have hstrd : str T2 d = [k] := by
      rw [str_holds hT2.chains hd, if_pos rfl]; rfl
    have henc := encodeLoop_else_found rest hs (valid_ne_empty hv) hadd hcp hs2
    have hsafe' := hsafe.else_found hs (valid_ne_empty hv) hadd hcp hs2
    rw [hcode] at henc hsafe'
    have S' : Sync maxBits eFlag T2 pi2 d (checkNbits nbits2 T2).2 Tdec ocd fk := by
      refine ⟨hT2, hTdec, harr2, hef2, hn2, hw2, hseen2, Or.inr hd.1, ?_⟩
      rcases hlink with h | ⟨h1, h2, r, x, h3⟩
      · exact Or.inl h
      · exact Or.inr ⟨hd.1, h1, h2, k, r, x, h3, by rw [hstrd]; rfl⟩
    refine SimGoal.step henc hrun ?_ (ih _ _ _ _ _ _ _ S' hsafe')
    rw [hstrd]
    simp
  | none =>
    have hef := eFlag_of_miss hT2 hef2 hk hs2
    subst hef
    obtain ⟨⟨T3, r3, nc3⟩, hadd3⟩ := add_total hT2.hashWF hT2.sized EMPTY_PREFIX k
    obtain ⟨hT3, harr3, hef3, hle3, hsz3, hn3, hw3, hseen3, _⟩ :=
      sync_after_add hT2 harr2 hef2 hn2 hw2 hseen2 (Or.inl rfl) hadd3
    have hesceq := escapeChar_eq pi2 (checkNbits nbits2 T2).2 hadd3
    obtain ⟨hoff, hsafe'⟩ := hsafe.else_escape hs (valid_ne_empty hv) hadd hcp hs2 hesceq
    have henc := encodeLoop_else_escape rest hs (valid_ne_empty hv) hadd hcp hs2 hesceq
      (checkPrune_off (pruneInfoSawCode pi2 nc3) EMPTY_PREFIX
        (checkNbits (checkNbits nbits2 T2).2 T3).2 hoff) hoff
    have hif : (if ocd != EMPTY_PREFIX then (stringTableAdd Tdec ocd k).map (fun r => r.1)
        else some Tdec) = some T2 := by
      rcases hlink with ⟨h1, h2⟩ | ⟨h1, _, r, x, h3⟩
      · subst h1; subst h2; simp
      · have : (ocd != EMPTY_PREFIX) = true := by
          have := valid_ne_empty h1
          simpa using this
        rw [this, if_pos rfl, h3]; rfl
    have hesc : DecRun maxBits window true [((checkNbits nbits2 T2).2, ESCAPE_CODE), (8, k)]
        ⟨Tdec, pi2, ocd, fk, (checkNbits nbits2 T2).2⟩
        ⟨T3, pruneInfoSawCode pi2 nc3, EMPTY_PREFIX, fk, (checkNbits nbits2 T2).2⟩ [k] :=
      DecRun.escape hn2 hk hif hadd3
    have hgrow3 : DecRun maxBits window true (checkNbits (checkNbits nbits2 T2).2 T3).1
        ⟨T3, pruneInfoSawCode pi2 nc3, EMPTY_PREFIX, fk, (checkNbits nbits2 T2).2⟩
        ⟨T3, pruneInfoSawCode pi2 nc3, EMPTY_PREFIX, fk,
          (checkNbits (checkNbits nbits2 T2).2 T3).2⟩ [] :=
      DecRun.grow hn2 hle3 hsz3
    have S' : Sync maxBits true T3 (pruneInfoSawCode pi2 nc3) EMPTY_PREFIX
        (checkNbits (checkNbits nbits2 T2).2 T3).2 T3 EMPTY_PREFIX fk :=
      ⟨hT3, hT3, harr3, hef3, hn3, hw3, hseen3 nc3 (add_code_le hT2.hashWF hadd3),
        Or.inl rfl, Or.inl ⟨rfl, rfl⟩⟩
    refine SimGoal.step henc ((hrun.comp (hesc.comp hgrow3)).comp (DecRun.nil _ _ _ _)) ?_
      (ih _ _ _ _ _ _ _ S' hsafe')
    simp [str_empty]

theorem sim_else_prune {maxBits window : Nat} {eFlag : Bool}
    {k : Nat} (hk : k < 256) {rest : List Nat}
    {T : stringTable} {pi : pruneInfo} {c nbits : Nat} {Td : stringTable} {oc fK : Nat}
    (S : Sync maxBits eFlag T pi c nbits Td oc fK)
    (hsafe : Safe window eFlag (k :: rest) T pi c nbits)
    (hs : stringTableHashSearch T c k = some none) (hv : validCode T c)
    {T1 : stringTable} {r1 : Bool} {x1 : Nat} (hadd : stringTableAdd T c k = some (T1, r1, x1))
    (hw : window ≠ 0) (hfull : stringTableIsFull T1 = true)
    (ih : ∀ T' pi' c' nbits' Td' oc' fK', Sync maxBits eFlag T' pi' c' nbits' Td' oc' fK' →
      Safe window eFlag rest T' pi' c' nbits' →
      SimGoal maxBits window eFlag rest T' pi' c' nbits' Td' oc' fK') :
    SimGoal maxBits window eFlag (k :: rest) T pi c nbits Td oc fK := by
  obtain ⟨fk, hfk⟩ := exists_head S.wfT.chains hv
  obtain ⟨hT1, harr1, hef1, hle1, hsz1, hn1, hw1, hseen1, _⟩ :=
    sync_after_add S.wfT S.arrT S.eflT S.nb2 S.width S.seen (Or.inr hv) hadd
  obtain ⟨hx1, hx2, hx3, hx4, hext⟩ := add_ext S.wfT (Or.inr hv) hadd
  have hseenT : ∀ i, T.highestCode < i → (pruneInfoSawCode pi c).lastSeen i = 0 :=
    saw_seen hv.2 S.seen
  have hcle : c ≤ T1.highestCode := by have := hv.2; omega
  have hdata : DecRun maxBits window eFlag [(nbits, c)] ⟨Td, pi, oc, fK, nbits⟩
      ⟨T, pruneInfoSawCode pi c, c, fk, nbits⟩ (str T c) :=
    DecRun.data S.wfT S.wfD S.nb2 S.width hv S.link' hfk
  obtain ⟨T2, pi2, x, m, hprune, hI⟩ := prune_spec (pruneInfoSawCode pi c) window c hT1
  have hcp := checkPrune_on (pruneInfoSawCode pi c) c nbits hw hfull hprune
  -- the decoder prunes the table without the last insertion
  have hhc : T1.highestCode = T.highestCode ∨ (T1.highestCode = T.highestCode + 1 ∧
      retained (pruneInfoSawCode pi c) window (T.highestCode + 1) = false) := by
    rcases add_shape S.wfT.hashWF hadd with ⟨h, _⟩ | ⟨hi, h, _⟩
    · exact Or.inl (by rw [h])
    · refine Or.inr ⟨by rw [h]; rfl, ?_⟩
      unfold retained
      rw [hseenT _ (Nat.lt_succ_self _)]
      simp
  have hag := prune_agree S.wfT (pruneInfoSawCode pi c) window c c hx1 hx2
    (fun y hy => (hext y hy).2.1) hhc
  rw [hprune] at hag
  obtain ⟨y, hdp⟩ : ∃ y, stringTablePrune T (pruneInfoSawCode pi c) window c
      = some (T2, pi2, y) := by
    cases hdp : stringTablePrune T (pruneInfoSawCode pi c) window c with
    | none => rw [hdp] at hag; simp at hag
    | some res =>
      obtain ⟨a, b, y⟩ := res
      rw [hdp] at hag
      simp only [Option.map_some', Option.some.injEq, Prod.mk.injEq] at hag
      exact ⟨y, by rw [← hag.1, ← hag.2]⟩
  obtain ⟨hT2, harr2, hef2, hsz2, hnb, hwb, hle2, hseen2⟩ :=
    sync_after_prune hT1 harr1 hef1 (hseen1 c hcle) hprune
  have hprun : DecRun maxBits window eFlag [(nbits, PRUNE_CODE)]
      ⟨T, pruneInfoSawCode pi c, c, fk, nbits⟩
      ⟨T2, pi2, EMPTY_PREFIX, fk, nbitsFor T2.highestCode⟩ [] :=
    DecRun.prune hw S.nb2 hdp
  have hgrow : DecRun maxBits window eFlag (checkNbits (nbitsFor T2.highestCode) T2).1
      ⟨T2, pi2, EMPTY_PREFIX, fk, nbitsFor T2.highestCode⟩
      ⟨T2, pi2, EMPTY_PREFIX, fk, (checkNbits (nbitsFor T2.highestCode) T2).2⟩ [] :=
    DecRun.grow hnb hle2 hsz2
  have hn2 : 2 ≤ (checkNbits (nbitsFor T2.highestCode) T2).2 := by
    rcases (checkNbits_spec hle2).2 with h | ⟨h, _⟩
    · rw [h]; exact hnb
    · rw [h]; show 2 ≤ nbitsFor T2.highestCode + 1; omega
  have hrun := (hdata.comp hprun).comp hgrow
  have hout : str T c ++ [] ++ [] = str T c := by simp
  rw [hout] at hrun
  exact sim_else_tail hk hsafe hs hv hadd hcp hT2 harr2 hef2 hn2 (checkNbits_spec hle2).1
    hseen2 hT2 hrun (Or.inl ⟨rfl, rfl⟩) ih

theorem sim_else_plain {maxBits window : Nat} {eFlag : Bool}
    {k : Nat} (hk : k < 256) {rest : List Nat}
    {T : stringTable} {pi : pruneInfo} {c nbits : Nat} {Td : stringTable} {oc fK : Nat}
    (S : Sync maxBits eFlag T pi c nbits Td oc fK)
    (hsafe : Safe window eFlag (k :: rest) T pi c nbits)
    (hs : stringTableHashSearch T c k = some none) (hv : validCode T c)
    {T1 : stringTable} {r1 : Bool} {x1 : Nat} (hadd : stringTableAdd T c k = some (T1, r1, x1))
    (hoff : window = 0 ∨ stringTableIsFull T1 = false)
    (ih : ∀ T' pi' c' nbits' Td' oc' fK', Sync maxBits eFlag T' pi' c' nbits' Td' oc' fK' →
      Safe window eFlag rest T' pi' c' nbits' →
      SimGoal maxBits window eFlag rest T' pi' c' nbits' Td' oc' fK') :
    SimGoal maxBits window eFlag (k :: rest) T pi c nbits Td oc fK := by
  obtain ⟨fk, hfk⟩ := exists_head S.wfT.chains hv
  obtain ⟨hT1, harr1, hef1, hle1, hsz1, hn1, hw1, hseen1, hseenpi⟩ :=
    sync_after_add S.wfT S.arrT S.eflT S.nb2 S.width S.seen (Or.inr hv) hadd
  obtain ⟨hx1, hx2, hx3, hx4, hext⟩ := add_ext S.wfT (Or.inr hv) hadd
  have hcle : c ≤ T1.highestCode := by have := hv.2; omega
  have hdata : DecRun maxBits window eFlag [(nbits, c)] ⟨Td, pi, oc, fK, nbits⟩
      ⟨T, pruneInfoSawCode pi c, c, fk, nbits⟩ (str T c) :=
    DecRun.data S.wfT S.wfD S.nb2 S.width hv S.link' hfk
  have hcp := checkPrune_off (pruneInfoSawCode pi c) c nbits hoff
  have hgrow : DecRun maxBits window eFlag (checkNbits nbits T1).1
      ⟨T, pruneInfoSawCode pi c, c, fk, nbits⟩
      ⟨T, pruneInfoSawCode pi c, c, fk, (checkNbits nbits T1).2⟩ [] :=
    DecRun.grow S.nb2 hle1 hsz1
  have hrun := (hdata.comp (DecRun.nil _ _ _ _)).comp hgrow
  have hout : str T c ++ [] ++ [] = str T c := by simp
  rw [hout] at hrun
  exact sim_else_tail hk hsafe hs hv hadd hcp hT1 harr1 hef1 hn1 hw1 (hseen1 c hcle) S.wfT
    hrun (Or.inr ⟨hv, hfk, r1, x1, hadd⟩) ih

/-- The encoder and the decoder stay in step: from corresponding states of a run in which
no rebuilt table is dropped, the decoder returns `true` on the fields the encoder writes and
writes the pending string followed by the remaining input. -/
theorem sim (maxBits window : Nat) (eFlag : Bool) :
    ∀ (input : List Nat), (∀ b ∈ input, b < 256) →
      ∀ (T : stringTable) (pi : pruneInfo) (c nbits : Nat) (Td : stringTable) (oc fK : Nat),
        Sync maxBits eFlag T pi c nbits Td oc fK →
        Safe window eFlag input T pi c nbits →
        SimGoal maxBits window eFlag input T pi c nbits Td oc fK := by
  intro input
  induction input with
  | nil => intro _ T pi c nbits Td oc fK S _; exact sim_nil S
  | cons k rest ih =>
    intro hB T pi c nbits Td oc fK S hsafe
    have hk : k < 256 := hB k (List.mem_cons_self _ _)
    have hrest : ∀ b ∈ rest, b < 256 := fun b hb => hB b (List.mem_cons_of_mem _ hb)
    obtain ⟨res, hs⟩ := search_total S.wfT.hashWF S.wfT.sized c k
    cases res with
    | some e =>
      exact sim_found S hs (fun S' => ih hrest _ _ _ _ _ _ _ S' (hsafe.found hs))
    | none =>
      by_cases hc : c = EMPTY_PREFIX
      · exact sim_first hk S hsafe hs hc (ih hrest)
      · have hv : validCode T c := by
          rcases S.cval with h | h
          · exact absurd h hc
          · exact h
        obtain ⟨⟨T1, r1, x1⟩, hadd⟩ := add_total S.wfT.hashWF S.wfT.sized c k
        rcases fire_or_off window T1 with ⟨hw, hfull⟩ | hoff
        · exact sim_else_prune hk S hsafe hs hv hadd hw hfull (ih hrest)
        · exact sim_else_plain hk S hsafe hs hv hadd hoff (ih hrest)

/-- The table of `stringTableNew` for valid parameters is well formed. -/
theorem new_WFT (maxBits : Nat) (eFlag : Bool) (h8 : 8 ≤ maxBits) (h24 : maxBits ≤ 24)
    (h9 : eFlag = false → 9 ≤ maxBits) :
    ∃ T0, stringTableNew maxBits eFlag = some T0 ∧ WFT T0 ∧ T0.arraySize = 2 ^ maxBits ∧
      T0.eFlag = eFlag ∧ T0.highestCode = (if eFlag then 3 else 259) := by
  have hsh := shift_eq maxBits (by omega)
  have hlo : 2 ^ 8 ≤ 2 ^ maxBits := Nat.pow_le_pow_right (by norm_num) h8
  have hhi : 2 ^ maxBits ≤ 2 ^ 24 := Nat.pow_le_pow_right (by norm_num) h24
  norm_num at hlo hhi
  cases eFlag with
  | true =>
    refine ⟨emptyTable (2 ^ maxBits) true, ?_, ?_, rfl, rfl, rfl⟩
    · unfold stringTableNew; rw [hsh]; exact createTable_true_spec _
    · exact emptyTable_WFT _ (by simp only [NUM_SPECIAL_CODES]; omega) (by omega)
  | false =>
    have hlo9 : 2 ^ 9 ≤ 2 ^ maxBits := Nat.pow_le_pow_right (by norm_num) (h9 rfl)
    norm_num at hlo9
    obtain ⟨T0, h1, h2, h3, hW, hS, hsize, hef⟩ :=
      createTable_false_spec (2 ^ maxBits) (by omega) (by omega)
    refine ⟨T0, ?_, ⟨hW, hS, ?_, ?_⟩, hsize, hef, ?_⟩
    · unfold stringTableNew; rw [hsh]; exact h1
    · intro c hc
      have hc1 := hc.1
      have hc2 := hc.2
      rw [h2] at hc2
      simp only [NUM_SPECIAL_CODES] at hc1 hc2 h3
      have := h3 (c - 4) (by omega)
      rw [show 4 + (c - 4) = c by omega] at this
      rw [this]
      exact Or.inl rfl
    · intro _
      exact ⟨by rw [hsize]; simp only [NUM_SPECIAL_CODES]; omega, by rw [h2], h3⟩
    · rw [h2]; rfl

theorem decodeBits_header {maxBits window : Nat} (eFlag : Bool) (hm : maxBits < 32)
    (hw : window < 2 ^ 24) (rest : List Bool) {T0 : stringTable}
    (hT : stringTableNew maxBits eFlag = some T0) :
    decodeBits (fieldBits [(NBITS_MAXBITS, maxBits), (NBITS_WINDOW, window),
        (NBITS_EFLAG, if eFlag then 1 else 0)] ++ rest)
      = decodeLoop maxBits window eFlag (rest.length + 1) T0 (pruneInfoNew maxBits)
          EMPTY_PREFIX 0 (if eFlag then 2 else 9) rest := by
  simp only [fieldBits, List.append_nil, List.append_assoc, NBITS_MAXBITS, NBITS_WINDOW,
    NBITS_EFLAG]
  unfold decodeBits
  simp only [NBITS_MAXBITS, NBITS_WINDOW, NBITS_EFLAG]
  have hm5 : maxBits < 2 ^ 5 := by norm_num; exact hm
  have he : (if eFlag then 1 else 0) < 2 ^ 1 := by cases eFlag <;> simp
  have hb : ((if eFlag then 1 else 0) != 0) = eFlag := by cases eFlag <;> simp
  simp only [getBits_putBits hm5, getBits_putBits hw, getBits_putBits he, hb, hT]

/-- The round trip for the runs in which the encoder never drops a rebuilt table: `maxBits`
in `[8, 24]`, at least `9` without escape, and pruning and escape not both in use or
`keepsTable` true of the run. -/
theorem roundtrip_core (B : List Nat) (hB : ∀ b ∈ B, b < 256) (maxBits window : Nat)
    (eFlag : Bool) (h8 : 8 ≤ maxBits) (h24 : maxBits ≤ 24) (h9 : eFlag = false → 9 ≤ maxBits)
    (hw : window < 2 ^ 24)
    (hH : window = 0 ∨ eFlag = false ∨ keepsTable maxBits window eFlag B = true) :
    ∃ out, encode maxBits window eFlag B = some out ∧ decode out = some (true, B) := by
  obtain ⟨T0, hnew, hT0, harr, hef, hhc⟩ := new_WFT maxBits eFlag h8 h24 h9
  have S : Sync maxBits eFlag T0 (pruneInfoNew maxBits) EMPTY_PREFIX (if eFlag then 2 else 9)
      T0 EMPTY_PREFIX 0 := by
    refine ⟨hT0, hT0, harr, hef, ?_, ?_, fun _ _ => rfl, Or.inl rfl, Or.inl ⟨rfl, rfl⟩⟩
    · cases eFlag <;> simp
    · rw [hhc]; cases eFlag <;> simp
  have hsafe : Safe window eFlag B T0 (pruneInfoNew maxBits) EMPTY_PREFIX
      (if eFlag then 2 else 9) := by
    rcases hH with h | h | h
    · exact Or.inl (Or.inl h)
    · exact Or.inl (Or.inr h)
    · refine Or.inr ?_
      unfold keepsTable at h
      rw [hnew] at h
      exact h
  obtain ⟨o, henc, hdec⟩ := sim maxBits window eFlag B hB _ _ _ _ _ _ _ S hsafe
  have hfields : encodeFields maxBits window eFlag B
      = some ([(NBITS_MAXBITS, maxBits), (NBITS_WINDOW, window),
          (NBITS_EFLAG, if eFlag then 1 else 0)] ++ o) := by
    unfold encodeFields
    rw [hnew]
    simp only
    rw [henc]
    rfl
  refine ⟨_, by unfold encode; rw [hfields]; rfl, ?_⟩
  unfold decode
  rw [unpack_pack_flush, fieldBits_append, List.append_assoc,
    decodeBits_header eFlag (by omega) hw _ hnew]
  have key := fun pad => hdec ((fieldBits o ++ pad).length + 1) pad (Nat.lt_succ_self _)
  unfold runDec at key
  simp only at key
  rw [key, str_empty]
  rfl

/-- C1, as amended (round-trip law): for every byte sequence `B`, every `maxBits` in
`[8, 24]` that is at least `9` when escape is disabled, every `window` below `2 ^ 24` and
either escape flag, provided that pruning and escape are not both enabled (`window = 0` or
escape disabled) or that the run of `encode` on `B` never has a full table right after the
escape that follows a written code (`keepsTable`, the one place where the encoder does not
keep the table that `checkPrune` returns), `encode` returns a stream and `decode` on that
stream returns `true` and writes exactly `B`. -/
theorem roundtrip (B : List Nat) (hB : ∀ b ∈ B, b < 256) (maxBits window : Nat)
    (eFlag : Bool) (h8 : 8 ≤ maxBits) (h24 : maxBits ≤ 24) (h9 : eFlag = false → 9 ≤ maxBits)
    (hw : window < 2 ^ 24)
    (hH : window = 0 ∨ eFlag = false ∨ keepsTable maxBits window eFlag B = true) :
    ∃ out, encode maxBits window eFlag B = some out ∧ decode out = some (true, B) :=
  roundtrip_core B hB maxBits window eFlag h8 h24 h9 hw hH

theorem roundtrip_witness :
    ((∀ b ∈ [65, 66, 65, 66, 65, 66, 65], b < 256) ∧ 8 ≤ 9 ∧ 9 ≤ 24 ∧
      (true = false → 9 ≤ 9) ∧ 64 < 2 ^ 24 ∧
      (64 = 0 ∨ true = false ∨ keepsTable 9 64 true [65, 66, 65, 66, 65, 66, 65] = true)) ∧
    ∃ out, encode 9 64 true [65, 66, 65, 66, 65, 66, 65] = some out ∧
      decode out = some (true, [65, 66, 65, 66, 65, 66, 65]) :=
  ⟨⟨by decide, by decide, by decide, fun _ => by decide, by decide,
      Or.inr (Or.inr rfl)⟩,
    roundtrip [65, 66, 65, 66, 65, 66, 65] (by decide) 9 64 true (by decide) (by decide)
      (fun _ => by decide) (by decide) (Or.inr (Or.inr rfl))⟩

set_option maxRecDepth 100000 in
/-- C1 fails as stated at `maxBits = 8`, `window = 0`, escape disabled, `B = [252]`: the
table has no entry for byte 252, the encoder writes `ESCAPE_CODE` and the decoder, whose
header says that escape is off, returns `false`. -/
theorem roundtrip_eight_counterexample :
    encodeFields 8 0 false [252] = some [(5, 8), (24, 0), (1, 0), (9, 0), (8, 252), (9, 3)] ∧
    (encode 8 0 false [252]).bind decode = some (false, []) ∧
    ¬ ∃ out, encode 8 0 false [252] = some out ∧ decode out = some (true, [252]) := by
  have h1 : encodeFields 8 0 false [252]
      = some [(5, 8), (24, 0), (1, 0), (9, 0), (8, 252), (9, 3)] := by decide!
  have h2 : (encode 8 0 false [252]).bind decode = some (false, []) := by decide!
  refine ⟨h1, h2, ?_⟩
  rintro ⟨out, he, hd⟩
  rw [he] at h2
  simp only [Option.some_bind] at h2
  rw [hd] at h2
  simp at h2

/-- C2 (round trip without pruning or escape): for every byte sequence `B`,
`encode(maxBits = 12, window = 0, escape off)` returns a stream on which `decode` returns
`true` and writes exactly `B`. -/
theorem roundtrip_plain (B : List Nat) (hB : ∀ b ∈ B, b < 256) :
    ∃ out, encode 12 0 false B = some out ∧ decode out = some (true, B) :=
  roundtrip_core B hB 12 0 false (by decide) (by decide) (fun _ => by decide) (by decide)
    (Or.inl rfl)

theorem roundtrip_plain_witness :
    (∀ b ∈ [65, 65, 65, 65, 65, 65, 65, 65], b < 256) ∧
    ∃ out, encode 12 0 false [65, 65, 65, 65, 65, 65, 65, 65] = some out ∧
      decode out = some (true, [65, 65, 65, 65, 65, 65, 65, 65]) :=
  ⟨by decide, roundtrip_plain [65, 65, 65, 65, 65, 65, 65, 65] (by decide)⟩

/-- C11: a stream cut inside the raw byte of an escape is accepted. The stream of
`encode(12, 0, escape)` on the bytes `65, 97` has seven bytes; on its first six, which end
after three bits of the raw byte `97`, the decoder does not test the `EOF` of `getBits(8)`
(line 253), reads the three bits left as the next code, finds `STOP_CODE` and returns
`true`. -/
theorem decode_truncated_escape :
    encode 12 0 true [65, 97] = some [96, 0, 0, 4, 65, 67, 11] ∧
    List.take 6 [96, 0, 0, 4, 65, 67, 11] = [96, 0, 0, 4, 65, 67] ∧
    decode [96, 0, 0, 4, 65, 67] = some (true, [65, 255]) := by
  refine ⟨by decide!, rfl, by decide!⟩

set_option maxRecDepth 100000 in
/-- C12: `decode` does not return on the stream `96, 0, 0, 2, 8`, the header
`maxBits = 12`, `window = 0`, escape off followed by the 9-bit code `260`. The code has no
entry and `oldCode` is empty, so the walk starts from `stringTableCodeSearch(table, 0)`,
which is `NULL`, and `finalK = elt->k` (line 289) dereferences it. -/
theorem decode_unknown_first_code :
    unpackBytes [96, 0, 0, 2, 8]
      = fieldBits [(NBITS_MAXBITS, 12), (NBITS_WINDOW, 0), (NBITS_EFLAG, 0), (9, 260)]
        ++ [false] ∧
    (stringTableNew 12 false).map (fun T => stringTableCodeSearch T 260) = some none ∧
    (stringTableNew 12 false).map (fun T => stringTableCodeSearch T EMPTY_PREFIX)
      = some none ∧
    decode [96, 0, 0, 2, 8] = none := by
  refine ⟨by decide!, by decide!, by decide!, by decide!⟩

/-- C13 fails as stated: the stream `56, 0, 0, 7` has the header `maxBits = 7`,
`window = 0`, escape on, followed by `STOP_CODE` in two bits, and `decode` returns `true`
on it. -/
theorem decode_header_counterexample :
    unpackBytes [56, 0, 0, 7]
      = fieldBits [(NBITS_MAXBITS, 7), (NBITS_WINDOW, 0), (NBITS_EFLAG, 1), (2, STOP_CODE)] ∧
    ¬ (8 ≤ 7 ∧ 7 ≤ 24) ∧
    decode [56, 0, 0, 7] = some (true, []) ∧
    (decode [56, 0, 0, 7]).map (fun r => r.1) ≠ some false := by
  have h : decode [56, 0, 0, 7] = some (true, []) := by decide!
  refine ⟨by decide!, by decide, h, ?_⟩
  rw [h]
  simp

/-- The table of `stringTableNew` exists for every `maxBits` in `[8, 24]`. -/
theorem stringTableNew_isSome (maxBits : Nat) (eFlag : Bool) (h8 : 8 ≤ maxBits)
    (h24 : maxBits ≤ 24) : ∃ T, stringTableNew maxBits eFlag = some T := by
  by_cases h : eFlag = false ∧ maxBits = 8
  · obtain ⟨h1, h2⟩ := h
    subst h1; subst h2
    have : (stringTableNew 8 false).isSome = true := by decide!
    exact Option.isSome_iff_exists.mp this
  · obtain ⟨T, hT, _⟩ := new_WFT maxBits eFlag h8 h24
      (fun he => by
        by_contra hc
        exact h ⟨he, by omega⟩)
    exact ⟨T, hT⟩

/-- C13, as amended: `decode` does not check the `maxBits` field of the header. For every
value `m` of the field up to `30`, in `[8, 24]` or not, every window and the escape flag
set, the stream made of the header and `STOP_CODE` in two bits is accepted: `decode`
returns `true` and writes nothing. -/
theorem decode_header_unchecked (m window : Nat) (hm : m ≤ 30) (hw : window < 2 ^ 24) :
    decode (packBytes (flushBits (fieldBits
      [(NBITS_MAXBITS, m), (NBITS_WINDOW, window), (NBITS_EFLAG, 1), (2, STOP_CODE)])))
      = some (true, []) := by
  have hnew : stringTableNew m true = some (emptyTable (2 ^ m) true) := by
    unfold stringTableNew
    rw [shift_eq m hm]
    exact createTable_true_spec _
  have hsplit : [(NBITS_MAXBITS, m), (NBITS_WINDOW, window), (NBITS_EFLAG, 1), (2, STOP_CODE)]
      = [(NBITS_MAXBITS, m), (NBITS_WINDOW, window),
          (NBITS_EFLAG, if true = true then 1 else 0)] ++ [(2, STOP_CODE)] := by simp
  unfold decode
  rw [unpack_pack_flush, hsplit, fieldBits_append, List.append_assoc,
    decodeBits_header true (by omega) hw _ hnew]
  simp only [fieldBits, List.append_nil, if_true]
  rw [List.append_assoc]
  exact dec_stop m window true _ _ _ _ _ (Nat.le_refl 2) _

theorem decode_header_unchecked_witness :
    (7 ≤ 30 ∧ 64 < 2 ^ 24) ∧
    decode (packBytes (flushBits (fieldBits
      [(NBITS_MAXBITS, 7), (NBITS_WINDOW, 64), (NBITS_EFLAG, 1), (2, STOP_CODE)])))
      = some (true, []) :=
  ⟨by decide, decode_header_unchecked 7 64 (by decide) (by decide)⟩

/-- C16 (empty input): for every `maxBits` in `[8, 24]`, every window and either flag,
`encode` on the empty input writes `maxBits` in 5 bits, `window` in 24 bits, the flag in
1 bit and `STOP_CODE` at the initial width (2 with escape, 9 without), then flushes, and
writes nothing else; for `maxBits = 12`, `window = 0`, escape off the fields are
`(5, 12), (24, 0), (1, 0), (9, 3)` and the bytes `96, 0, 0, 0, 6`. -/
theorem encode_empty (maxBits window : Nat) (eFlag : Bool) (h8 : 8 ≤ maxBits)
    (h24 : maxBits ≤ 24) :
    encodeFields maxBits window eFlag []
      = some [(NBITS_MAXBITS, maxBits), (NBITS_WINDOW, window),
          (NBITS_EFLAG, if eFlag then 1 else 0), (if eFlag then 2 else 9, STOP_CODE)] ∧
    encode maxBits window eFlag []
      = some (packBytes (flushBits (fieldBits
          [(NBITS_MAXBITS, maxBits), (NBITS_WINDOW, window),
            (NBITS_EFLAG, if eFlag then 1 else 0), (if eFlag then 2 else 9, STOP_CODE)]))) ∧
    encodeFields 12 0 false [] = some [(5, 12), (24, 0), (1, 0), (9, 3)] ∧
    encode 12 0 false [] = some [96, 0, 0, 0, 6] := by
  obtain ⟨T, hT⟩ := stringTableNew_isSome maxBits eFlag h8 h24
  have h1 : encodeFields maxBits window eFlag []
      = some [(NBITS_MAXBITS, maxBits), (NBITS_WINDOW, window),
          (NBITS_EFLAG, if eFlag then 1 else 0), (if eFlag then 2 else 9, STOP_CODE)] := by
    unfold encodeFields
    rw [hT]
    simp [encodeLoop, EMPTY_PREFIX]
  refine ⟨h1, ?_, by decide!, by decide!⟩
  unfold encode
  rw [h1]
  rfl

theorem encode_empty_witness :
    (8 ≤ 9 ∧ 9 ≤ 24) ∧
    encodeFields 9 64 true []
      = some [(NBITS_MAXBITS, 9), (NBITS_WINDOW, 64),
          (NBITS_EFLAG, if true = true then 1 else 0),
          (if true = true then 2 else 9, STOP_CODE)] :=
  ⟨by decide, (encode_empty 9 64 true (by decide) (by decide)).1⟩

/-- An insertion with an empty or existing prefix keeps the prefix links in order. -/
theorem add_Chains {T : stringTable} (hC : Chains T) {p k : Nat}
    (hp : p = EMPTY_PREFIX ∨ validCode T p) {T' : stringTable} {r : Bool} {c : Nat}
    (h : stringTableAdd T p k = some (T', r, c)) : Chains T' := by
  rcases stringTableAdd_cases h with ⟨_, _, hT', _, _⟩ | ⟨_, _, hT', _, _⟩ |
    ⟨_, _, hi, _, hT', _, _⟩
  · rw [hT']; exact hC
  · rw [hT']; exact hC
  · rw [hT']; exact inserted_Chains hC k hi hp

/-- The code that `stringTableAdd` reports is empty or names an entry of the new table. -/
theorem add_code_valid {T : stringTable} (hW : HashWF T) {p k : Nat} {T' : stringTable}
    {r : Bool} {c : Nat} (h : stringTableAdd T p k = some (T', r, c)) :
    c = EMPTY_PREFIX ∨ validCode T' c := by
  rcases stringTableAdd_cases h with ⟨e, hs, hT', _, hc⟩ | ⟨_, _, _, _, hc⟩ |
    ⟨_, _, hi, _, hT', _, hc⟩
  · obtain ⟨d, hd, _, hcode⟩ := search_some hW hs
    right
    rw [hc, hcode, hT']
    exact hd.1
  · left
    rw [hc]; rfl
  · right
    rw [hc, hT']
    exact valid_inserted_new hW.hc_ge p k hi

theorem emptyTable_Chains (N : Nat) (eFlag : Bool) : Chains (emptyTable N eFlag) := by
  intro c hc
  exact absurd hc (emptyTable_not_valid N eFlag c)

theorem initLoop_Chains : ∀ (n : Nat) {T T' : stringTable}, Chains T →
    initLoop n T = some T' → Chains T' := by
  intro n
  induction n with
  | zero =>
    intro T T' hT h
    simp only [initLoop, Option.some.injEq] at h
    rw [← h]; exact hT
  | succ n ih =>
    intro T T' hT h
    rw [initLoop] at h
    cases h1 : initLoop n T with
    | none => rw [h1] at h; simp at h
    | some t =>
      rw [h1] at h
      simp only at h
      cases h2 : stringTableAdd t EMPTY_PREFIX n with
      | none => rw [h2] at h; simp at h
      | some r =>
        obtain ⟨T1, b, c⟩ := r
        rw [h2] at h
        simp only [Option.some.injEq] at h
        rw [← h]
        exact add_Chains (ih hT h1) (Or.inl rfl) h2

theorem createTable_Chains {numCodes : Nat} {eFlag : Bool} {T : stringTable}
    (h : createTable numCodes eFlag = some T) : Chains T := by
  rw [createTable_eq] at h
  unfold stringTableInit at h
  split at h
  · exact initLoop_Chains 256 (emptyTable_Chains _ _) h
  · simp only [Option.some.injEq] at h
    rw [← h]
    exact emptyTable_Chains _ _

/-- The function `recursiveAdd` keeps the table under construction consistent, whatever
the old table is, and returns the empty prefix or a code of the new table. -/
theorem recursiveAdd_keeps (T : stringTable) (oldPi : pruneInfo) :
    ∀ (fuel : Nat) (Tn : stringTable) (elt : Option tableElt) (pin : pruneInfo)
      (Tn' : stringTable) (pin' : pruneInfo) (x : Nat),
      HashWF Tn → Chains Tn →
      recursiveAdd T oldPi fuel Tn elt pin = some (Tn', pin', x) →
      HashWF Tn' ∧ Chains Tn' ∧ (x = EMPTY_PREFIX ∨ validCode Tn' x) := by
  intro fuel
  induction fuel with
  | zero =>
    intro Tn elt pin Tn' pin' x _ _ h
    simp [recursiveAdd] at h
  | succ fuel ih =>
    intro Tn elt pin Tn' pin' x hW hC h
    cases elt with
    | none => simp [recursiveAdd] at h
    | some e =>
      rw [recursiveAdd] at h
      have hstep : ∀ (Tn1 : stringTable) (pin1 : pruneInfo) (np : Nat),
          HashWF Tn1 → Chains Tn1 → (np = EMPTY_PREFIX ∨ validCode Tn1 np) →
          (match stringTableAdd Tn1 np e.k with
            | none => none
            | some (newTable2, _, newCode) =>
              some (newTable2,
                ({ pin1 with
                    lastSeen := setCell pin1.lastSeen newCode (oldPi.lastSeen e.code) } :
                  pruneInfo),
                newCode)) = some (Tn', pin', x) →
          HashWF Tn' ∧ Chains Tn' ∧ (x = EMPTY_PREFIX ∨ validCode Tn' x) := by
        intro Tn1 pin1 np hW1 hC1 hnp h1
        cases ha : stringTableAdd Tn1 np e.k with
        | none => rw [ha] at h1; simp at h1
        | some r =>
          obtain ⟨T2, b, nc⟩ := r
          rw [ha] at h1
          simp only [Option.some.injEq, Prod.mk.injEq] at h1
          obtain ⟨e1, _, e3⟩ := h1
          rw [← e1, ← e3]
          exact ⟨add_HashWF hW1 ha, add_Chains hC1 hnp ha, add_code_valid hW1 ha⟩
      by_cases hp : (e.pfx != EMPTY_PREFIX) = true
      · rw [if_pos hp] at h
        cases hr : recursiveAdd T oldPi fuel Tn (stringTableCodeSearch T e.pfx) pin with
        | none => rw [hr] at h; simp at h
        | some r =>
          obtain ⟨Tn1, pin1, np⟩ := r
          rw [hr] at h
          obtain ⟨hW1, hC1, hnp⟩ := ih _ _ _ _ _ _ hW hC hr
          exact hstep Tn1 pin1 np hW1 hC1 hnp h
      · rw [if_neg hp] at h
        exact hstep Tn pin EMPTY_PREFIX hW hC (Or.inl rfl) h

theorem pruneLoop_keeps (T : stringTable) (oldPi : pruneInfo) (window : Nat) :
    ∀ (n i : Nat) (Tn : stringTable) (pin : pruneInfo) (ctu : Nat)
      (Tn' : stringTable) (pin' : pruneInfo) (x : Nat),
      HashWF Tn → Chains Tn →
      pruneLoop T oldPi window n i Tn pin ctu = some (Tn', pin', x) →
      HashWF Tn' ∧ Chains Tn' := by
  intro n
  induction n with
  | zero =>
    intro i Tn pin ctu Tn' pin' x hW hC h
    simp only [pruneLoop, Option.some.injEq, Prod.mk.injEq] at h
    rw [← h.1]
    exact ⟨hW, hC⟩
  | succ n ih =>
    intro i Tn pin ctu Tn' pin' x hW hC h
    rw [pruneLoop] at h
    by_cases hr : retained oldPi window i = true
    · rw [if_pos hr] at h
      cases hra : recursiveAdd T oldPi (T.highestCode + 1) Tn (some (T.array i)) pin with
      | none => rw [hra] at h; simp at h
      | some r =>
        obtain ⟨Tn1, pin1, nc⟩ := r
        rw [hra] at h
        obtain ⟨hW1, hC1, _⟩ := recursiveAdd_keeps T oldPi _ _ _ _ _ _ _ hW hC hra
        exact ih _ _ _ _ _ _ _ hW1 hC1 h
    · rw [if_neg hr] at h
      exact ih _ _ _ _ _ _ _ hW hC h

/-- The table returned by `stringTablePrune` is consistent and its prefix links are in
order, whatever table is pruned. -/
theorem prune_keeps {T : stringTable} {pi : pruneInfo} {window c : Nat} {T' : stringTable}
    {pi' : pruneInfo} {x : Nat} (h : stringTablePrune T pi window c = some (T', pi', x)) :
    HashWF T' ∧ Chains T' := by
  unfold stringTablePrune at h
  simp only at h
  cases hcr : createTable T.arraySize T.eFlag with
  | none => rw [hcr] at h; simp at h
  | some Tn0 =>
    rw [hcr] at h
    exact pruneLoop_keeps T pi window _ _ _ _ _ _ _ _ (createTable_HashWF hcr)
      (createTable_Chains hcr) h

theorem WFT.wfd {T : stringTable} (h : WFT T) : WFD T := ⟨h.hashWF, h.sized, h.chains⟩

/-- An insertion with an empty or existing prefix keeps a dictionary consistent. -/
theorem add_WFD {T : stringTable} (hT : WFD T) {p k : Nat}
    (hp : p = EMPTY_PREFIX ∨ validCode T p) {T' : stringTable} {r : Bool} {c : Nat}
    (h : stringTableAdd T p k = some (T', r, c)) : WFD T' :=
  ⟨add_HashWF hT.hashWF h, add_Sized hT.sized h, add_Chains hT.chains hp h⟩

/-- What `stringTableAdd` keeps of a consistent table. -/
theorem add_keeps {T : stringTable} (hT : HashWF T) {p k : Nat}
    {T' : stringTable} {r : Bool} {c : Nat}
    (h : stringTableAdd T p k = some (T', r, c)) :
    T'.arraySize = T.arraySize ∧ T'.eFlag = T.eFlag ∧ T.highestCode ≤ T'.highestCode ∧
    T'.highestCode ≤ T.highestCode + 1 := by
  rcases add_shape hT h with ⟨h1, _⟩ | ⟨hi, h1, _⟩
  · subst h1
    exact ⟨rfl, rfl, Nat.le_refl _, Nat.le_succ _⟩
  · subst h1
    exact ⟨rfl, rfl, Nat.le_succ _, Nat.le_refl _⟩

theorem initLoop_keeps : ∀ (n : Nat) {T T' : stringTable}, HashWF T → Sized T →
    initLoop n T = some T' → Sized T' ∧ T'.arraySize = T.arraySize ∧ T'.eFlag = T.eFlag := by
  intro n
  induction n with
  | zero =>
    intro T T' _ hS h
    simp only [initLoop, Option.some.injEq] at h
    rw [← h]
    exact ⟨hS, rfl, rfl⟩
  | succ n ih =>
    intro T T' hW hS h
    rw [initLoop] at h
    cases h1 : initLoop n T with
    | none => rw [h1] at h; simp at h
    | some t =>
      rw [h1] at h
      simp only at h
      obtain ⟨hS1, ha1, he1⟩ := ih hW hS h1
      have hW1 := initLoop_HashWF n hW h1
      cases h2 : stringTableAdd t EMPTY_PREFIX n with
      | none => rw [h2] at h; simp at h
      | some r =>
        obtain ⟨t2, b, c⟩ := r
        rw [h2] at h
        simp only [Option.some.injEq] at h
        rw [← h]
        obtain ⟨e1, e2, _⟩ := add_keeps hW1 h2
        exact ⟨add_Sized hS1 h2, by rw [e1, ha1], by rw [e2, he1]⟩

theorem initLoop_total : ∀ (n : Nat) {T : stringTable}, HashWF T → Sized T →
    ∃ T', initLoop n T = some T' := by
  intro n
  induction n with
  | zero => intro T _ _; exact ⟨T, rfl⟩
  | succ n ih =>
    intro T hW hS
    obtain ⟨t, h1⟩ := ih hW hS
    have hW1 := initLoop_HashWF n hW h1
    obtain ⟨hS1, _, _⟩ := initLoop_keeps n hW hS h1
    obtain ⟨⟨t2, b, c⟩, h2⟩ := add_total hW1 hS1 EMPTY_PREFIX n
    exact ⟨t2, by rw [initLoop, h1]; simp only; rw [h2]⟩

theorem emptyTable_Sized (N : Nat) (eFlag : Bool) (h4 : NUM_SPECIAL_CODES ≤ N)
    (hN : N < 2 ^ 31) : Sized (emptyTable N eFlag) := by
  refine ⟨h4, hN, ?_, ?_⟩
  · show (N * 2 + 1) % 2 ^ 32 = 2 * N + 1
    omega
  · show NUM_SPECIAL_CODES - 1 < N
    simp only [NUM_SPECIAL_CODES] at h4 ⊢
    omega

/-- The function `createTable` returns a consistent dictionary of the capacity and flag
asked for, for every capacity from `NUM_SPECIAL_CODES` on. -/
theorem createTable_WFD (N : Nat) (eFlag : Bool) (h4 : NUM_SPECIAL_CODES ≤ N)
    (hN : N < 2 ^ 31) :
    ∃ T0, createTable N eFlag = some T0 ∧ WFD T0 ∧ T0.arraySize = N ∧ T0.eFlag = eFlag := by
  have hW := emptyTable_HashWF N eFlag
  have hS := emptyTable_Sized N eFlag h4 hN
  have hex : ∃ T0, createTable N eFlag = some T0 ∧ Sized T0 ∧ T0.arraySize = N ∧
      T0.eFlag = eFlag := by
    rw [createTable_eq]
    unfold stringTableInit
    by_cases he : ((emptyTable N eFlag).eFlag == false) = true
    · rw [if_pos he]
      obtain ⟨T0, h0⟩ := initLoop_total 256 hW hS
      obtain ⟨h1, h2, h3⟩ := initLoop_keeps 256 hW hS h0
      exact ⟨T0, h0, h1, h2, h3⟩
    · rw [if_neg he]
      exact ⟨_, rfl, hS, rfl, rfl⟩
  obtain ⟨T0, h0, h1, h2, h3⟩ := hex
  exact ⟨T0, h0, ⟨createTable_HashWF h0, h1, createTable_Chains h0⟩, h2, h3⟩

/-- The function `recursiveAdd` returns on an entry of a consistent old table. -/
theorem recursiveAdd_total {T : stringTable} (oldPi : pruneInfo) (hT : WFD T) :
    ∀ (fuel e : Nat) (Tn : stringTable) (pin : pruneInfo),
      validCode T e → e < fuel → HashWF Tn → Sized Tn →
      ∃ Tn' pin' x, recursiveAdd T oldPi fuel Tn (some (T.array e)) pin
          = some (Tn', pin', x) ∧
        HashWF Tn' ∧ Sized Tn' ∧ Tn'.arraySize = Tn.arraySize ∧ Tn'.eFlag = Tn.eFlag := by
  intro fuel
  induction fuel with
  | zero => intro e Tn pin _ h; omega
  | succ fuel ih =>
    intro e Tn pin he hlt hW hS
    rw [recursiveAdd]
    have hstep : ∀ (Tn1 : stringTable) (pin1 : pruneInfo) (np : Nat),
        HashWF Tn1 → Sized Tn1 → Tn1.arraySize = Tn.arraySize → Tn1.eFlag = Tn.eFlag →
        ∃ Tn' pin' x,
          (match stringTableAdd Tn1 np (T.array e).k with
            | none => none
            | some (newTable2, _, newCode) =>
              some (newTable2,
                ({ pin1 with
                    lastSeen := setCell pin1.lastSeen newCode
                      (oldPi.lastSeen (T.array e).code) } : pruneInfo),
                newCode)) = some (Tn', pin', x) ∧
          HashWF Tn' ∧ Sized Tn' ∧ Tn'.arraySize = Tn.arraySize ∧ Tn'.eFlag = Tn.eFlag := by
      intro Tn1 pin1 np hW1 hS1 ha1 he1
      obtain ⟨⟨T2, b, nc⟩, ha⟩ := add_total hW1 hS1 np (T.array e).k
      obtain ⟨e1, e2, _⟩ := add_keeps hW1 ha
      rw [ha]
      exact ⟨_, _, _, rfl, add_HashWF hW1 ha, add_Sized hS1 ha, by rw [e1, ha1],
        by rw [e2, he1]⟩
    by_cases hp : ((T.array e).pfx != EMPTY_PREFIX) = true
    · rw [if_pos hp]
      have hne : (T.array e).pfx ≠ EMPTY_PREFIX := by simpa using hp
      rcases hT.chains e he with h0 | ⟨hv, hlt'⟩
      · exact absurd h0 hne
      · rw [codeSearch_valid hv]
        obtain ⟨Tn1, pin1, np, hr, hW1, hS1, ha1, he1⟩ :=
          ih (T.array e).pfx Tn pin hv (by omega) hW hS
        rw [hr]
        exact hstep Tn1 pin1 np hW1 hS1 ha1 he1
    · rw [if_neg hp]
      exact hstep Tn pin EMPTY_PREFIX hW hS rfl rfl

theorem pruneLoop_total {T : stringTable} (oldPi : pruneInfo) (window : Nat) (hT : WFD T) :
    ∀ (n i : Nat) (Tn : stringTable) (pin : pruneInfo) (ctu : Nat),
      i + n = T.highestCode + 1 → NUM_SPECIAL_CODES ≤ i → HashWF Tn → Sized Tn →
      ∃ Tn' pin' x, pruneLoop T oldPi window n i Tn pin ctu = some (Tn', pin', x) ∧
        Sized Tn' ∧ Tn'.arraySize = Tn.arraySize ∧ Tn'.eFlag = Tn.eFlag := by
  intro n
  induction n with
  | zero =>
    intro i Tn pin ctu _ _ _ hS
    exact ⟨_, _, _, rfl, hS, rfl, rfl⟩
  | succ n ih =>
    intro i Tn pin ctu hin hi hW hS
    rw [pruneLoop]
    by_cases hr : retained oldPi window i = true
    · rw [if_pos hr]
      obtain ⟨Tn1, pin1, nc, hra, hW1, hS1, ha1, he1⟩ :=
        recursiveAdd_total oldPi hT (T.highestCode + 1) i Tn pin ⟨hi, by omega⟩ (by omega)
          hW hS
      rw [hra]
      obtain ⟨Tn', pin', x, h, hS', ha', he'⟩ :=
        ih (i + 1) Tn1 pin1 (if (T.array i).code == ctu then nc else ctu) (by omega)
          (by omega) hW1 hS1
      exact ⟨Tn', pin', x, h, hS', by rw [ha', ha1], by rw [he', he1]⟩
    · rw [if_neg hr]
      exact ih (i + 1) Tn pin ctu (by omega) (by omega) hW hS

/-- The function `stringTablePrune` returns on a consistent dictionary, with a consistent
dictionary of the same capacity and flag. -/
theorem prune_WFD {T : stringTable} (pi : pruneInfo) (window ctu : Nat) (hT : WFD T) :
    ∃ T' pi' ctu', stringTablePrune T pi window ctu = some (T', pi', ctu') ∧ WFD T' ∧
      T'.arraySize = T.arraySize ∧ T'.eFlag = T.eFlag := by
  obtain ⟨Tn0, hcr, hD0, ha0, he0⟩ :=
    createTable_WFD T.arraySize T.eFlag hT.sized.arr_ge hT.sized.arr_lt
  have hge := hT.hashWF.hc_ge
  obtain ⟨T', pi', x, h, hS', ha', he'⟩ :=
    pruneLoop_total pi window hT (T.highestCode + 1 - NUM_SPECIAL_CODES) NUM_SPECIAL_CODES
      Tn0 ⟨fun i => if i < T.arraySize then 0 else pi.lastSeen i, pi.counter⟩ ctu
      (by simp only [NUM_SPECIAL_CODES] at hge ⊢; omega) (Nat.le_refl _) hD0.hashWF hD0.sized
  have hp : stringTablePrune T pi window ctu = some (T', pi', x) := by
    unfold stringTablePrune
    simp only
    rw [hcr]
    exact h
  obtain ⟨hW', hC'⟩ := prune_keeps hp
  exact ⟨T', pi', x, hp, ⟨hW', hS', hC'⟩, by rw [ha', ha0], by rw [he', he0]⟩

/-- The loop of `encode` unfolds by one round. -/
theorem encodeLoop_step {window k : Nat} {T : stringTable} {pi : pruneInfo} {c nbits : Nat}
    {out : List (Nat × Nat)} {T' : stringTable} {pi' : pruneInfo} {c' nbits' : Nat}
    (h : EncStep window k T pi c nbits out T' pi' c' nbits') (rest : List Nat) :
    encodeLoop window (k :: rest) T pi c nbits
      = (encodeLoop window rest T' pi' c' nbits').map (fun o => out ++ o) := by
  cases h with
  | found e hs =>
    rw [encodeLoop_found rest pi nbits hs]
    simp
  | first T1 r nc out2 T2 pi2 c2 nbits2 hs hc ha hp =>
    rw [encodeLoop_first rest hs hc (escapeChar_eq pi nbits ha) hp]
  | elseFound T1 r x out2 T2 pi2 c2 nbits2 kCode hs hc ha hp hk =>
    rw [encodeLoop_else_found rest hs hc ha hp hk]
  | elseEscape T1 r x out2 T2 pi2 c2 nbits2 T3 r3 nc3 out4 T4 pi4 c4 nbits4 hs hc ha hp hk
      ha3 hp4 hoff =>
    rw [encodeLoop_else_escape rest hs hc ha hp hk
      (escapeChar_eq pi2 (checkNbits nbits2 T2).2 ha3) hp4 hoff]

/-- The two outcomes of `checkPrune`. -/
theorem checkPrune_cases {T : stringTable} {pi : pruneInfo} {window c nbits : Nat}
    {out : List (Nat × Nat)} {T' : stringTable} {pi' : pruneInfo} {c' nbits' : Nat}
    (h : checkPrune T pi window c nbits = some (out, T', pi', c', nbits')) :
    ((window = 0 ∨ stringTableIsFull T = false) ∧ out = [] ∧ T' = T ∧ pi' = pi ∧ c' = c ∧
      nbits' = nbits) ∨
    (window ≠ 0 ∧ stringTableIsFull T = true ∧ out = [(nbits, PRUNE_CODE)] ∧
      c' = EMPTY_PREFIX ∧ nbits' = nbitsFor T'.highestCode ∧
      ∃ x, stringTablePrune T pi window c = some (T', pi', x)) := by
  rcases fire_or_off window T with ⟨hw, hf⟩ | hoff
  · right
    cases hp : stringTablePrune T pi window c with
    | none =>
      unfold checkPrune at h
      have : (decide (window > 0) && stringTableIsFull T) = true := by
        rw [hf]; simp; omega
      rw [this, hp] at h
      simp at h
    | some res =>
      obtain ⟨T1, pi1, x⟩ := res
      rw [checkPrune_on pi c nbits hw hf hp] at h
      simp only [Option.some.injEq, Prod.mk.injEq] at h
      obtain ⟨h1, h2, h3, h4, h5⟩ := h
      subst h2; subst h3
      exact ⟨hw, hf, h1.symm, h4.symm, h5.symm, x, rfl⟩
  · left
    rw [checkPrune_off pi c nbits hoff] at h
    simp only [Option.some.injEq, Prod.mk.injEq] at h
    obtain ⟨h1, h2, h3, h4, h5⟩ := h
    exact ⟨hoff, h1.symm, h2.symm, h3.symm, h4.symm, h5.symm⟩

/-- The function `checkPrune` returns on a well-formed dictionary, with a well-formed
dictionary of the same capacity and flag. -/
theorem checkPrune_total {T : stringTable} (hT : WFD T) (pi : pruneInfo)
    (window c nbits : Nat) :
    ∃ out T' pi' c' nbits', checkPrune T pi window c nbits = some (out, T', pi', c', nbits') ∧
      WFD T' ∧ T'.arraySize = T.arraySize ∧ T'.eFlag = T.eFlag ∧
      ((c' = c ∧ T' = T) ∨ c' = EMPTY_PREFIX) := by
  rcases fire_or_off window T with ⟨hw, hf⟩ | hoff
  · obtain ⟨T2, pi2, x, hprune, hT2, harr, hefl⟩ := prune_WFD pi window c hT
    exact ⟨_, _, _, _, _, checkPrune_on pi c nbits hw hf hprune, hT2, harr, hefl,
      Or.inr rfl⟩
  · exact ⟨_, _, _, _, _, checkPrune_off pi c nbits hoff, hT, rfl, rfl, Or.inl ⟨rfl, rfl⟩⟩

/-- Every round of the encoder loop in a run that drops no rebuilt table returns, leaves
`table` pointing to a live table and keeps the invariant of its states. -/
theorem encStep_total {maxBits : Nat} {eFlag : Bool} (window k : Nat) (rest : List Nat)
    {T : stringTable} (pi : pruneInfo) {c : Nat} (nbits : Nat)
    (hI : EncInv maxBits eFlag T c)
    (hkeep : keepsTableLoop window (k :: rest) T pi c nbits = true) :
    ∃ out T' pi' c' nbits', EncStep window k T pi c nbits out T' pi' c' nbits' ∧
      EncInv maxBits eFlag T' c' ∧ keepsTableLoop window rest T' pi' c' nbits' = true := by
  obtain ⟨res, hs⟩ := search_total hI.wf.hashWF hI.wf.sized c k
  rw [keepsTableLoop, hs] at hkeep
  cases res with
  | some e =>
    obtain ⟨d, hd, _, hcode⟩ := search_some hI.wf.hashWF hs
    refine ⟨_, _, _, _, _, EncStep.found e hs, ⟨hI.wf, hI.arr, hI.efl, Or.inr ?_⟩, hkeep⟩
    rw [hcode]; exact hd.1
  | none =>
    by_cases hc : c = EMPTY_PREFIX
    · obtain ⟨⟨T1, r, nc⟩, ha⟩ := add_total hI.wf.hashWF hI.wf.sized EMPTY_PREFIX k
      have hT1 := add_WFD hI.wf (Or.inl rfl) ha
      obtain ⟨h1, h2, _⟩ := add_keeps hI.wf.hashWF ha
      obtain ⟨out2, T2, pi2, c2, nbits2, hp, hT2, h3, h4, h5⟩ :=
        checkPrune_total hT1 (pruneInfoSawCode pi nc) window c (checkNbits nbits T1).2
      have hce : (c == EMPTY_PREFIX) = true := by simp [hc]
      simp only [hce, if_true, escapeChar_eq pi nbits ha, hp] at hkeep
      refine ⟨_, _, _, _, _, EncStep.first T1 r nc out2 T2 pi2 c2 nbits2 hs hc ha hp,
        ⟨hT2, by rw [h3, h1, hI.arr], by rw [h4, h2, hI.efl], Or.inl ?_⟩, hkeep⟩
      rcases h5 with ⟨h5, _⟩ | h5
      · rw [h5, hc]
      · exact h5
    · have hv : validCode T c := by
        rcases hI.cval with h | h
        · exact absurd h hc
        · exact h
      obtain ⟨⟨T1, r, x⟩, ha⟩ := add_total hI.wf.hashWF hI.wf.sized c k
      have hT1 := add_WFD hI.wf (Or.inr hv) ha
      obtain ⟨h1, h2, _⟩ := add_keeps hI.wf.hashWF ha
      obtain ⟨out2, T2, pi2, c2, nbits2, hp, hT2, h3, h4, _⟩ :=
        checkPrune_total hT1 (pruneInfoSawCode pi c) window c nbits
      obtain ⟨res2, hk⟩ := search_total hT2.hashWF hT2.sized EMPTY_PREFIX k
      have hce : (c == EMPTY_PREFIX) = false := by simp [hc]
      simp only [hce, Bool.false_eq_true, if_false, ha, hp, hk] at hkeep
      cases res2 with
      | some kCode =>
        obtain ⟨d, hd, _, hcode⟩ := search_some hT2.hashWF hk
        refine ⟨_, _, _, _, _,
          EncStep.elseFound T1 r x out2 T2 pi2 c2 nbits2 kCode hs hc ha hp hk,
          ⟨hT2, by rw [h3, h1, hI.arr], by rw [h4, h2, hI.efl], Or.inr ?_⟩, hkeep⟩
        rw [hcode]; exact hd.1
      | none =>
        obtain ⟨⟨T3, r3, nc3⟩, ha3⟩ := add_total hT2.hashWF hT2.sized EMPTY_PREFIX k
        have hT3 := add_WFD hT2 (Or.inl rfl) ha3
        obtain ⟨h6, h7, _⟩ := add_keeps hT2.hashWF ha3
        simp only [escapeChar_eq pi2 (checkNbits nbits2 T2).2 ha3, Bool.and_eq_true,
          Bool.not_eq_true', Bool.and_eq_false_iff, decide_eq_false_iff_not] at hkeep
        have hoff : window = 0 ∨ stringTableIsFull T3 = false := by
          rcases hkeep.1 with h | h
          · exact Or.inl (by omega)
          · exact Or.inr h
        have hp4 := checkPrune_off (pruneInfoSawCode pi2 nc3) EMPTY_PREFIX
          (checkNbits (checkNbits nbits2 T2).2 T3).2 hoff
        exact ⟨_, _, _, _, _,
          EncStep.elseEscape T1 r x out2 T2 pi2 c2 nbits2 T3 r3 nc3 [] T3
            (pruneInfoSawCode pi2 nc3) EMPTY_PREFIX
            (checkNbits (checkNbits nbits2 T2).2 T3).2 hs hc ha hp hk ha3 hp4 hoff,
          ⟨hT3, by rw [h6, h3, h1, hI.arr], by rw [h7, h4, h2, hI.efl], Or.inl rfl⟩,
          hkeep.2⟩

/-- With `window = 0` no rebuilt table is dropped: `checkPrune` never prunes. -/
theorem keepsTableLoop_zero :
    ∀ (input : List Nat) (T : stringTable) (pi : pruneInfo) (c nbits : Nat),
      keepsTableLoop 0 input T pi c nbits = true := by
  intro input
  induction input with
  | nil => intro T pi c nbits; rfl
  | cons k rest ih =>
    intro T pi c nbits
    rw [keepsTableLoop]
    split
    · rfl
    · exact ih _ _ _ _
    · split
      · split
        · rfl
        · split
          · rfl
          · exact ih _ _ _ _
      · split
        · rfl
        · split
          · rfl
          · split
            · rfl
            · exact ih _ _ _ _
            · split
              · rfl
              · simp [ih]

set_option maxRecDepth 1000000 in
/-- The run of `runC` with `maxBits = 9`, `window = 1`: the round for the first `254`, from
the state after the 507 bytes before it. The fields written, then `highestCode` of `table`,
`c` and `nbits` after the round, and whether `table` is left pointing to a freed table. -/
theorem runC_eval :
    ((stringTableNew 9 true).bind fun T0 =>
      (encodeVars 1 (runC.take 507) T0 (pruneInfoNew 9) EMPTY_PREFIX 2).bind fun s =>
        (encodeRound 1 254 s.1 s.2.1 s.2.2.1 s.2.2.2).map fun r =>
          (r.1, r.2.1.highestCode, r.2.2.2.1, r.2.2.2.2.1, r.2.2.2.2.2))
      = some ([(9, 509), (9, ESCAPE_CODE), (8, 254), (9, PRUNE_CODE)], 511, EMPTY_PREFIX, 2,
          true) := by
  decide!

set_option maxRecDepth 1000000 in
/-- The run of `runC` with `maxBits = 9`, `window = 1` has no defined result. -/
theorem runC_none : encodeBody 9 1 true runC = none := by
  decide!

/-- The round for the first `254` of `runC`, with its states. -/
theorem runC_round :
    ∃ T0 T pi c nbits out T' pi' c' nbits',
      stringTableNew 9 true = some T0 ∧
      encodeVars 1 (runC.take 507) T0 (pruneInfoNew 9) EMPTY_PREFIX 2
        = some (T, pi, c, nbits) ∧
      encodeRound 1 254 T pi c nbits = some (out, T', pi', c', nbits', true) ∧
      out = [(9, 509), (9, ESCAPE_CODE), (8, 254), (9, PRUNE_CODE)] ∧
      T'.highestCode = 511 ∧ c' = EMPTY_PREFIX ∧ nbits' = 2 := by
  obtain ⟨T0, h0, h1⟩ := Option.bind_eq_some.mp runC_eval
  obtain ⟨⟨T, pi, c, nbits⟩, h2, h3⟩ := Option.bind_eq_some.mp h1
  obtain ⟨⟨out, T', pi', c', nbits', fr⟩, h4, h5⟩ := Option.map_eq_some'.mp h3
  simp only [Prod.mk.injEq] at h5
  obtain ⟨e1, e2, e3, e4, e5⟩ := h5
  subst e5
  exact ⟨T0, T, pi, c, nbits, out, T', pi', c', nbits', h0, h2, h4, e1, e2, e3, e4⟩

set_option maxRecDepth 1000000 in
/-- The end of the run of `runD` with `maxBits = 9`, `window = 510`. -/
theorem runD_eval :
    (encodeBody 9 510 true runD).map (fun b => b.drop (b.length - 8))
      = some [(9, 4), (9, PRUNE_CODE), (2, ESCAPE_CODE), (8, 254), (2, GROW_NBITS_CODE),
          (3, ESCAPE_CODE), (8, 0), (3, STOP_CODE)] := by
  decide!

set_option maxRecDepth 1000000 in
/-- The run of `runE` with `maxBits = 8`, `window = 1`: the widths after each
`GROW_NBITS_CODE` and the number of times the byte `0` is escaped. -/
theorem runE_eval :
    (encodeBody 8 1 true runE).map
        (fun b => (afterGrows false 0 (codeFields false b), (rawBytes false b).count 0))
      = some ([(1, 3), (2, 4), (3, 5), (4, 6), (5, 7), (6, 8), (7, 3)], 2) := by
  decide!

theorem drop_eq_split {α : Type} {l t : List α} {n : Nat} (h : l.drop n = t) :
    ∃ pre, l = pre ++ t :=
  ⟨l.take n, by rw [← h, List.take_append_drop]⟩

/-- C18: the encoder loses the width invariant. On the 509 bytes `runC`, which end with
`254, 254`, with `maxBits = 9`, `window = 1` and escape, the round for the first `254`
ends with `nbits = 2` while `table` points to a table with `highestCode = 511`, which
`stringTablePrune` has freed: the `checkPrune` of line 154 has set `nbits` from the rebuilt
dictionary, and the source has not stored that dictionary. The codes of the table that
`table` points to do not fit the width, and the run has no defined result. -/
theorem width_invariant_broken :
    runC = runC.take 507 ++ [254, 254] ∧
    (∃ T0 T pi c nbits out T' pi' c' nbits',
      stringTableNew 9 true = some T0 ∧
      encodeVars 1 (runC.take 507) T0 (pruneInfoNew 9) EMPTY_PREFIX 2
        = some (T, pi, c, nbits) ∧
      encodeRound 1 254 T pi c nbits = some (out, T', pi', c', nbits', true) ∧
      nbits' = 2 ∧ T'.highestCode = 511 ∧ ¬ T'.highestCode < 2 ^ nbits') ∧
    encode 9 1 true runC = none := by
  refine ⟨by decide!, ?_, ?_⟩
  · obtain ⟨T0, T, pi, c, nbits, out, T', pi', c', nbits', h0, h1, h2, _, h4, _, h6⟩ :=
      runC_round
    refine ⟨T0, T, pi, c, nbits, out, T', pi', c', nbits', h0, h1, h2, h6, h4, ?_⟩
    rw [h4, h6]
    decide
  · have h := runC_none
    unfold encodeBody at h
    unfold encode
    cases hf : encodeFields 9 1 true runC with
    | none => rfl
    | some f => rw [hf] at h; simp at h

/-- C19: after the `checkPrune` of line 154 the encoder does not go on with the rebuilt
dictionary. On the 509 bytes `runC`, which end with `254, 254`, with `maxBits = 9`,
`window = 1` and escape, the round for the first `254` writes its escape and
`PRUNE_CODE`, empties `c` and sets `nbits = 2`, the width of a rebuilt dictionary without
entries (`highestCode = 3`), but leaves `table` pointing to the table of before the prune
(`highestCode = 511`), which `stringTablePrune` has freed; the lookup for the second `254`
reads that table, and the run has no defined result. -/
theorem encoder_keeps_old_table :
    runC.drop 507 = [254, 254] ∧ nbitsFor 3 = 2 ∧ nbitsFor 511 = 9 ∧
    (∃ T0 T pi c nbits pre T' pi' nbits',
      stringTableNew 9 true = some T0 ∧
      encodeVars 1 (runC.take 507) T0 (pruneInfoNew 9) EMPTY_PREFIX 2
        = some (T, pi, c, nbits) ∧
      encodeRound 1 254 T pi c nbits
        = some (pre ++ [(9, ESCAPE_CODE), (8, 254), (9, PRUNE_CODE)], T', pi', EMPTY_PREFIX,
            nbits', true) ∧
      nbits' = 2 ∧ T'.highestCode = 511) ∧
    encodeBody 9 1 true runC = none := by
  refine ⟨by decide!, by decide, by decide, ?_, runC_none⟩
  obtain ⟨T0, T, pi, c, nbits, out, T', pi', c', nbits', h0, h1, h2, h3, h4, h5, h6⟩ :=
    runC_round
  subst h3; subst h5
  exact ⟨T0, T, pi, c, nbits, [(9, 509)], T', pi', nbits', h0, h1, h2, h6, h4⟩

/-- C20: the unsigned comparison drops every entry when the window exceeds the counter. On
the 510 bytes `runD` with `maxBits = 9`, `window = 510` and escape, the dictionary is
pruned after 508 observations, with the counter at 509: the test
`lastSeen > counter - window` is false for an entry seen at 508, though `508 > 509 - 510`
over the integers (and true with `window = 509`); the body goes on at width 2, from a
rebuilt dictionary without entries, and escapes the byte `0` once more. -/
theorem prune_window_wraps :
    retained ⟨fun _ => 508, 509⟩ 510 4 = false ∧ (508 : Int) > 509 - 510 ∧
    retained ⟨fun _ => 508, 509⟩ 509 4 = true ∧
    ∃ pre, encodeBody 9 510 true runD
      = some (pre ++ [(9, 4), (9, PRUNE_CODE), (2, ESCAPE_CODE), (8, 254),
          (2, GROW_NBITS_CODE), (3, ESCAPE_CODE), (8, 0), (3, STOP_CODE)]) := by
  refine ⟨by decide, by decide, by decide, ?_⟩
  obtain ⟨body, hb, hd⟩ := Option.map_eq_some'.mp runD_eval
  obtain ⟨pre, hpre⟩ := drop_eq_split hd
  exact ⟨pre, by rw [hb, hpre]⟩

/-- C14 fails as stated: on the 254 bytes `0, 1, …, 252, 0` with `maxBits = 8`,
`window = 1` and escape, the byte `0` is escaped twice, at its first occurrence and, after
the prune, at its second one: the raw bytes of the body are not the first occurrences of
the input. -/
theorem escape_twice_counterexample :
    ∃ body, encodeBody 8 1 true runE = some body ∧ (rawBytes false body).count 0 = 2 ∧
      rawBytes false body ≠ firstOccs [] runE := by
  obtain ⟨body, hb, hd⟩ := Option.map_eq_some'.mp runE_eval
  have hc : (rawBytes false body).count 0 = 2 := congrArg Prod.snd hd
  refine ⟨body, hb, hc, ?_⟩
  intro h
  rw [h] at hc
  have h1 : (firstOccs [] runE).count 0 = 1 := by decide!
  omega

/-- C15 fails as stated: on the 254 bytes `0, 1, …, 252, 0` with `maxBits = 8`,
`window = 1` and escape, the code after the seventh `GROW_NBITS_CODE` is 3 bits wide, not
`2 + 7`: the prune before it has reset the width to 2. -/
theorem grow_width_counterexample :
    ∃ body, encodeBody 8 1 true runE = some body ∧
      ¬ ∀ p ∈ afterGrows false 0 (codeFields false body), p.2 = 2 + p.1 := by
  obtain ⟨body, hb, hd⟩ := Option.map_eq_some'.mp runE_eval
  have hg : afterGrows false 0 (codeFields false body)
      = [(1, 3), (2, 4), (3, 5), (4, 6), (5, 7), (6, 8), (7, 3)] := congrArg Prod.fst hd
  refine ⟨body, hb, ?_⟩
  intro h
  have := h (7, 3) (by rw [hg]; decide)
  simp at this

theorem encodeBody_eq {maxBits : Nat} {eFlag : Bool} {T0 : stringTable}
    (h : stringTableNew maxBits eFlag = some T0) (window : Nat) (input : List Nat) :
    encodeBody maxBits window eFlag input
      = encodeLoop window input T0 (pruneInfoNew maxBits) EMPTY_PREFIX
          (if eFlag then 2 else 9) := by
  unfold encodeBody encodeFields
  rw [h]
  simp only
  cases encodeLoop window input T0 (pruneInfoNew maxBits) EMPTY_PREFIX
      (if eFlag then 2 else 9) with
  | none => rfl
  | some o => rfl

theorem encodeLoop_nil (window : Nat) (T : stringTable) (pi : pruneInfo) (c nbits : Nat) :
    encodeLoop window [] T pi c nbits
      = some ((if c != EMPTY_PREFIX then [(nbits, c)] else []) ++ [(nbits, STOP_CODE)]) := by
  rw [encodeLoop]

theorem checkNbits_cases (nbits : Nat) (T : stringTable) :
    checkNbits nbits T = ([], nbits) ∨
      checkNbits nbits T = ([(nbits, GROW_NBITS_CODE)], nbits + 1) := by
  unfold checkNbits
  split
  · exact Or.inr rfl
  · exact Or.inl rfl

theorem widthLaw_code {w v : Nat} {l : List (Nat × Nat)} (h0 : v ≠ ESCAPE_CODE)
    (h1 : v ≠ GROW_NBITS_CODE) (h : widthLaw w (codeFields false l) = true) :
    widthLaw w (codeFields false ((w, v) :: l)) = true := by
  have e0 : (v == ESCAPE_CODE) = false := by simpa using h0
  have e1 : (v == GROW_NBITS_CODE) = false := by simpa using h1
  simp only [codeFields, widthLaw, e0, e1, beq_self_eq_true, Bool.true_and,
    Bool.false_eq_true, if_false, h, Bool.or_true]

theorem widthLaw_escape {w k : Nat} {l : List (Nat × Nat)}
    (h : widthLaw w (codeFields false l) = true) :
    widthLaw w (codeFields false ((w, ESCAPE_CODE) :: (8, k) :: l)) = true := by
  simp [codeFields, widthLaw, ESCAPE_CODE, PRUNE_CODE, GROW_NBITS_CODE, h]

theorem widthLaw_grow {w : Nat} (T : stringTable) {l : List (Nat × Nat)}
    (h : widthLaw (checkNbits w T).2 (codeFields false l) = true) :
    widthLaw w (codeFields false ((checkNbits w T).1 ++ l)) = true := by
  rcases checkNbits_cases w T with hg | hg
  · rw [hg] at h ⊢
    exact h
  · rw [hg] at h ⊢
    simp [codeFields, widthLaw, ESCAPE_CODE, PRUNE_CODE, GROW_NBITS_CODE]
    exact h

theorem widthLaw_prune {T : stringTable} {pi : pruneInfo} {window c w : Nat}
    {out : List (Nat × Nat)} {T' : stringTable} {pi' : pruneInfo} {c' w' : Nat}
    (hp : checkPrune T pi window c w = some (out, T', pi', c', w')) {l : List (Nat × Nat)}
    (h : widthLaw w' (codeFields false l) = true) :
    widthLaw w (codeFields false (out ++ l)) = true := by
  rcases checkPrune_cases hp with ⟨_, h1, _, _, _, h2⟩ | ⟨_, _, h1, _, _, _⟩
  · rw [h1, ← h2]
    exact h
  · rw [h1]
    simp [codeFields, widthLaw, ESCAPE_CODE, PRUNE_CODE]

theorem valid_not_special {T : stringTable} {c : Nat} (h : validCode T c) :
    c ≠ ESCAPE_CODE ∧ c ≠ GROW_NBITS_CODE ∧ c ≠ PRUNE_CODE ∧ c ≠ STOP_CODE := by
  have := h.1
  simp only [NUM_SPECIAL_CODES] at this
  simp only [ESCAPE_CODE, GROW_NBITS_CODE, PRUNE_CODE, STOP_CODE]
  omega

/-- In a run that drops no rebuilt table the loop of `encode` returns, and the codes it
writes obey the width law up to the first `PRUNE_CODE`. -/
theorem encodeLoop_widthLaw {maxBits : Nat} {eFlag : Bool} (window : Nat) :
    ∀ (input : List Nat) (T : stringTable) (pi : pruneInfo) (c nbits : Nat),
      EncInv maxBits eFlag T c → keepsTableLoop window input T pi c nbits = true →
      ∃ o, encodeLoop window input T pi c nbits = some o ∧
        widthLaw nbits (codeFields false o) = true := by
  intro input
  induction input with
  | nil =>
    intro T pi c nbits hI _
    refine ⟨_, encodeLoop_nil window T pi c nbits, ?_⟩
    have hstop : widthLaw nbits (codeFields false [(nbits, STOP_CODE)]) = true := by
      simp [codeFields, widthLaw, ESCAPE_CODE, STOP_CODE]
    by_cases hc : c = EMPTY_PREFIX
    · have : (c != EMPTY_PREFIX) = false := by simp [hc]
      rw [this]
      exact hstop
    · have : (c != EMPTY_PREFIX) = true := by simpa using hc
      rw [this]
      have hv : validCode T c := by
        rcases hI.cval with h | h
        · exact absurd h hc
        · exact h
      exact widthLaw_code (valid_not_special hv).1 (valid_not_special hv).2.1 hstop
  | cons k rest ih =>
    intro T pi c nbits hI hkeep
    obtain ⟨out, T', pi', c', nbits', hstep, hI', hkeep'⟩ :=
      encStep_total window k rest pi nbits hI hkeep
    obtain ⟨o, ho, hw⟩ := ih T' pi' c' nbits' hI' hkeep'
    refine ⟨out ++ o, by rw [encodeLoop_step hstep, ho]; rfl, ?_⟩
    cases hstep with
    | found e hs => exact hw
    | first T1 r nc out2 T2 pi2 c2 nbits2 hs hc ha hp =>
      simp only [List.append_assoc, List.cons_append, List.nil_append]
      exact widthLaw_escape (widthLaw_grow T1 (widthLaw_prune hp hw))
    | elseFound T1 r x out2 T2 pi2 c2 nbits2 kCode hs hc ha hp hk =>
      have hv : validCode T c := by
        rcases hI.cval with h | h
        · exact absurd h hc
        · exact h
      simp only [List.append_assoc, List.cons_append, List.nil_append]
      exact widthLaw_code (valid_not_special hv).1 (valid_not_special hv).2.1
        (widthLaw_prune hp (widthLaw_grow T' hw))
    | elseEscape T1 r x out2 T2 pi2 c2 nbits2 T3 r3 nc3 out4 T4 pi4 c4 nbits4 hs hc ha hp hk
        ha3 hp4 =>
      have hv : validCode T c := by
        rcases hI.cval with h | h
        · exact absurd h hc
        · exact h
      simp only [List.append_assoc, List.cons_append, List.nil_append]
      exact widthLaw_code (valid_not_special hv).1 (valid_not_special hv).2.1
        (widthLaw_prune hp (widthLaw_grow T2 (widthLaw_escape
          (widthLaw_grow T' (widthLaw_prune hp4 hw)))))

/-- Under the width law, the code after the `n`-th `GROW_NBITS_CODE` before the first
`PRUNE_CODE` is `init + n` bits wide. -/
theorem widthLaw_afterGrows (init : Nat) :
    ∀ (l : List (Nat × Nat)) (w n : Nat) (b : Bool), widthLaw w l = true → w = init + n →
      ∀ p ∈ afterGrows b n (untilPrune l), p.2 = init + p.1 := by
  intro l
  induction l with
  | nil =>
    intro w n b _ _ p hp
    simp [untilPrune, afterGrows] at hp
  | cons f rest ih =>
    intro w n b hw hn p hp
    rw [widthLaw] at hw
    simp only [Bool.and_eq_true, beq_iff_eq, Bool.or_eq_true] at hw
    obtain ⟨hf, hrest⟩ := hw
    have hhead : ∀ q ∈ (if b = true then [(n, f.1)] else []), q.2 = init + q.1 := by
      intro q hq
      cases b with
      | false => simp at hq
      | true =>
        simp only [if_true, List.mem_singleton] at hq
        rw [hq]
        show f.1 = init + n
        rw [hf, hn]
    by_cases hpr : f.2 = PRUNE_CODE
    · have hu : untilPrune (f :: rest) = [f] := by
        rw [untilPrune]
        simp [hpr]
      rw [hu] at hp
      simp only [afterGrows, List.append_nil] at hp
      exact hhead p hp
    · have hu : untilPrune (f :: rest) = f :: untilPrune rest := by
        rw [untilPrune]
        simp [hpr]
      rw [hu, afterGrows, List.mem_append] at hp
      rcases hp with hp | hp
      · exact hhead p hp
      · have hw' : widthLaw (if f.2 = GROW_NBITS_CODE then w + 1 else w) rest
            = true := by
          rcases hrest with h | h
          · exact absurd h hpr
          · exact h
        refine ih _ _ _ hw' ?_ p hp
        by_cases hg : f.2 = GROW_NBITS_CODE
        · simp only [hg, beq_self_eq_true, if_true]
          omega
        · have : (f.2 == GROW_NBITS_CODE) = false := by simpa using hg
          simp only [this, hg, Bool.false_eq_true, if_false]
          exact hn

/-- The initial state of the encoder satisfies the invariant of its states. -/
theorem new_EncInv (maxBits : Nat) (eFlag : Bool) (h8 : 8 ≤ maxBits) (h24 : maxBits ≤ 24) :
    ∃ T0, stringTableNew maxBits eFlag = some T0 ∧ EncInv maxBits eFlag T0 EMPTY_PREFIX := by
  have hsh := shift_eq maxBits (by omega)
  have hlo : 2 ^ 8 ≤ 2 ^ maxBits := Nat.pow_le_pow_right (by norm_num) h8
  have hhi : 2 ^ maxBits ≤ 2 ^ 24 := Nat.pow_le_pow_right (by norm_num) h24
  norm_num at hlo hhi
  obtain ⟨T0, h0, hD, harr, hef⟩ := createTable_WFD (2 ^ maxBits) eFlag
    (by simp only [NUM_SPECIAL_CODES]; omega) (by omega)
  refine ⟨T0, ?_, hD, harr, hef, Or.inl rfl⟩
  unfold stringTableNew
  rw [hsh]
  exact h0

/-- The runs of `encode` that drop no rebuilt table, in terms of the loop. -/
theorem keepsTable_loop {maxBits window : Nat} {eFlag : Bool} {input : List Nat}
    {T0 : stringTable} (hnew : stringTableNew maxBits eFlag = some T0)
    (h : keepsTable maxBits window eFlag input = true) :
    keepsTableLoop window input T0 (pruneInfoNew maxBits) EMPTY_PREFIX
      (if eFlag then 2 else 9) = true := by
  unfold keepsTable at h
  rw [hnew] at h
  exact h

/-- C15, as amended (width-growth law up to the first prune): for every `maxBits` in
`[8, 24]`, every window, either flag and every input on which the `checkPrune` call whose
returned table the source does not store (line 154) never prunes, `encode` returns and,
among the codes of its body up to the first `PRUNE_CODE`, the code that follows the `n`-th
`GROW_NBITS_CODE` is exactly `nbits_initial + n` bits wide, where `nbits_initial` is 2 with
escape and 9 without. -/
theorem grow_width (B : List Nat) (maxBits window : Nat) (eFlag : Bool) (h8 : 8 ≤ maxBits)
    (h24 : maxBits ≤ 24) (hkeep : keepsTable maxBits window eFlag B = true) :
    ∃ body, encodeBody maxBits window eFlag B = some body ∧
      ∀ p ∈ afterGrows false 0 (untilPrune (codeFields false body)),
        p.2 = (if eFlag then 2 else 9) + p.1 := by
  obtain ⟨T0, hnew, hI⟩ := new_EncInv maxBits eFlag h8 h24
  obtain ⟨o, ho, hw⟩ := encodeLoop_widthLaw window B T0 (pruneInfoNew maxBits) EMPTY_PREFIX
    (if eFlag then 2 else 9) hI (keepsTable_loop hnew hkeep)
  refine ⟨o, by rw [encodeBody_eq hnew, ho], ?_⟩
  exact widthLaw_afterGrows _ _ _ 0 false hw rfl

theorem grow_width_witness :
    (8 ≤ 9 ∧ 9 ≤ 24 ∧ keepsTable 9 64 true [65, 66, 65, 66, 65] = true) ∧
    ∃ body, encodeBody 9 64 true [65, 66, 65, 66, 65] = some body ∧
      ∀ p ∈ afterGrows false 0 (untilPrune (codeFields false body)),
        p.2 = (if true = true then 2 else 9) + p.1 :=
  ⟨⟨by decide, by decide, rfl⟩,
    grow_width [65, 66, 65, 66, 65] 9 64 true (by decide) (by decide) rfl⟩

/-- At the width `maxBits` the function `checkNbits` does nothing: `highestCode` stays
below the capacity `2 ^ maxBits`. -/
theorem checkNbits_max {maxBits : Nat} {T : stringTable} (hS : Sized T)
    (harr : T.arraySize = 2 ^ maxBits) : checkNbits maxBits T = ([], maxBits) := by
  unfold checkNbits
  rw [shiftLeft_one]
  have h := hS.hc_lt
  rw [harr] at h
  rw [if_neg (by omega)]

theorem growCount_code {w v : Nat} (l : List (Nat × Nat)) (h0 : v ≠ ESCAPE_CODE)
    (h1 : v ≠ GROW_NBITS_CODE) : growCount ((w, v) :: l) = growCount l := by
  have e0 : (v == ESCAPE_CODE) = false := by simpa using h0
  have e1 : (v == GROW_NBITS_CODE) = false := by simpa using h1
  simp [growCount, codeFields, e0, e1]

theorem growCount_escape (w k : Nat) (l : List (Nat × Nat)) :
    growCount ((w, ESCAPE_CODE) :: (8, k) :: l) = growCount l := by
  simp [growCount, codeFields, ESCAPE_CODE, GROW_NBITS_CODE]

/-- Without pruning, a round of the encoder loop at the width `maxBits` keeps the width
and writes no `GROW_NBITS_CODE`. -/
theorem encStep_no_grow {maxBits : Nat} {eFlag : Bool} {k : Nat} {T : stringTable}
    {pi : pruneInfo} {c : Nat} {out : List (Nat × Nat)} {T' : stringTable} {pi' : pruneInfo}
    {c' nbits' : Nat} (hI : EncInv maxBits eFlag T c)
    (h : EncStep 0 k T pi c maxBits out T' pi' c' nbits') :
    nbits' = maxBits ∧ ∀ o, growCount (out ++ o) = growCount o := by
  have hoff : ∀ {Ta : stringTable} {pa : pruneInfo} {ca na : Nat} {oa : List (Nat × Nat)}
      {Tb : stringTable} {pb : pruneInfo} {cb nb : Nat},
      checkPrune Ta pa 0 ca na = some (oa, Tb, pb, cb, nb) →
      oa = [] ∧ Tb = Ta ∧ nb = na := by
    intro Ta pa ca na oa Tb pb cb nb h
    rcases checkPrune_cases h with ⟨_, h1, h2, _, _, h3⟩ | ⟨h1, _⟩
    · exact ⟨h1, h2, h3⟩
    · exact absurd rfl h1
  cases h with
  | found e hs => exact ⟨rfl, fun o => rfl⟩
  | first T1 r nc out2 T2 pi2 c2 nbits2 hs hc ha hp =>
    have hT1 := add_WFD hI.wf (Or.inl rfl) ha
    obtain ⟨h1, _⟩ := add_keeps hI.wf.hashWF ha
    have hg1 := checkNbits_max hT1.sized (h1.trans hI.arr)
    obtain ⟨e1, _, e3⟩ := hoff hp
    rw [e1, e3, hg1]
    refine ⟨rfl, fun o => ?_⟩
    simp only [List.append_nil, List.cons_append, List.nil_append]
    exact growCount_escape _ _ _
  | elseFound T1 r x out2 T2 pi2 c2 nbits2 kCode hs hc ha hp hk =>
    have hv : validCode T c := by
      rcases hI.cval with h | h
      · exact absurd h hc
      · exact h
    have hT1 := add_WFD hI.wf (Or.inr hv) ha
    obtain ⟨h1, _⟩ := add_keeps hI.wf.hashWF ha
    have hg1 := checkNbits_max hT1.sized (h1.trans hI.arr)
    obtain ⟨e1, e2, e3⟩ := hoff hp
    rw [e1, e3, e2, hg1]
    refine ⟨rfl, fun o => ?_⟩
    simp only [List.append_nil, List.cons_append, List.nil_append]
    exact growCount_code _ (valid_not_special hv).1 (valid_not_special hv).2.1
  | elseEscape T1 r x out2 T2 pi2 c2 nbits2 T3 r3 nc3 out4 T4 pi4 c4 nbits4 hs hc ha hp hk
      ha3 hp4 =>
    have hv : validCode T c := by
      rcases hI.cval with h | h
      · exact absurd h hc
      · exact h
    have hT1 := add_WFD hI.wf (Or.inr hv) ha
    obtain ⟨h1, _⟩ := add_keeps hI.wf.hashWF ha
    have hg1 := checkNbits_max hT1.sized (h1.trans hI.arr)
    obtain ⟨e1, e2, e3⟩ := hoff hp
    rw [e2] at ha3
    have hT3 := add_WFD hT1 (Or.inl rfl) ha3
    obtain ⟨h3, _⟩ := add_keeps hT1.hashWF ha3
    have hg3 := checkNbits_max hT3.sized (h3.trans (h1.trans hI.arr))
    rw [e3, e2, hg1, hg3] at hp4
    obtain ⟨e4, _, e6⟩ := hoff hp4
    rw [e1, e3, e2, hg1, hg3, e4, e6]
    refine ⟨rfl, fun o => ?_⟩
    simp only [List.append_nil, List.cons_append, List.nil_append]
    rw [growCount_code _ (valid_not_special hv).1 (valid_not_special hv).2.1,
      growCount_escape]

/-- Without pruning, a run of the encoder loop that starts at the width `maxBits` writes no
`GROW_NBITS_CODE`. -/
theorem encodeLoop_no_grow {maxBits : Nat} {eFlag : Bool} :
    ∀ (input : List Nat) (T : stringTable) (pi : pruneInfo) (c : Nat),
      EncInv maxBits eFlag T c →
      ∃ o, encodeLoop 0 input T pi c maxBits = some o ∧ growCount o = 0 := by
  intro input
  induction input with
  | nil =>
    intro T pi c hI
    refine ⟨_, encodeLoop_nil 0 T pi c maxBits, ?_⟩
    have hstop : growCount [(maxBits, STOP_CODE)] = 0 := by
      simp [growCount, codeFields, STOP_CODE, GROW_NBITS_CODE]
    by_cases hc : c = EMPTY_PREFIX
    · have : (c != EMPTY_PREFIX) = false := by simp [hc]
      rw [this]
      exact hstop
    · have : (c != EMPTY_PREFIX) = true := by simpa using hc
      rw [this]
      have hv : validCode T c := by
        rcases hI.cval with h | h
        · exact absurd h hc
        · exact h
      simp only [if_true, List.singleton_append]
      rw [growCount_code _ (valid_not_special hv).1 (valid_not_special hv).2.1]
      exact hstop
  | cons k rest ih =>
    intro T pi c hI
    obtain ⟨out, T', pi', c', nbits', hstep, hI', _⟩ :=
      encStep_total 0 k rest pi maxBits hI (keepsTableLoop_zero _ _ _ _ _)
    obtain ⟨hn, hgc⟩ := encStep_no_grow hI hstep
    subst hn
    obtain ⟨o, ho, hg⟩ := ih T' pi' c' hI'
    exact ⟨out ++ o, by rw [encodeLoop_step hstep, ho]; rfl, by rw [hgc]; exact hg⟩

/-- With `maxBits = 9`, no window and no escape, `encode` writes no `GROW_NBITS_CODE`. -/
theorem no_grow_nine (B : List Nat) : (encodeBody 9 0 false B).map growCount = some 0 := by
  obtain ⟨T0, hnew, hI⟩ := new_EncInv 9 false (by decide) (by decide)
  obtain ⟨o, ho, hg⟩ := encodeLoop_no_grow B T0 (pruneInfoNew 9) EMPTY_PREFIX hI
  rw [encodeBody_eq hnew]
  simp only [Bool.false_eq_true, if_false]
  rw [ho]
  simp [hg]

/-- C17 fails as stated: encoding the 257 bytes `0, 1, …, 255, 0` with `maxBits = 9`,
`window = 0`, escape off does not write exactly one `GROW_NBITS_CODE`. -/
theorem grow_scenario_counterexample :
    (List.range 256 ++ [0]).length = 257 ∧
    (encodeBody 9 0 false (List.range 256 ++ [0])).map growCount ≠ some 1 := by
  refine ⟨by simp, ?_⟩
  rw [no_grow_nine]
  decide

/-- C17, as amended: encoding the 257 bytes `0, 1, …, 255, 0` with `maxBits = 9`,
`window = 0`, escape off writes no `GROW_NBITS_CODE`: the width starts at `9 = maxBits` and
`highestCode` never exceeds `2 ^ 9 - 1`. -/
theorem grow_scenario :
    (List.range 256 ++ [0]).length = 257 ∧
    (encodeBody 9 0 false (List.range 256 ++ [0])).map growCount = some 0 :=
  ⟨by simp, no_grow_nine _⟩

theorem holds_inserted_iff {T : stringTable} (hge : NUM_SPECIAL_CODES - 1 ≤ T.highestCode)
    (p k hi d p' k' : Nat) :
    holds (inserted T p k hi) d p' k' ↔
      holds T d p' k' ∨ (d = T.highestCode + 1 ∧ p' = p ∧ k' = k) := by
  constructor
  · rintro ⟨hv, hp, hk⟩
    rcases inserted_valid hv with h | h
    · rw [inserted_array_old p k hi h] at hp hk
      exact Or.inl ⟨h, hp, hk⟩
    · rw [h, inserted_array_new] at hp hk
      exact Or.inr ⟨h, hp.symm, hk.symm⟩
  · rintro (⟨hv, hp, hk⟩ | ⟨hd, hp, hk⟩)
    · refine ⟨valid_inserted p k hi hv, ?_, ?_⟩
      · rw [inserted_array_old p k hi hv]; exact hp
      · rw [inserted_array_old p k hi hv]; exact hk
    · rw [hd, hp, hk]
      refine ⟨valid_inserted_new hge p k hi, ?_, ?_⟩
      · rw [inserted_array_new]
      · rw [inserted_array_new]

/-- An insertion of a new pair into a table with room appends the entry. -/
theorem add_inserts {T : stringTable} {p k : Nat}
    (hs : stringTableHashSearch T p k = some none) (hf : stringTableIsFull T = false)
    {T1 : stringTable} {r : Bool} {x : Nat} (ha : stringTableAdd T p k = some (T1, r, x)) :
    ∃ hi, T1 = inserted T p k hi := by
  rcases stringTableAdd_cases ha with ⟨e, h, _⟩ | ⟨_, h, _⟩ | ⟨_, _, hi, _, hT', _⟩
  · rw [hs] at h
    simp at h
  · rw [hf] at h
    simp at h
  · exact ⟨hi, hT'⟩

theorem not_full_of_room {T : stringTable} (hS : Sized T)
    (h : T.highestCode + 2 ≤ T.arraySize) : stringTableIsFull T = false := by
  cases hf : stringTableIsFull T with
  | false => rfl
  | true =>
    have := (isFull_iff hS).mp hf
    omega

theorem EscInv.insert_single {T : stringTable} {seen : List Nat} (hJ : EscInv T seen)
    (hge : NUM_SPECIAL_CODES - 1 ≤ T.highestCode) (k hi : Nat) :
    EscInv (inserted T EMPTY_PREFIX k hi) (k :: seen) := by
  constructor
  · intro k'
    constructor
    · rintro ⟨d, hd⟩
      rcases (holds_inserted_iff hge _ _ _ _ _ _).mp hd with h | ⟨_, _, h⟩
      · exact List.mem_cons_of_mem _ ((hJ.single k').mp ⟨d, h⟩)
      · rw [h]; exact List.mem_cons_self _ _
    · intro hk'
      rcases List.mem_cons.mp hk' with h | h
      · exact ⟨_, (holds_inserted_iff hge _ _ _ _ _ _).mpr (Or.inr ⟨rfl, rfl, h⟩)⟩
      · obtain ⟨d, hd⟩ := (hJ.single k').mpr h
        exact ⟨d, (holds_inserted_iff hge _ _ _ _ _ _).mpr (Or.inl hd)⟩
  · intro d hd
    rcases inserted_valid hd with h | h
    · rw [inserted_array_old _ _ _ h]
      exact List.mem_cons_of_mem _ (hJ.bytes d h)
    · rw [h, inserted_array_new]
      exact List.mem_cons_self _ _

/-- Inserting a pair with a prefix keeps the single-byte entries; the new entry ends with
`k`. -/
theorem EscInv.insert_pair {T : stringTable} {seen : List Nat} (hJ : EscInv T seen)
    (hge : NUM_SPECIAL_CODES - 1 ≤ T.highestCode) {p : Nat} (hp : p ≠ EMPTY_PREFIX)
    (k hi : Nat) :
    (∀ k', (∃ d, holds (inserted T p k hi) d EMPTY_PREFIX k') ↔ k' ∈ seen) ∧
    ∀ d, validCode (inserted T p k hi) d →
      ((inserted T p k hi).array d).k ∈ seen ∨ ((inserted T p k hi).array d).k = k := by
  constructor
  · intro k'
    constructor
    · rintro ⟨d, hd⟩
      rcases (holds_inserted_iff hge _ _ _ _ _ _).mp hd with h | ⟨_, h, _⟩
      · exact (hJ.single k').mp ⟨d, h⟩
      · exact absurd h.symm hp
    · intro hk'
      obtain ⟨d, hd⟩ := (hJ.single k').mpr hk'
      exact ⟨d, (holds_inserted_iff hge _ _ _ _ _ _).mpr (Or.inl hd)⟩
  · intro d hd
    rcases inserted_valid hd with h | h
    · rw [inserted_array_old _ _ _ h]
      exact Or.inl (hJ.bytes d h)
    · rw [h, inserted_array_new]
      exact Or.inr rfl

theorem rawBytes_code {w v : Nat} (l : List (Nat × Nat)) (h0 : v ≠ ESCAPE_CODE) :
    rawBytes false ((w, v) :: l) = rawBytes false l := by
  have e0 : (v == ESCAPE_CODE) = false := by simpa using h0
  simp [rawBytes, e0]

theorem rawBytes_escape (w w' k : Nat) (l : List (Nat × Nat)) :
    rawBytes false ((w, ESCAPE_CODE) :: (w', k) :: l) = k :: rawBytes false l := by
  simp [rawBytes]

theorem rawBytes_grow (w : Nat) (T : stringTable) (l : List (Nat × Nat)) :
    rawBytes false ((checkNbits w T).1 ++ l) = rawBytes false l := by
  rcases checkNbits_cases w T with hg | hg
  · rw [hg]; rfl
  · rw [hg]
    exact rawBytes_code l (by decide)

theorem rawBytes_prune {T : stringTable} {pi : pruneInfo} {window c w : Nat}
    {out : List (Nat × Nat)} {T' : stringTable} {pi' : pruneInfo} {c' w' : Nat}
    (hp : checkPrune T pi window c w = some (out, T', pi', c', w')) (l : List (Nat × Nat)) :
    rawBytes false (out ++ l) = rawBytes false l := by
  rcases checkPrune_cases hp with ⟨_, h1, _⟩ | ⟨_, _, h1, _⟩
  · rw [h1]; rfl
  · rw [h1]
    exact rawBytes_code l (by decide)

/-- A run in which the dictionary never becomes full drops no rebuilt table. -/
theorem hasRoom_keeps (window : Nat) :
    ∀ (input : List Nat) (T : stringTable) (pi : pruneInfo) (c nbits : Nat),
      hasRoomLoop window input T pi c nbits = true →
      keepsTableLoop window input T pi c nbits = true := by
  intro input
  induction input with
  | nil => intro T pi c nbits _; rfl
  | cons k rest ih =>
    intro T pi c nbits h
    rw [hasRoomLoop] at h
    rw [keepsTableLoop]
    cases hs : stringTableHashSearch T c k with
    | none => rfl
    | some res =>
      rw [hs] at h
      cases res with
      | some e => exact ih _ _ _ _ h
      | none =>
        simp only at h ⊢
        by_cases hc : (c == EMPTY_PREFIX) = true
        · simp only [hc, if_true] at h ⊢
          cases he : escapeChar T pi k nbits with
          | none => rfl
          | some r1 =>
            obtain ⟨o1, T1, pi1, n1⟩ := r1
            rw [he] at h
            simp only [Bool.and_eq_true] at h
            cases hp : checkPrune T1 pi1 window c n1 with
            | none => simp only [hp]
            | some r2 =>
              obtain ⟨o2, T2, pi2, c2, n2⟩ := r2
              rw [hp] at h
              simp only [hp]
              exact ih _ _ _ _ h.2
        · simp only [hc, Bool.false_eq_true, if_false] at h ⊢
          cases ha : stringTableAdd T c k with
          | none => rfl
          | some r1 =>
            obtain ⟨T1, b1, x1⟩ := r1
            rw [ha] at h
            simp only [Bool.and_eq_true] at h
            cases hp : checkPrune T1 (pruneInfoSawCode pi c) window c nbits with
            | none => simp only [hp]
            | some r2 =>
              obtain ⟨o2, T2, pi2, c2, n2⟩ := r2
              simp only [hp] at h
              cases hk : stringTableHashSearch T2 EMPTY_PREFIX k with
              | none => simp only [hp, hk]
              | some res2 =>
                simp only [hk] at h
                cases res2 with
                | some e2 =>
                  simp only [hp, hk]
                  exact ih _ _ _ _ h.2
                | none =>
                  cases he : escapeChar T2 pi2 k (checkNbits n2 T2).2 with
                  | none => simp only [hp, hk, he]
                  | some r3 =>
                    obtain ⟨o3, T3, pi3, n3⟩ := r3
                    simp only [he, Bool.and_eq_true, Bool.not_eq_true'] at h
                    obtain ⟨_, hf3, h3⟩ := h
                    simp only [hp, hk, he, Bool.and_eq_true, Bool.not_eq_true',
                      Bool.and_eq_false_iff]
                    exact ⟨Or.inr hf3, ih _ _ _ _ h3⟩

/-- A round of a run in which the dictionary never becomes full: the table has room after
the first insertion of the round and after the round, and the rest of the run is such a
run. -/
theorem hasRoom_step {window k : Nat} {rest : List Nat} {T : stringTable} {pi : pruneInfo}
    {c nbits : Nat} {out : List (Nat × Nat)} {T' : stringTable} {pi' : pruneInfo}
    {c' nbits' : Nat} (h : EncStep window k T pi c nbits out T' pi' c' nbits')
    (hf : stringTableIsFull T = false)
    (hroom : hasRoomLoop window (k :: rest) T pi c nbits = true) :
    hasRoomLoop window rest T' pi' c' nbits' = true ∧ stringTableIsFull T' = false ∧
    ∀ T1 r x, stringTableHashSearch T c k = some none →
      stringTableAdd T c k = some (T1, r, x) → stringTableIsFull T1 = false := by
  have hoff : ∀ {Ta : stringTable} {pa : pruneInfo} {ca na : Nat} {oa : List (Nat × Nat)}
      {Tb : stringTable} {pb : pruneInfo} {cb nb : Nat},
      stringTableIsFull Ta = false →
      checkPrune Ta pa window ca na = some (oa, Tb, pb, cb, nb) → Tb = Ta := by
    intro Ta pa ca na oa Tb pb cb nb hf h
    rcases checkPrune_cases h with ⟨_, _, h2, _⟩ | ⟨_, h1, _⟩
    · exact h2
    · rw [hf] at h1
      simp at h1
  rw [hasRoomLoop] at hroom
  cases h with
  | found e hs =>
    rw [hs] at hroom
    refine ⟨hroom, hf, fun T1 r x hs' _ => ?_⟩
    rw [hs] at hs'
    simp at hs'
  | first T1 r nc out2 T2 pi2 c2 nbits2 hs hc ha hp =>
    rw [hs] at hroom
    have hce : (c == EMPTY_PREFIX) = true := by simp [hc]
    simp only [hce, if_true, escapeChar_eq pi nbits ha, hp, Bool.and_eq_true,
      Bool.not_eq_true'] at hroom
    refine ⟨hroom.2, by rw [hoff hroom.1 hp]; exact hroom.1, fun T1' r' x' _ ha' => ?_⟩
    rw [hc, ha] at ha'
    simp only [Option.some.injEq, Prod.mk.injEq] at ha'
    rw [← ha'.1]
    exact hroom.1
  | elseFound T1 r x out2 T2 pi2 c2 nbits2 kCode hs hc ha hp hk =>
    rw [hs] at hroom
    have hce : (c == EMPTY_PREFIX) = false := by simp [hc]
    simp only [hce, Bool.false_eq_true, if_false, ha, hp, hk, Bool.and_eq_true,
      Bool.not_eq_true'] at hroom
    refine ⟨hroom.2, by rw [hoff hroom.1 hp]; exact hroom.1, fun T1' r' x' _ ha' => ?_⟩
    rw [ha] at ha'
    simp only [Option.some.injEq, Prod.mk.injEq] at ha'
    rw [← ha'.1]
    exact hroom.1
  | elseEscape T1 r x out2 T2 pi2 c2 nbits2 T3 r3 nc3 out4 T4 pi4 c4 nbits4 hs hc ha hp hk
      ha3 hp4 hoff4 =>
    rw [hs] at hroom
    have hce : (c == EMPTY_PREFIX) = false := by simp [hc]
    simp only [hce, Bool.false_eq_true, if_false, ha, hp, hk,
      escapeChar_eq pi2 (checkNbits nbits2 T2).2 ha3, Bool.and_eq_true,
      Bool.not_eq_true'] at hroom
    obtain ⟨h1, h3, hrest⟩ := hroom
    rcases checkPrune_cases hp4 with ⟨_, _, _, e2, e3, e4⟩ | ⟨_, hfull, _⟩
    · rw [e2, e3, e4]
      refine ⟨hrest, h3, fun T1' r' x' _ ha' => ?_⟩
      rw [ha] at ha'
      simp only [Option.some.injEq, Prod.mk.injEq] at ha'
      rw [← ha'.1]
      exact h1
    · rw [h3] at hfull
      simp at hfull

/-- A round of the encoder loop with escape, while the dictionary has room: the byte is
escaped exactly when it has not been read before, and the dictionary keeps describing the
bytes read. -/
theorem encStep_escapes {maxBits window k : Nat} {T : stringTable} {pi : pruneInfo}
    {c nbits : Nat} {out : List (Nat × Nat)} {T' : stringTable} {pi' : pruneInfo}
    {c' nbits' : Nat} {seen : List Nat} (hI : EncInv maxBits true T c)
    (hJ : EscInv T seen) (hfT : stringTableIsFull T = false)
    (hfA : ∀ T1 r x, stringTableHashSearch T c k = some none →
      stringTableAdd T c k = some (T1, r, x) → stringTableIsFull T1 = false)
    (h : EncStep window k T pi c nbits out T' pi' c' nbits') :
    EscInv T' (if k ∈ seen then seen else k :: seen) ∧
    ∀ o, rawBytes false (out ++ o) = (if k ∈ seen then [] else [k]) ++ rawBytes false o := by
  have hge := hI.wf.hashWF.hc_ge
  have hoff : ∀ {Ta : stringTable} {pa : pruneInfo} {ca na : Nat} {oa : List (Nat × Nat)}
      {Tb : stringTable} {pb : pruneInfo} {cb nb : Nat},
      stringTableIsFull Ta = false →
      checkPrune Ta pa window ca na = some (oa, Tb, pb, cb, nb) → oa = [] ∧ Tb = Ta := by
    intro Ta pa ca na oa Tb pb cb nb hf h
    rcases checkPrune_cases h with ⟨_, h1, h2, _⟩ | ⟨_, h1, _⟩
    · exact ⟨h1, h2⟩
    · rw [hf] at h1
      simp at h1
  cases h with
  | found e hs =>
    obtain ⟨d, hd, _, _⟩ := search_some hI.wf.hashWF hs
    have hk : k ∈ seen := by
      have := hJ.bytes d hd.1
      rw [hd.2.2] at this
      exact this
    rw [if_pos hk, if_pos hk]
    exact ⟨hJ, fun o => rfl⟩
  | first T1 r nc out2 T2 pi2 c2 nbits2 hs hc ha hp =>
    have hfT1 : stringTableIsFull T1 = false := hfA T1 r nc hs (by rw [hc]; exact ha)
    rw [hc] at hs
    have hk : k ∉ seen := by
      intro hk
      obtain ⟨d, hd⟩ := (hJ.single k).mpr hk
      exact search_none hI.wf.hashWF hs d hd
    obtain ⟨hi, e1⟩ := add_inserts hs hfT ha
    have hT1 := add_WFD hI.wf (Or.inl rfl) ha
    obtain ⟨e2, e3⟩ := hoff hfT1 hp
    rw [if_neg hk, if_neg hk, e3, e2]
    refine ⟨by rw [e1]; exact hJ.insert_single hge k hi, fun o => ?_⟩
    simp only [List.append_assoc, List.cons_append, List.nil_append]
    rw [rawBytes_escape, rawBytes_grow]
  | elseFound T1 r x out2 T2 pi2 c2 nbits2 kCode hs hc ha hp hk =>
    have hv : validCode T c := by
      rcases hI.cval with h | h
      · exact absurd h hc
      · exact h
    obtain ⟨hi, e1⟩ := add_inserts hs hfT ha
    have hT1 := add_WFD hI.wf (Or.inr hv) ha
    have hfT1 : stringTableIsFull T1 = false := hfA T1 r x hs ha
    obtain ⟨e2, e3⟩ := hoff hfT1 hp
    rw [e3] at hk ⊢
    obtain ⟨hsing, hbytes⟩ := hJ.insert_pair hge hc k hi
    rw [← e1] at hsing hbytes
    obtain ⟨d, hd, _, _⟩ := search_some hT1.hashWF hk
    have hks : k ∈ seen := (hsing k).mp ⟨d, hd⟩
    rw [if_pos hks, if_pos hks, e2]
    refine ⟨⟨hsing, fun d hd => ?_⟩, fun o => ?_⟩
    · rcases hbytes d hd with h | h
      · exact h
      · rw [h]; exact hks
    · simp only [List.append_assoc, List.cons_append, List.nil_append]
      rw [rawBytes_code _ (valid_not_special hv).1, rawBytes_grow]
  | elseEscape T1 r x out2 T2 pi2 c2 nbits2 T3 r3 nc3 out4 T4 pi4 c4 nbits4 hs hc ha hp hk
      ha3 hp4 =>
    have hv : validCode T c := by
      rcases hI.cval with h | h
      · exact absurd h hc
      · exact h
    obtain ⟨hi, e1⟩ := add_inserts hs hfT ha
    have hT1 := add_WFD hI.wf (Or.inr hv) ha
    have hfT1 : stringTableIsFull T1 = false := hfA T1 r x hs ha
    obtain ⟨e2, e3⟩ := hoff hfT1 hp
    rw [e3] at hk ha3
    obtain ⟨hsing, hbytes⟩ := hJ.insert_pair hge hc k hi
    rw [← e1] at hsing hbytes
    have hks : k ∉ seen := by
      intro hks
      obtain ⟨d, hd⟩ := (hsing k).mpr hks
      exact search_none hT1.hashWF hk d hd
    obtain ⟨hi3, e4⟩ := add_inserts hk hfT1 ha3
    have hge1 := hT1.hashWF.hc_ge
    rw [if_neg hks, if_neg hks]
    refine ⟨?_, fun o => ?_⟩
    · rw [e4]
      constructor
      · intro k'
        constructor
        · rintro ⟨d, hd⟩
          rcases (holds_inserted_iff hge1 _ _ _ _ _ _).mp hd with h | ⟨_, _, h⟩
          · exact List.mem_cons_of_mem _ ((hsing k').mp ⟨d, h⟩)
          · rw [h]; exact List.mem_cons_self _ _
        · intro hk'
          rcases List.mem_cons.mp hk' with h | h
          · exact ⟨_, (holds_inserted_iff hge1 _ _ _ _ _ _).mpr (Or.inr ⟨rfl, rfl, h⟩)⟩
          · obtain ⟨d, hd⟩ := (hsing k').mpr h
            exact ⟨d, (holds_inserted_iff hge1 _ _ _ _ _ _).mpr (Or.inl hd)⟩
      · intro d hd
        rcases inserted_valid hd with h | h
        · rw [inserted_array_old _ _ _ h]
          rcases hbytes d h with h' | h'
          · exact List.mem_cons_of_mem _ h'
          · rw [h']; exact List.mem_cons_self _ _
        · rw [h, inserted_array_new]
          exact List.mem_cons_self _ _
    · rw [e2]
      simp only [List.append_assoc, List.cons_append, List.nil_append]
      rw [rawBytes_code _ (valid_not_special hv).1, rawBytes_grow, rawBytes_escape,
        rawBytes_grow, rawBytes_prune hp4]

/-- With escape, in a run in which the dictionary never becomes full, the raw bytes
written by the encoder loop are the bytes of its input that have not been read before. -/
theorem encodeLoop_escapes {maxBits : Nat} (window : Nat) :
    ∀ (input seen : List Nat) (T : stringTable) (pi : pruneInfo) (c nbits : Nat),
      EncInv maxBits true T c → EscInv T seen → stringTableIsFull T = false →
      hasRoomLoop window input T pi c nbits = true →
      ∃ o, encodeLoop window input T pi c nbits = some o ∧
        rawBytes false o = firstOccs seen input := by
  intro input
  induction input with
  | nil =>
    intro seen T pi c nbits hI _ _ _
    refine ⟨_, encodeLoop_nil window T pi c nbits, ?_⟩
    have hstop : rawBytes false [(nbits, STOP_CODE)] = [] := by
      simp [rawBytes]
    by_cases hc : c = EMPTY_PREFIX
    · have : (c != EMPTY_PREFIX) = false := by simp [hc]
      rw [this]
      exact hstop
    · have : (c != EMPTY_PREFIX) = true := by simpa using hc
      rw [this]
      have hv : validCode T c := by
        rcases hI.cval with h | h
        · exact absurd h hc
        · exact h
      simp only [if_true, List.singleton_append]
      rw [rawBytes_code _ (valid_not_special hv).1]
      exact hstop
  | cons k rest ih =>
    intro seen T pi c nbits hI hJ hf hroom
    obtain ⟨out, T', pi', c', nbits', hstep, hI', _⟩ :=
      encStep_total window k rest pi nbits hI (hasRoom_keeps window _ _ _ _ _ hroom)
    obtain ⟨hroom', hf', hfA⟩ := hasRoom_step hstep hf hroom
    obtain ⟨hJ', hraw⟩ := encStep_escapes hI hJ hf hfA hstep
    obtain ⟨o, ho, hr⟩ := ih _ T' pi' c' nbits' hI' hJ' hf' hroom'
    refine ⟨out ++ o, by rw [encodeLoop_step hstep, ho]; rfl, ?_⟩
    rw [hraw, hr, firstOccs]
    by_cases hk : k ∈ seen
    · simp [hk]
    · simp [hk]

/-- C14, as amended (escape determinism while the dictionary has room): with escape
enabled, for every `maxBits` in `[8, 24]`, every window and every input `B` on which the
dictionary never becomes full (no call of `checkPrune` finds a full table), `encode`
returns and the raw bytes of its body, the bytes that follow an `ESCAPE_CODE`, are exactly
the first occurrences of the bytes of `B`, in order: every byte is escaped at its first
occurrence and at no later one. -/
theorem escape_first_occurrences (B : List Nat) (maxBits window : Nat) (h8 : 8 ≤ maxBits)
    (h24 : maxBits ≤ 24) (hroom : hasRoom maxBits window true B = true) :
    ∃ body, encodeBody maxBits window true B = some body ∧
      rawBytes false body = firstOccs [] B := by
  obtain ⟨T0, hnew, hT0, harr, hef, hhc⟩ := new_WFT maxBits true h8 h24 (fun h => by simp at h)
  simp only [if_true] at hhc
  have hI : EncInv maxBits true T0 EMPTY_PREFIX := ⟨hT0.wfd, harr, hef, Or.inl rfl⟩
  have hJ : EscInv T0 [] := by
    constructor
    · intro k
      constructor
      · rintro ⟨d, hd, _⟩
        have h1 := hd.1
        have h2 := hd.2
        rw [hhc] at h2
        simp only [NUM_SPECIAL_CODES] at h1
        omega
      · intro h
        simp at h
    · intro d hd
      have h1 := hd.1
      have h2 := hd.2
      rw [hhc] at h2
      simp only [NUM_SPECIAL_CODES] at h1
      omega
  unfold hasRoom at hroom
  rw [hnew] at hroom
  simp only [Bool.and_eq_true, Bool.not_eq_true', if_true] at hroom
  obtain ⟨o, ho, hr⟩ := encodeLoop_escapes window B [] T0 (pruneInfoNew maxBits) EMPTY_PREFIX
    2 hI hJ hroom.1 hroom.2
  exact ⟨o, by rw [encodeBody_eq hnew]; exact ho, hr⟩

theorem escape_first_occurrences_witness :
    (8 ≤ 9 ∧ 9 ≤ 24 ∧ hasRoom 9 64 true [65, 66, 65, 66, 65, 67] = true) ∧
    ∃ body, encodeBody 9 64 true [65, 66, 65, 66, 65, 67] = some body ∧
      rawBytes false body = firstOccs [] [65, 66, 65, 66, 65, 67] :=
  ⟨⟨by decide, by decide, rfl⟩,
    escape_first_occurrences [65, 66, 65, 66, 65, 67] 9 64 (by decide) (by decide) rfl⟩

/-- The loop of `stringTablePrune` builds the same table and recency state for every value
of `*codeToUpdate`. -/
theorem pruneLoop_ctu (T : stringTable) (oldPi : pruneInfo) (window : Nat) :
    ∀ (n i : Nat) (Tn : stringTable) (pin : pruneInfo) (ctu ctu' : Nat),
      (pruneLoop T oldPi window n i Tn pin ctu).map (fun r => (r.1, r.2.1))
        = (pruneLoop T oldPi window n i Tn pin ctu').map (fun r => (r.1, r.2.1)) := by
  intro n
  induction n with
  | zero => intro i Tn pin ctu ctu'; rfl
  | succ n ih =>
    intro i Tn pin ctu ctu'
    rw [pruneLoop, pruneLoop]
    by_cases hr : retained oldPi window i = true
    · rw [if_pos hr, if_pos hr]
      cases recursiveAdd T oldPi (T.highestCode + 1) Tn (some (T.array i)) pin with
      | none => rfl
      | some res =>
        obtain ⟨Tn1, pin1, nc⟩ := res
        exact ih _ _ _ _ _
    · rw [if_neg hr, if_neg hr]
      exact ih _ _ _ _ _

/-- C25 (the rebuild does not depend on the in-flight code): two calls of
`stringTablePrune` on the same dictionary, recency state and window with any two values of
`*codeToUpdate` both return or both do not, and when they return the dictionaries are
equal and so are the resulting `lastSeen` arrays and counters. -/
theorem prune_ctu_independent (T : stringTable) (pi : pruneInfo) (window c1 c2 : Nat) :
    (stringTablePrune T pi window c1).map (fun r => (r.1, r.2.1))
      = (stringTablePrune T pi window c2).map (fun r => (r.1, r.2.1)) := by
  unfold stringTablePrune
  simp only
  cases createTable T.arraySize T.eFlag with
  | none => rfl
  | some Tn0 => exact pruneLoop_ctu T pi window _ _ _ _ _ _

/-- C27 fails as stated: `main` replaces the value 8 of `-m`, which lies in the documented
range `[8, 24]`, by 12. -/
theorem mainMaxBits_eight_counterexample :
    (8 : Int) ∈ Set.Icc 8 24 ∧ mainMaxBits 8 = some 12 ∧ mainMaxBits 8 ≠ some 8 := by
  refine ⟨by simp, by decide, by decide⟩

/-- C27, as amended (the driver keeps the widths 9 to 24): for a positive value `v` of
`-m`, `main` passes `v` to `encode` unchanged when `9 ≤ v ≤ 24` and passes 12 when `v ≤ 8`
or `v > 24`. -/
theorem mainMaxBits_spec (v : Int) (hv : 0 < v) :
    mainMaxBits v = some (if 9 ≤ v ∧ v ≤ 24 then v else 12) := by
  unfold mainMaxBits
  rw [if_neg (by omega)]
  by_cases h : v ≤ 8 ∨ v > 24
  · rw [if_pos h, if_neg (by omega)]
  · rw [if_neg h, if_pos (by omega)]

theorem mainMaxBits_spec_witness :
    (0 : Int) < 16 ∧ mainMaxBits 16 = some (if (9 : Int) ≤ 16 ∧ (16 : Int) ≤ 24 then 16 else 12) :=
  ⟨by decide, mainMaxBits_spec 16 (by decide)⟩

/-- The loop `for(nbits = 2; (1 << nbits) - 1 < highestCode; nbits++);` ends at the least
width `n ≥ 2` with `highestCode ≤ 2 ^ n - 1`. -/
theorem nbitsFor_least (hc : Nat) : IsLeast {n | 2 ≤ n ∧ hc ≤ 2 ^ n - 1} (nbitsFor hc) := by
  have hfuel : hc ≤ 2 ^ (2 + hc) - 1 := by
    have h1 : hc < 2 ^ hc := Nat.lt_two_pow hc
    have h2 : 2 ^ hc ≤ 2 ^ (2 + hc) := Nat.pow_le_pow_right (by norm_num) (by omega)
    omega
  obtain ⟨h1, h2, h3⟩ := nbitsLoop_spec hc 2 hc hfuel
  refine ⟨⟨h1, h2⟩, ?_⟩
  rintro n ⟨hn2, hn⟩
  show nbitsLoop hc 2 hc ≤ n
  rcases h3 with h3 | h3
  · rw [h3]; exact hn2
  · by_contra hlt
    have hle : n ≤ nbitsLoop hc 2 hc - 1 := by omega
    have hpow : 2 ^ n ≤ 2 ^ (nbitsLoop hc 2 hc - 1) := Nat.pow_le_pow_right (by norm_num) hle
    have hpos : 0 < 2 ^ n := Nat.two_pow_pos n
    omega

theorem fullTable_Built : Built fullTable := by
  obtain ⟨T, hT⟩ := stringTableNew_isSome 8 false (by decide) (by decide)
  refine Built.new 8 false fullTable ?_
  unfold fullTable
  rw [hT]
  rfl

set_option maxRecDepth 1000000 in
theorem fullTable_eval :
    stringTableIsFull fullTable = true ∧
    (stringTableAdd fullTable 0 65).map (fun r => (r.2.1, r.2.2)) = some (false, 69) ∧
    (stringTableAdd fullTable 0 252).map (fun r => (r.2.1, r.2.2)) = some (false, 0) ∧
    (stringTablePrune fullTable wPi 2 0).map (fun r => nbitsFor r.1.highestCode) = some 8 := by
  refine ⟨by decide!, by decide!, by decide!, by decide!⟩

theorem add_false_iff_witness :
    (Built fullTable ∧ stringTableIsFull fullTable = true ∧
      (stringTableAdd fullTable 0 65).map (fun r => (r.2.1, r.2.2)) = some (false, 69) ∧
      (stringTableAdd fullTable 0 252).map (fun r => (r.2.1, r.2.2)) = some (false, 0)) ∧
    ((Sized fullTable → ∃ res, stringTableAdd fullTable 0 65 = some res) ∧
      ∀ (T' : stringTable) (r : Bool) (c : Nat),
        stringTableAdd fullTable 0 65 = some (T', r, c) →
        (r = false ↔ ((∃ d, holds fullTable d 0 65) ∨
            ((∀ d, ¬ holds fullTable d 0 65) ∧ stringTableIsFull fullTable = true))) ∧
        (r = false → T' = fullTable) ∧
        (∀ d, holds fullTable d 0 65 → c = d) ∧
        ((∀ d, ¬ holds fullTable d 0 65) → stringTableIsFull fullTable = true → c = 0)) ∧
    ((Sized fullTable → ∃ res, stringTableAdd fullTable 0 252 = some res) ∧
      ∀ (T' : stringTable) (r : Bool) (c : Nat),
        stringTableAdd fullTable 0 252 = some (T', r, c) →
        (r = false ↔ ((∃ d, holds fullTable d 0 252) ∨
            ((∀ d, ¬ holds fullTable d 0 252) ∧ stringTableIsFull fullTable = true))) ∧
        (r = false → T' = fullTable) ∧
        (∀ d, holds fullTable d 0 252 → c = d) ∧
        ((∀ d, ¬ holds fullTable d 0 252) → stringTableIsFull fullTable = true → c = 0)) :=
  ⟨⟨fullTable_Built, fullTable_eval.1, fullTable_eval.2.1, fullTable_eval.2.2.1⟩,
    add_false_iff fullTable fullTable_Built 0 65,
    add_false_iff fullTable fullTable_Built 0 252⟩

/-- C24 (width reset): the width computed after a prune is the least `n ≥ 2` with
`2 ^ n - 1 ≥ highestCode` of the rebuilt dictionary. A `checkPrune` that prunes (positive
window, full table) returns the table of `stringTablePrune` and that width for it; and
`decode`, reading `PRUNE_CODE` with a positive window in any state, full table or not,
goes on with the table of `stringTablePrune` and that width for it. -/
theorem width_reset (T Td : stringTable) (pi pid : pruneInfo)
    (window c cd nbits nbitsd : Nat) (hw : window ≠ 0) (hf : stringTableIsFull T = true)
    (hn : 2 ≤ nbitsd) (maxBits : Nat) (eFlag : Bool) (fuel fK : Nat) (tail : List Bool) :
    (∀ hc, IsLeast {n | 2 ≤ n ∧ hc ≤ 2 ^ n - 1} (nbitsFor hc)) ∧
    (checkPrune T pi window c nbits).map (fun r => (r.2.1, r.2.2.2.2))
      = (stringTablePrune T pi window c).map (fun r => (r.1, nbitsFor r.1.highestCode)) ∧
    decodeLoop maxBits window eFlag (fuel + 1) Td pid cd fK nbitsd
        (putBits nbitsd PRUNE_CODE ++ tail)
      = (stringTablePrune Td pid window cd).bind (fun r =>
          decodeLoop maxBits window eFlag fuel r.1 r.2.1 EMPTY_PREFIX fK
            (nbitsFor r.1.highestCode) tail) := by
  refine ⟨nbitsFor_least, ?_, ?_⟩
  · cases hp : stringTablePrune T pi window c with
    | none =>
      unfold checkPrune
      have : (decide (window > 0) && stringTableIsFull T) = true := by
        rw [hf]; simp; omega
      rw [this, hp]
      rfl
    | some r =>
      obtain ⟨T1, pi1, x⟩ := r
      rw [checkPrune_on pi c nbits hw hf hp]
      rfl
  · cases hp : stringTablePrune Td pid window cd with
    | none =>
      have h4 := two_le_pow hn
      rw [decodeLoop, getBits_putBits (by simp only [PRUNE_CODE]; omega), hp]
      simp [STOP_CODE, GROW_NBITS_CODE, PRUNE_CODE, hw]
    | some r =>
      obtain ⟨T1, pi1, x⟩ := r
      rw [dec_prune maxBits hw eFlag fuel Td pid cd fK hn tail hp]
      rfl

theorem width_reset_witness :
    ((2 : Nat) ≠ 0 ∧ stringTableIsFull fullTable = true ∧ 2 ≤ 3 ∧
      stringTableIsFull wTable = false ∧
      (stringTablePrune fullTable wPi 2 0).map (fun r => nbitsFor r.1.highestCode) = some 8 ∧
      (stringTablePrune wTable wPi 2 5).map (fun r => nbitsFor r.1.highestCode) = some 3) ∧
    (∀ hc, IsLeast {n | 2 ≤ n ∧ hc ≤ 2 ^ n - 1} (nbitsFor hc)) ∧
    (checkPrune fullTable wPi 2 0 9).map (fun r => (r.2.1, r.2.2.2.2))
      = (stringTablePrune fullTable wPi 2 0).map
          (fun r => (r.1, nbitsFor r.1.highestCode)) ∧
    decodeLoop 8 2 true (0 + 1) wTable wPi 5 0 3 (putBits 3 PRUNE_CODE ++ [])
      = (stringTablePrune wTable wPi 2 5).bind (fun r =>
          decodeLoop 8 2 true 0 r.1 r.2.1 EMPTY_PREFIX 0 (nbitsFor r.1.highestCode) []) :=
  ⟨⟨by decide, fullTable_eval.1, by decide, by decide, fullTable_eval.2.2.2, by decide⟩,
    width_reset fullTable wTable wPi wPi 2 0 5 9 3 (by decide) fullTable_eval.1 (by decide)
      8 true 0 0 []⟩

theorem Dict.indexWF {T : stringTable} (h : Dict T) : HashWF T := by
  induction h with
  | new maxBits eFlag T h => exact createTable_HashWF h
  | add T p k r _ h ih =>
    obtain ⟨T1, b, c⟩ := r
    exact add_HashWF ih h
  | prune T pi window c r _ h _ =>
    obtain ⟨T1, pi1, x⟩ := r
    exact (prune_keeps h).1

theorem EncDict.dict {T : stringTable} (h : EncDict T) : Dict T := by
  induction h with
  | new maxBits eFlag T h => exact Dict.new maxBits eFlag T h
  | add T p k r _ _ h ih => exact Dict.add T p k r ih h
  | prune T pi window c r _ h ih => exact Dict.prune T pi window c r ih h

theorem EncDict.chains {T : stringTable} (h : EncDict T) : Chains T := by
  induction h with
  | new maxBits eFlag T h => exact createTable_Chains h
  | add T p k r _ hp h ih =>
    obtain ⟨T1, b, c⟩ := r
    exact add_Chains ih hp h
  | prune T pi window c r _ h _ =>
    obtain ⟨T1, pi1, x⟩ := r
    exact (prune_keeps h).2

theorem wTable_EncDict : EncDict wTable := by
  have h0 : EncDict (emptyTable 256 true) :=
    EncDict.new 8 true _ (show stringTableNew 8 true = some (emptyTable 256 true) from rfl)
  have h1 : EncDict (inserted (emptyTable 256 true) 0 97 97) :=
    EncDict.add _ 0 97 (_, true, 4) h0 (Or.inl rfl)
      (show stringTableAdd (emptyTable 256 true) 0 97 = some (_, true, 4) from rfl)
  have h2 : EncDict (inserted (inserted (emptyTable 256 true) 0 97 97) 0 98 98) :=
    EncDict.add _ 0 98 (_, true, 5) h1 (Or.inl rfl)
      (show stringTableAdd (inserted (emptyTable 256 true) 0 97 97) 0 98
        = some (_, true, 5) from rfl)
  exact EncDict.add _ 5 99 (wTable, true, 6) h2 (Or.inr ⟨by decide, by decide⟩)
    (show stringTableAdd (inserted (inserted (emptyTable 256 true) 0 97 97) 0 98 98) 5 99
      = some (wTable, true, 6) from rfl)

/-- C22 (dictionary index invariant): in every dictionary built from `stringTableNew` by
`stringTableAdd` and `stringTablePrune`, no two entries have the same pair
`(prefix, k)`, and for every code `c` with `NUM_SPECIAL_CODES ≤ c ≤ highestCode` the entry
at index `c` has the code field `c` and `stringTableHashSearch` finds it by its own pair. -/
theorem dict_index_invariant {T : stringTable} (h : Dict T) :
    (∀ c d, validCode T c → validCode T d → (T.array c).pfx = (T.array d).pfx →
      (T.array c).k = (T.array d).k → c = d) ∧
    ∀ c, validCode T c →
      (T.array c).code = c ∧
      stringTableHashSearch T (T.array c).pfx (T.array c).k = some (some (T.array c)) := by
  have hW := h.indexWF
  exact ⟨hW.uniq, fun c hc => ⟨hW.code_eq c hc, search_holds hW ⟨hc, rfl, rfl⟩⟩⟩

theorem dict_index_invariant_witness :
    Dict wTable ∧
    (∀ c d, validCode wTable c → validCode wTable d →
      (wTable.array c).pfx = (wTable.array d).pfx →
      (wTable.array c).k = (wTable.array d).k → c = d) ∧
    ∀ c, validCode wTable c →
      (wTable.array c).code = c ∧
      stringTableHashSearch wTable (wTable.array c).pfx (wTable.array c).k
        = some (some (wTable.array c)) :=
  ⟨wTable_EncDict.dict, dict_index_invariant wTable_EncDict.dict⟩

/-- In a table whose prefix links are in order, the walk from a code ends within the
bound. -/
theorem chainSteps_bound {T : stringTable} (hC : Chains T) :
    ∀ (e : Nat), validCode T e → ∀ fuel, e - NUM_SPECIAL_CODES < fuel →
      ∃ n, chainSteps T fuel e = some n ∧ n ≤ e - NUM_SPECIAL_CODES + 1 := by
  intro e
  induction e using Nat.strong_induction_on with
  | _ e ih =>
    intro hv fuel hf
    obtain ⟨f, rfl⟩ : ∃ f, fuel = f + 1 := ⟨fuel - 1, by omega⟩
    rw [chainSteps, codeSearch_valid hv]
    simp only
    rcases hC e hv with hp | ⟨hvp, hlt⟩
    · rw [if_pos hp]
      exact ⟨1, rfl, by omega⟩
    · rw [if_neg (valid_ne_empty hvp)]
      have h4 := hvp.1
      obtain ⟨n, hn, hle⟩ := ih _ hlt hvp f (by omega)
      rw [hn]
      exact ⟨n + 1, rfl, by omega⟩

/-- C21 (prefix chains are bounded and acyclic): in every dictionary reachable during
encoding, the prefix of each entry is the empty sentinel or the code of an existing entry
with a strictly smaller code, and the walk along the prefix links from an entry `e`
reaches an entry with the empty prefix after at most `e - NUM_SPECIAL_CODES + 1` entries. -/
theorem chains_bounded {T : stringTable} (h : EncDict T) (e : Nat) (he : validCode T e) :
    ((T.array e).pfx = EMPTY_PREFIX ∨
      (validCode T (T.array e).pfx ∧ (T.array e).pfx < e)) ∧
    ∃ n, chainSteps T (T.highestCode + 1) e = some n ∧ n ≤ e - NUM_SPECIAL_CODES + 1 :=
  ⟨h.chains e he, chainSteps_bound h.chains e he _ (by have := he.2; omega)⟩

theorem chains_bounded_witness :
    (EncDict wTable ∧ validCode wTable 6) ∧
    ((wTable.array 6).pfx = EMPTY_PREFIX ∨
      (validCode wTable (wTable.array 6).pfx ∧ (wTable.array 6).pfx < 6)) ∧
    ∃ n, chainSteps wTable (wTable.highestCode + 1) 6 = some n ∧
      n ≤ 6 - NUM_SPECIAL_CODES + 1 :=
  ⟨⟨wTable_EncDict, by decide⟩, chains_bounded wTable_EncDict 6 (by decide)⟩

/-- The tables of the encoder loop are reachable dictionaries: a round that starts from
one, with a pending prefix that is empty or one of its codes, ends in one. -/
theorem encStep_encDict {window k : Nat} {T : stringTable} {pi : pruneInfo} {c nbits : Nat}
    {out : List (Nat × Nat)} {T' : stringTable} {pi' : pruneInfo} {c' nbits' : Nat}
    (hD : EncDict T) (hc : c = EMPTY_PREFIX ∨ validCode T c)
    (h : EncStep window k T pi c nbits out T' pi' c' nbits') : EncDict T' := by
  have hpr : ∀ {Ta : stringTable} {pa : pruneInfo} {ca na : Nat} {oa : List (Nat × Nat)}
      {Tb : stringTable} {pb : pruneInfo} {cb nb : Nat}, EncDict Ta →
      checkPrune Ta pa window ca na = some (oa, Tb, pb, cb, nb) → EncDict Tb := by
    intro Ta pa ca na oa Tb pb cb nb hTa hp
    rcases checkPrune_cases hp with ⟨_, _, h2, _⟩ | ⟨_, _, _, _, _, x, hx⟩
    · rw [h2]; exact hTa
    · exact EncDict.prune Ta pa window ca (Tb, pb, x) hTa hx
  cases h with
  | found e hs => exact hD
  | first T1 r nc out2 T2 pi2 c2 nbits2 hs hc0 ha hp =>
    exact hpr (EncDict.add T EMPTY_PREFIX k (T1, r, nc) hD (Or.inl rfl) ha) hp
  | elseFound T1 r x out2 T2 pi2 c2 nbits2 kCode hs hc0 ha hp hk =>
    exact hpr (EncDict.add T c k (T1, r, x) hD hc ha) hp
  | elseEscape T1 r x out2 T2 pi2 c2 nbits2 T3 r3 nc3 out4 T4 pi4 c4 nbits4 hs hc0 ha hp hk
      ha3 hp4 =>
    exact EncDict.add T2 EMPTY_PREFIX k (T', r3, nc3)
      (hpr (EncDict.add T c k (T1, r, x) hD hc ha) hp) (Or.inl rfl) ha3

theorem add_arraySize {T : stringTable} {p k : Nat} {T' : stringTable} {r : Bool} {c : Nat}
    (h : stringTableAdd T p k = some (T', r, c)) : T'.arraySize = T.arraySize := by
  rcases stringTableAdd_cases h with ⟨_, _, hT', _, _⟩ | ⟨_, _, hT', _, _⟩ |
    ⟨_, _, hi, _, hT', _, _⟩
  · rw [hT']
  · rw [hT']
  · rw [hT']

/-- A table built by `stringTableNew` and `stringTableAdd` with a capacity between 4 and
`2 ^ 31` has the size fields of `createTable` and fewer entries than its capacity. -/
theorem Built.sized {T : stringTable} (h : Built T) :
    NUM_SPECIAL_CODES ≤ T.arraySize → T.arraySize < 2 ^ 31 → Sized T := by
  have hadd : ∀ {T T' : stringTable} {p k : Nat} {r : Bool} {c : Nat},
      (NUM_SPECIAL_CODES ≤ T.arraySize → T.arraySize < 2 ^ 31 → Sized T) →
      stringTableAdd T p k = some (T', r, c) →
      (NUM_SPECIAL_CODES ≤ T'.arraySize → T'.arraySize < 2 ^ 31 → Sized T') := by
    intro T T' p k r c hP ha h1 h2
    rw [add_arraySize ha] at h1 h2
    exact add_Sized (hP h1 h2) ha
  have hempty : ∀ (N : Nat) (e : Bool),
      NUM_SPECIAL_CODES ≤ (emptyTable N e).arraySize → (emptyTable N e).arraySize < 2 ^ 31 →
      Sized (emptyTable N e) := by
    intro N e h1 h2
    have h1' : NUM_SPECIAL_CODES ≤ N := h1
    have h2' : N < 2 ^ 31 := h2
    refine ⟨h1, h2, ?_, ?_⟩
    · show (N * 2 + 1) % 2 ^ 32 = 2 * N + 1
      omega
    · show NUM_SPECIAL_CODES - 1 < N
      simp only [NUM_SPECIAL_CODES] at h1' ⊢
      omega
  have hinit : ∀ (n : Nat) {T T' : stringTable},
      (NUM_SPECIAL_CODES ≤ T.arraySize → T.arraySize < 2 ^ 31 → Sized T) →
      initLoop n T = some T' →
      (NUM_SPECIAL_CODES ≤ T'.arraySize → T'.arraySize < 2 ^ 31 → Sized T') := by
    intro n
    induction n with
    | zero =>
      intro T T' hP h
      simp only [initLoop, Option.some.injEq] at h
      rw [← h]; exact hP
    | succ n ih =>
      intro T T' hP h
      rw [initLoop] at h
      cases h1 : initLoop n T with
      | none => rw [h1] at h; simp at h
      | some t =>
        rw [h1] at h
        simp only at h
        cases h2 : stringTableAdd t EMPTY_PREFIX n with
        | none => rw [h2] at h; simp at h
        | some r =>
          obtain ⟨T1, b, c⟩ := r
          rw [h2] at h
          simp only [Option.some.injEq] at h
          rw [← h]
          exact hadd (ih hP h1) h2
  induction h with
  | new maxBits eFlag T h =>
    unfold stringTableNew at h
    rw [createTable_eq] at h
    unfold stringTableInit at h
    split at h
    · exact hinit 256 (hempty _ _) h
    · simp only [Option.some.injEq] at h
      rw [← h]
      exact hempty _ _
  | add T p k r _ h ih =>
    obtain ⟨T1, b, c⟩ := r
    exact hadd ih h

/-- The occupied hash slots of a consistent table are as many as its entries. -/
theorem occupied_card {T : stringTable} (hW : HashWF T) :
    ((Finset.range T.hashSize).filter (fun s => (T.hash s).isSome)).card
      = T.highestCode + 1 - NUM_SPECIAL_CODES := by
  rw [← Nat.card_Icc]
  apply Finset.card_bij (fun s _ => (T.hash s).getD 0)
  · intro s hs
    rw [Finset.mem_filter] at hs
    obtain ⟨idx, hidx⟩ := Option.isSome_iff_exists.mp hs.2
    have hv := (hW.hash_rng s idx hidx).2
    rw [hidx, Finset.mem_Icc]
    exact ⟨hv.1, hv.2⟩
  · intro s hs s' hs' heq
    rw [Finset.mem_filter] at hs hs'
    obtain ⟨idx, hidx⟩ := Option.isSome_iff_exists.mp hs.2
    obtain ⟨idx', hidx'⟩ := Option.isSome_iff_exists.mp hs'.2
    rw [hidx, hidx'] at heq
    simp only [Option.getD_some] at heq
    rw [← heq] at hidx'
    exact hW.hash_inj s s' idx hidx hidx'
  · intro c hc
    rw [Finset.mem_Icc] at hc
    obtain ⟨j, _, hj, _⟩ := hW.hash_reach c ⟨hc.1, hc.2⟩
    refine ⟨_, ?_, by rw [hj]; rfl⟩
    rw [Finset.mem_filter, Finset.mem_range]
    exact ⟨(hW.hash_rng _ _ hj).1, by rw [hj]; rfl⟩

/-- C26 (hash probing terminates): in every dictionary built from `stringTableNew` by
`stringTableAdd`, with a capacity from `2 ^ 8` to `2 ^ 24`, the occupied hash slots are as
many as the entries, at most `capacity - NUM_SPECIAL_CODES` and fewer than
`hashSize = 2 * capacity + 1`; so the probe loops of `stringTableHashSearch` and of
`stringTableAdd`, which the model gives `hashSize` steps, return for every pair. -/
theorem probing_terminates {T : stringTable} (h : Built T) (hlo : 2 ^ 8 ≤ T.arraySize)
    (hhi : T.arraySize ≤ 2 ^ 24) :
    ((Finset.range T.hashSize).filter (fun s => (T.hash s).isSome)).card
      = T.highestCode + 1 - NUM_SPECIAL_CODES ∧
    T.highestCode + 1 - NUM_SPECIAL_CODES ≤ T.arraySize - NUM_SPECIAL_CODES ∧
    T.arraySize - NUM_SPECIAL_CODES < T.hashSize ∧
    T.hashSize = 2 * T.arraySize + 1 ∧
    ∀ p k, (∃ r, stringTableHashSearch T p k = some r) ∧
      ∃ r, stringTableAdd T p k = some r := by
  have hW := h.hashWF
  have hS := h.sized (by simp only [NUM_SPECIAL_CODES]; omega) (by omega)
  have h1 := hS.hc_lt
  have h2 := hS.hash_eq
  refine ⟨occupied_card hW, by omega, by omega, h2, fun p k => ?_⟩
  exact ⟨search_total hW hS p k, add_total hW hS p k⟩

theorem probing_terminates_witness :
    (Built wTable ∧ 2 ^ 8 ≤ wTable.arraySize ∧ wTable.arraySize ≤ 2 ^ 24) ∧
    ((Finset.range wTable.hashSize).filter (fun s => (wTable.hash s).isSome)).card
      = wTable.highestCode + 1 - NUM_SPECIAL_CODES ∧
    wTable.highestCode + 1 - NUM_SPECIAL_CODES ≤ wTable.arraySize - NUM_SPECIAL_CODES ∧
    wTable.arraySize - NUM_SPECIAL_CODES < wTable.hashSize ∧
    wTable.hashSize = 2 * wTable.arraySize + 1 ∧
    ∀ p k, (∃ r, stringTableHashSearch wTable p k = some r) ∧
      ∃ r, stringTableAdd wTable p k = some r := by
  have h0 : Built (emptyTable 256 true) :=
    Built.new 8 true _ (show stringTableNew 8 true = some (emptyTable 256 true) from rfl)
  have h1 : Built (inserted (emptyTable 256 true) 0 97 97) :=
    Built.add _ 0 97 (_, true, 4) h0
      (show stringTableAdd (emptyTable 256 true) 0 97 = some (_, true, 4) from rfl)
  have h2 : Built (inserted (inserted (emptyTable 256 true) 0 97 97) 0 98 98) :=
    Built.add _ 0 98 (_, true, 5) h1
      (show stringTableAdd (inserted (emptyTable 256 true) 0 97 97) 0 98
        = some (_, true, 5) from rfl)
  have h3 : Built wTable :=
    Built.add _ 5 99 (wTable, true, 6) h2
      (show stringTableAdd (inserted (inserted (emptyTable 256 true) 0 97 97) 0 98 98) 5 99
        = some (wTable, true, 6) from rfl)
  exact ⟨⟨h3, by decide, by decide⟩, probing_terminates h3 (by decide) (by decide)⟩

theorem widthsIn_code {M w v : Nat} {l : List (Nat × Nat)} (h0 : v ≠ ESCAPE_CODE)
    (hw : 2 ≤ w ∧ w ≤ M) (h : widthsIn M l) : widthsIn M ((w, v) :: l) := by
  have e0 : (v == ESCAPE_CODE) = false := by simpa using h0
  intro f hf
  simp only [codeFields, e0, List.mem_cons] at hf
  rcases hf with hf | hf
  · rw [hf]; exact hw
  · exact h f hf

theorem widthsIn_escape {M w w' k : Nat} {l : List (Nat × Nat)} (hw : 2 ≤ w ∧ w ≤ M)
    (h : widthsIn M l) : widthsIn M ((w, ESCAPE_CODE) :: (w', k) :: l) := by
  intro f hf
  simp only [codeFields, beq_self_eq_true, List.mem_cons] at hf
  rcases hf with hf | hf
  · rw [hf]; exact hw
  · exact h f hf

theorem widthsIn_grow {M w : Nat} (T : stringTable) {l : List (Nat × Nat)}
    (hw : 2 ≤ w ∧ w ≤ M) (h : widthsIn M l) : widthsIn M ((checkNbits w T).1 ++ l) := by
  rcases checkNbits_cases w T with hg | hg
  · rw [hg]; exact h
  · rw [hg]
    exact widthsIn_code (by decide) hw h

theorem widthsIn_prune {M : Nat} {T : stringTable} {pi : pruneInfo} {window c w : Nat}
    {out : List (Nat × Nat)} {T' : stringTable} {pi' : pruneInfo} {c' w' : Nat}
    (hp : checkPrune T pi window c w = some (out, T', pi', c', w')) {l : List (Nat × Nat)}
    (hw : 2 ≤ w ∧ w ≤ M) (h : widthsIn M l) : widthsIn M (out ++ l) := by
  rcases checkPrune_cases hp with ⟨_, h1, _⟩ | ⟨_, _, h1, _⟩
  · rw [h1]; exact h
  · rw [h1]
    exact widthsIn_code (by decide) hw h

/-- The function `checkNbits` keeps the width within `maxBits`: it grows only below the
capacity `2 ^ maxBits`. -/
theorem checkNbits_range {M w : Nat} {T : stringTable} (hS : Sized T)
    (harr : T.arraySize = 2 ^ M) (hw : 2 ≤ w ∧ w ≤ M) :
    2 ≤ (checkNbits w T).2 ∧ (checkNbits w T).2 ≤ M := by
  unfold checkNbits
  rw [shiftLeft_one]
  have h := hS.hc_lt
  rw [harr] at h
  by_cases hg : T.highestCode > 2 ^ w - 1
  · rw [if_pos hg]
    show 2 ≤ w + 1 ∧ w + 1 ≤ M
    refine ⟨by omega, ?_⟩
    by_contra hcon
    have : w = M := by omega
    rw [this] at hg
    omega
  · rw [if_neg hg]
    exact hw

/-- The function `checkPrune` keeps the dictionary consistent and the width in range. -/
theorem checkPrune_keeps {M : Nat} (hM : 2 ≤ M) {T : stringTable} (hT : WFD T)
    (harr : T.arraySize = 2 ^ M) {pi : pruneInfo} {window c w : Nat}
    {out : List (Nat × Nat)} {T' : stringTable} {pi' : pruneInfo} {c' w' : Nat}
    (hp : checkPrune T pi window c w = some (out, T', pi', c', w')) (hw : 2 ≤ w ∧ w ≤ M) :
    WFD T' ∧ T'.arraySize = 2 ^ M ∧ 2 ≤ w' ∧ w' ≤ M := by
  rcases checkPrune_cases hp with ⟨_, _, h2, _, _, h5⟩ | ⟨_, _, _, _, h5, x, hx⟩
  · rw [h2, h5]
    exact ⟨hT, harr, hw⟩
  · obtain ⟨T2, pi2, x2, hprune, hT2, harr2, _⟩ := prune_WFD pi window c hT
    rw [hx] at hprune
    simp only [Option.some.injEq, Prod.mk.injEq] at hprune
    obtain ⟨e1, _, _⟩ := hprune
    rw [← e1] at hT2 harr2
    have hT' := hT2
    have harr' : T'.arraySize = 2 ^ M := by rw [harr2, harr]
    have hlt : T'.highestCode < 2 ^ M := by rw [← harr']; exact hT'.sized.hc_lt
    obtain ⟨h1, _, h3⟩ := nbitsFor_spec T'.highestCode M hM hlt
    rw [h5]
    exact ⟨hT', harr', h1, h3⟩

/-- A round of the encoder loop keeps the width in range, and so are the widths of the
codes it writes. -/
theorem encStep_widths {M : Nat} {eFlag : Bool} (hM : 2 ≤ M) {window k : Nat}
    {T : stringTable} {pi : pruneInfo} {c nbits : Nat} {out : List (Nat × Nat)}
    {T' : stringTable} {pi' : pruneInfo} {c' nbits' : Nat} (hI : EncInv M eFlag T c)
    (hw : 2 ≤ nbits ∧ nbits ≤ M) (h : EncStep window k T pi c nbits out T' pi' c' nbits') :
    (2 ≤ nbits' ∧ nbits' ≤ M) ∧ ∀ o, widthsIn M o → widthsIn M (out ++ o) := by
  cases h with
  | found e hs => exact ⟨hw, fun o ho => ho⟩
  | first T1 r nc out2 T2 pi2 c2 nbits2 hs hc ha hp =>
    have hT1 := add_WFD hI.wf (Or.inl rfl) ha
    have harr1 := (add_arraySize ha).trans hI.arr
    have hw1 := checkNbits_range hT1.sized harr1 hw
    obtain ⟨_, _, hw2⟩ := checkPrune_keeps hM hT1 harr1 hp hw1
    refine ⟨hw2, fun o ho => ?_⟩
    simp only [List.append_assoc, List.cons_append, List.nil_append]
    exact widthsIn_escape hw (widthsIn_grow T1 hw (widthsIn_prune hp hw1 ho))
  | elseFound T1 r x out2 T2 pi2 c2 nbits2 kCode hs hc ha hp hk =>
    have hv : validCode T c := by
      rcases hI.cval with h | h
      · exact absurd h hc
      · exact h
    have hT1 := add_WFD hI.wf (Or.inr hv) ha
    have harr1 := (add_arraySize ha).trans hI.arr
    obtain ⟨hT2, harr2, hw2⟩ := checkPrune_keeps hM hT1 harr1 hp hw
    have hw3 := checkNbits_range hT2.sized harr2 hw2
    refine ⟨hw3, fun o ho => ?_⟩
    simp only [List.append_assoc, List.cons_append, List.nil_append]
    exact widthsIn_code (valid_not_special hv).1 hw
      (widthsIn_prune hp hw (widthsIn_grow T' hw2 ho))
  | elseEscape T1 r x out2 T2 pi2 c2 nbits2 T3 r3 nc3 out4 T4 pi4 c4 nbits4 hs hc ha hp hk
      ha3 hp4 =>
    have hv : validCode T c := by
      rcases hI.cval with h | h
      · exact absurd h hc
      · exact h
    have hT1 := add_WFD hI.wf (Or.inr hv) ha
    have harr1 := (add_arraySize ha).trans hI.arr
    obtain ⟨hT2, harr2, hw2⟩ := checkPrune_keeps hM hT1 harr1 hp hw
    have hw3 := checkNbits_range hT2.sized harr2 hw2
    have hT3 := add_WFD hT2 (Or.inl rfl) ha3
    have harr3 := (add_arraySize ha3).trans harr2
    have hw4 := checkNbits_range hT3.sized harr3 hw3
    obtain ⟨_, _, hw5⟩ := checkPrune_keeps hM hT3 harr3 hp4 hw4
    refine ⟨hw5, fun o ho => ?_⟩
    simp only [List.append_assoc, List.cons_append, List.nil_append]
    exact widthsIn_code (valid_not_special hv).1 hw
      (widthsIn_prune hp hw (widthsIn_grow T2 hw2 (widthsIn_escape hw3
        (widthsIn_grow T' hw3 (widthsIn_prune hp4 hw4 ho)))))

/-- In a run that drops no rebuilt table the loop of `encode` returns and every code it
writes has a width from 2 to `maxBits`. -/
theorem encodeLoop_widths {M : Nat} {eFlag : Bool} (hM : 2 ≤ M) (window : Nat) :
    ∀ (input : List Nat) (T : stringTable) (pi : pruneInfo) (c nbits : Nat),
      EncInv M eFlag T c → 2 ≤ nbits ∧ nbits ≤ M →
      keepsTableLoop window input T pi c nbits = true →
      ∃ o, encodeLoop window input T pi c nbits = some o ∧ widthsIn M o := by
  intro input
  induction input with
  | nil =>
    intro T pi c nbits hI hw _
    refine ⟨_, encodeLoop_nil window T pi c nbits, ?_⟩
    have hstop : widthsIn M [(nbits, STOP_CODE)] :=
      widthsIn_code (by decide) hw (fun f hf => by simp [codeFields] at hf)
    by_cases hc : c = EMPTY_PREFIX
    · have : (c != EMPTY_PREFIX) = false := by simp [hc]
      rw [this]
      exact hstop
    · have : (c != EMPTY_PREFIX) = true := by simpa using hc
      rw [this]
      have hv : validCode T c := by
        rcases hI.cval with h | h
        · exact absurd h hc
        · exact h
      exact widthsIn_code (valid_not_special hv).1 hw hstop
  | cons k rest ih =>
    intro T pi c nbits hI hw hkeep
    obtain ⟨out, T', pi', c', nbits', hstep, hI', hkeep'⟩ :=
      encStep_total window k rest pi nbits hI hkeep
    obtain ⟨hw', hout⟩ := encStep_widths hM hI hw hstep
    obtain ⟨o, ho, hwi⟩ := ih T' pi' c' nbits' hI' hw' hkeep'
    exact ⟨out ++ o, by rw [encodeLoop_step hstep, ho]; rfl, hout o hwi⟩

/-- The body written by the encoder loop has a code field. -/
theorem encodeLoop_nonempty {M : Nat} {eFlag : Bool} (window : Nat) :
    ∀ (input : List Nat) (T : stringTable) (pi : pruneInfo) (c nbits : Nat)
      (o : List (Nat × Nat)), EncInv M eFlag T c →
      keepsTableLoop window input T pi c nbits = true →
      encodeLoop window input T pi c nbits = some o → codeFields false o ≠ [] := by
  intro input
  induction input with
  | nil =>
    intro T pi c nbits o _ _ h
    rw [encodeLoop_nil] at h
    simp only [Option.some.injEq] at h
    rw [← h]
    by_cases hc : (c != EMPTY_PREFIX) = true
    · rw [if_pos hc]
      simp [codeFields]
    · rw [if_neg hc]
      simp [codeFields]
  | cons k rest ih =>
    intro T pi c nbits o hI hkeep h
    obtain ⟨out, T', pi', c', nbits', hstep, hI', hkeep'⟩ :=
      encStep_total window k rest pi nbits hI hkeep
    rw [encodeLoop_step hstep] at h
    cases ho : encodeLoop window rest T' pi' c' nbits' with
    | none => rw [ho] at h; simp at h
    | some o' =>
      rw [ho] at h
      simp only [Option.map_some', Option.some.injEq] at h
      rw [← h]
      have hne := ih T' pi' c' nbits' o' hI' hkeep' ho
      cases hstep with
      | found e hs => exact hne
      | first T1 r nc out2 T2 pi2 c2 nbits2 hs hc ha hp => simp [codeFields]
      | elseFound T1 r x out2 T2 pi2 c2 nbits2 kCode hs hc ha hp hk => simp [codeFields]
      | elseEscape T1 r x out2 T2 pi2 c2 nbits2 T3 r3 nc3 out4 T4 pi4 c4 nbits4 hs hc ha hp
          hk ha3 hp4 => simp [codeFields]

set_option maxRecDepth 100000 in
/-- C23 fails as stated: with `maxBits = 8` and no escape the width starts at 9, above
`maxBits`; on the empty input `STOP_CODE` is written in 9 bits. -/
theorem width_range_counterexample :
    encodeBody 8 0 false [] = some [(9, STOP_CODE)] ∧ ¬ (9 ≤ 8) := by
  refine ⟨by decide!, by decide⟩

/-- C23, as amended (code width stays in range): for every `maxBits` in `[8, 24]` that is
at least 9 when escape is disabled, every window, either flag and every input on which the
`checkPrune` call whose returned table the source does not store (line 154) never prunes,
`encode` returns, every code of its body is written at a width `nbits` with
`2 ≤ nbits ≤ maxBits`, and the first one at the width 2 with escape enabled and 9
otherwise. Every value that `nbits` takes is the width of a code: the width changes only
in `checkNbits` and `checkPrune`, after a code written at the old width, and the run ends
with `STOP_CODE` at the last one. -/
theorem width_range (B : List Nat) (maxBits window : Nat) (eFlag : Bool) (h8 : 8 ≤ maxBits)
    (h24 : maxBits ≤ 24) (h9 : eFlag = false → 9 ≤ maxBits)
    (hkeep : keepsTable maxBits window eFlag B = true) :
    ∃ body, encodeBody maxBits window eFlag B = some body ∧
      (∀ f ∈ codeFields false body, 2 ≤ f.1 ∧ f.1 ≤ maxBits) ∧
      ∃ f rest, codeFields false body = f :: rest ∧ f.1 = (if eFlag then 2 else 9) := by
  obtain ⟨T0, hnew, hI⟩ := new_EncInv maxBits eFlag h8 h24
  have hk0 := keepsTable_loop hnew hkeep
  have hinit : 2 ≤ (if eFlag then 2 else 9) ∧ (if eFlag then 2 else 9) ≤ maxBits := by
    cases eFlag with
    | true => exact ⟨Nat.le_refl _, by simp only [if_true]; omega⟩
    | false =>
      have := h9 rfl
      exact ⟨by decide, by simp only [Bool.false_eq_true, if_false]; omega⟩
  obtain ⟨o, ho, hwi⟩ := encodeLoop_widths (by omega) window B T0 (pruneInfoNew maxBits)
    EMPTY_PREFIX (if eFlag then 2 else 9) hI hinit hk0
  obtain ⟨o', ho', hlaw⟩ := encodeLoop_widthLaw window B T0 (pruneInfoNew maxBits)
    EMPTY_PREFIX (if eFlag then 2 else 9) hI hk0
  rw [ho] at ho'
  simp only [Option.some.injEq] at ho'
  rw [← ho'] at hlaw
  refine ⟨o, by rw [encodeBody_eq hnew, ho], hwi, ?_⟩
  have hne := encodeLoop_nonempty window B T0 (pruneInfoNew maxBits) EMPTY_PREFIX
    (if eFlag then 2 else 9) o hI hk0 ho
  cases hcf : codeFields false o with
  | nil => exact absurd hcf hne
  | cons f rest =>
    refine ⟨f, rest, rfl, ?_⟩
    rw [hcf, widthLaw] at hlaw
    simp only [Bool.and_eq_true, beq_iff_eq] at hlaw
    exact hlaw.1

theorem width_range_witness :
    (8 ≤ 9 ∧ 9 ≤ 24 ∧ (true = false → 9 ≤ 9) ∧
      keepsTable 9 64 true [65, 66, 65, 66, 65] = true) ∧
    ∃ body, encodeBody 9 64 true [65, 66, 65, 66, 65] = some body ∧
      (∀ f ∈ codeFields false body, 2 ≤ f.1 ∧ f.1 ≤ 9) ∧
      ∃ f rest, codeFields false body = f :: rest ∧ f.1 = (if true = true then 2 else 9) :=
  ⟨⟨by decide, by decide, fun _ => by decide, rfl⟩,
    width_range [65, 66, 65, 66, 65] 9 64 true (by decide) (by decide) (fun _ => by decide)
      rfl⟩

end LZW
